import Mathlib

/-!
Verification of the mindmap tree store (`src/stores/mindmapStore.ts`).

The JavaScript store keeps a record `nodes : Record<string, MindMapNode>`
together with a `rootNodeId`.  We embed the record as an association list
`List (String × MindMapNode)` with JavaScript object semantics: updating an
existing key replaces the entry in place, adding a new key appends it, and
lookup returns the first matching entry.  Numbers are embedded as exact
rationals (`Rat`) for coordinates and naturals for tree levels.  The
unbounded JavaScript recursions (layout, recursive delete, ancestor walks)
are embedded with an explicit fuel parameter; the store-level operations
instantiate the fuel with `nodes.length + 1`, which is shown to be
sufficient on well-formed trees.
-/

namespace MyMap

-- The Batteries rational primitives are `[irreducible]`, which blocks
-- `decide`-style evaluation of concrete layouts; restore the default
-- reducibility for this file.
attribute [local semireducible] Rat.add Rat.mul Rat.inv Rat.sub

/-- Coordinate pair, from `types/mindmap.ts` (`Position`). -/
structure Pos where
  x : Rat
  y : Rat
deriving DecidableEq

/-- Node record, from `types/mindmap.ts` (`MindMapNode`). -/
structure MindMapNode where
  id : String
  title : String
  position : Pos
  color : String
  isCompleted : Bool
  isCollapsed : Bool
  parentId : Option String
  childrenIds : List String
  details : Option String
  externalLink : Option String
  level : Nat
  isSelected : Bool
  isEditing : Bool
deriving DecidableEq

/-- The `nodes` record of the store, with JavaScript object semantics. -/
abbrev Nodes := List (String × MindMapNode)

/-- Reading `nodes[id]`: first entry with the given key. -/
def lookupNode : Nodes → String → Option MindMapNode
  | [], _ => none
  | (k, v) :: rest, id => if k = id then some v else lookupNode rest id

/-- Writing `nodes[id] = v`: replace the first entry with that key in place,
or append a fresh entry at the end (JavaScript object update semantics). -/
def insertNode : Nodes → String → MindMapNode → Nodes
  | [], id, v => [(id, v)]
  | (k, w) :: rest, id, v =>
    if k = id then (k, v) :: rest else (k, w) :: insertNode rest id v

/-- Deleting `delete nodes[id]`: remove the entry with that key. -/
def eraseNode : Nodes → String → Nodes
  | [], _ => []
  | (k, w) :: rest, id => if k = id then rest else (k, w) :: eraseNode rest id

/-- Keys of the record in iteration order (`Object.keys`). -/
def keysOf (s : Nodes) : List String := s.map Prod.fst

-- Layout constants from `mindmapStore.ts`.

/-- Layout constant `VERTICAL_SPACING = 14`. -/
def VERTICAL_SPACING : Rat := 14

/-- Layout constant `MIN_HORIZONTAL_SPACING = 50`. -/
def MIN_HORIZONTAL_SPACING : Rat := 50

/-- Layout constant `NODE_HEIGHT = 32`. -/
def NODE_HEIGHT : Rat := 32

/-- JavaScript `Math.max` on two numbers (via the executable comparison
`Rat.blt`, which the kernel can evaluate). -/
def ratMax (a b : Rat) : Rat := if Rat.blt a b then b else a

/-- JavaScript `Math.min` on two numbers. -/
def ratMin (a b : Rat) : Rat := if Rat.blt a b then a else b

/-- The function `getNodeWidth`: title-length-based width clamped to
`[32, 320]` (`0.6 * 14 * title.length + 8`). -/
def getNodeWidth (node : MindMapNode) : Rat :=
  let fontSize : Rat := 14
  let textWidth : Rat := (6 / 10) * fontSize * node.title.length
  let padding : Rat := 8
  let baseWidth := textWidth + padding
  ratMax 32 (ratMin 320 baseWidth)

/-- The function `calculateHorizontalSpacing` (always returns the
constant `MIN_HORIZONTAL_SPACING`). -/
def calculateHorizontalSpacing (_parentNode _childNode : MindMapNode) : Rat :=
  MIN_HORIZONTAL_SPACING

/-- The expression
`node.childrenIds.map(id => nodes[id]).filter(c => c && !c.isCollapsed)`
shared by `calculateSubtreeHeight` and `layoutNode`: resolve the children
ids and keep only entries that exist and are not themselves collapsed. -/
def visibleChildren (s : Nodes) (node : MindMapNode) : List MindMapNode :=
  node.childrenIds.filterMap fun childId =>
    match lookupNode s childId with
    | some c => if c.isCollapsed then none else some c
    | none => none

/-- The inner function `calculateSubtreeHeight` of `calculateBalancedLayout`,
with fuel for the unbounded JavaScript recursion. -/
def calculateSubtreeHeight (s : Nodes) : Nat → String → Rat
  | 0, _ => 0
  | fuel + 1, nodeId =>
    match lookupNode s nodeId with
    | none => 0
    | some node =>
      let children := visibleChildren s node
      if children.isEmpty then NODE_HEIGHT
      else
        let totalChildHeight :=
          children.foldl (fun sum child => sum + calculateSubtreeHeight s fuel child.id) 0
        let totalSpacing := ((children.length : Rat) - 1) * VERTICAL_SPACING
        ratMax (totalChildHeight + totalSpacing) NODE_HEIGHT

/-- Update of one node performed by `layoutNode`: overwrite `position` and
`level`, keep every other field. -/
def setPosLevel (n : MindMapNode) (x y : Rat) (lv : Nat) : MindMapNode :=
  { n with position := ⟨x, y⟩, level := lv }

/-- The `children.forEach` loop of `layoutNode`: lay out the children in
order, stacking their subtree heights from `currentY` downwards.  The
recursive call on each child is abstracted as `step` (instantiated with
`layoutNode` at the next smaller fuel). -/
def layoutChildrenLoop (hf : Nat) (step : Nodes → String → Rat → Rat → Nodes)
    (node : MindMapNode) (parentX : Rat) :
    List MindMapNode → Nodes → Rat → Nodes
  | [], s, _ => s
  | child :: rest, s, currentY =>
    let childHeight := calculateSubtreeHeight s hf child.id
    let childY := currentY + childHeight / 2
    let childX := parentX + getNodeWidth node + calculateHorizontalSpacing node child
    let s1 := step s child.id childX childY
    layoutChildrenLoop hf step node parentX rest s1 (currentY + childHeight + VERTICAL_SPACING)

/-- The inner function `layoutNode` of `calculateBalancedLayout`: position
the node at `(parentX, parentY)` with the given `level`, then recursively
lay out its visible children centered on it.  `hf` is the fuel handed to
`calculateSubtreeHeight`, `fuel` bounds the recursion depth. -/
def layoutNode (hf : Nat) : Nat → Nodes → String → Rat → Rat → Nat → Nodes
  | 0, s, _, _, _, _ => s
  | fuel + 1, s, nodeId, parentX, parentY, level =>
    match lookupNode s nodeId with
    | none => s
    | some node =>
      let children := visibleChildren s node
      let s1 := insertNode s nodeId (setPosLevel node parentX parentY level)
      if children.isEmpty then s1
      else
        let totalChildHeight :=
          children.foldl (fun sum child => sum + calculateSubtreeHeight s1 hf child.id) 0
        let totalSpacing := ((children.length : Rat) - 1) * VERTICAL_SPACING
        let totalHeight := totalChildHeight + totalSpacing
        layoutChildrenLoop hf
          (fun m cid cx cy => layoutNode hf fuel m cid cx cy (level + 1))
          node parentX children s1 (parentY - totalHeight / 2)

/-- The function `calculateBalancedLayout`: start the layout at the root,
keeping the root at its current position and level `0`.  A missing root
leaves the record unchanged. -/
def calculateBalancedLayout (hf fuel : Nat) (nodes : Nodes) (rootId : String) : Nodes :=
  match lookupNode nodes rootId with
  | none => nodes
  | some rootNode =>
    layoutNode hf fuel nodes rootId rootNode.position.x rootNode.position.y 0

/-- The function `rebalanceTree` (an alias of `calculateBalancedLayout`);
the store-level fuel is `nodes.length + 1`, which suffices on well-formed
trees since every recursion descends a strict level. -/
def rebalanceTree (nodes : Nodes) (rootId : String) : Nodes :=
  calculateBalancedLayout (nodes.length + 1) (nodes.length + 1) nodes rootId

/-! Basic association-list lemmas. -/

theorem lookupNode_insertNode (s : Nodes) (id k : String) (v : MindMapNode) :
    lookupNode (insertNode s id v) k = if id = k then some v else lookupNode s k := by
  induction s with
  | nil =>
    simp only [insertNode, lookupNode]
  | cons p rest ih =>
    obtain ⟨ka, va⟩ := p
    by_cases h1 : ka = id
    · subst h1
      by_cases h2 : ka = k <;> simp [insertNode, lookupNode, h2]
    · by_cases h2 : ka = k
      · subst h2
        have h3 : ¬ id = ka := fun hh => h1 hh.symm
        simp [insertNode, lookupNode, h1, h3]
      · simp [insertNode, lookupNode, h1, h2, ih]

theorem lookupNode_eq_none_of_not_mem (s : Nodes) (k : String)
    (h : k ∉ keysOf s) : lookupNode s k = none := by
  induction s with
  | nil => rfl
  | cons p rest ih =>
    obtain ⟨ka, va⟩ := p
    simp only [keysOf, List.map_cons, List.mem_cons, not_or] at h
    have h1 : ¬ ka = k := fun hh => h.1 hh.symm
    simp only [lookupNode, if_neg h1]
    exact ih h.2

theorem mem_keys_of_lookup_some (s : Nodes) (k : String) (n : MindMapNode)
    (h : lookupNode s k = some n) : k ∈ keysOf s := by
  induction s with
  | nil => simp [lookupNode] at h
  | cons p rest ih =>
    obtain ⟨ka, va⟩ := p
    by_cases hk : ka = k
    · subst hk; simp [keysOf]
    · simp only [lookupNode, if_neg hk] at h
      simp only [keysOf, List.map_cons, List.mem_cons]
      exact Or.inr (ih h)

theorem entry_mem_of_lookup_some (s : Nodes) (k : String) (n : MindMapNode)
    (h : lookupNode s k = some n) : (k, n) ∈ s := by
  induction s with
  | nil => simp [lookupNode] at h
  | cons p rest ih =>
    obtain ⟨ka, va⟩ := p
    by_cases hk : ka = k
    · subst hk
      simp [lookupNode] at h
      subst h
      exact List.mem_cons_self _ _
    · simp only [lookupNode, if_neg hk] at h
      exact List.mem_cons_of_mem _ (ih h)

theorem keysOf_insertNode_mem (s : Nodes) (id : String) (v : MindMapNode)
    (h : id ∈ keysOf s) : keysOf (insertNode s id v) = keysOf s := by
  induction s with
  | nil => simp [keysOf] at h
  | cons p rest ih =>
    obtain ⟨ka, va⟩ := p
    by_cases h1 : ka = id
    · simp [insertNode, h1, keysOf]
    · have h2 : id ∈ keysOf rest := by
        simp only [keysOf, List.map_cons, List.mem_cons] at h
        rcases h with h | h
        · exact absurd h.symm h1
        · exact h
      have h3 := ih h2
      simp only [keysOf, List.map_cons] at h3 ⊢
      simp only [insertNode, if_neg h1, List.map_cons, h3]

theorem nodes_ext (s t : Nodes) (hk : keysOf s = keysOf t)
    (hnd : (keysOf s).Nodup)
    (hl : ∀ k, lookupNode s k = lookupNode t k) : s = t := by
  induction s generalizing t with
  | nil =>
    cases t with
    | nil => rfl
    | cons q t2 => simp [keysOf] at hk
  | cons p rest ih =>
    obtain ⟨ka, va⟩ := p
    cases t with
    | nil => simp [keysOf] at hk
    | cons q t2 =>
      obtain ⟨kb, vb⟩ := q
      simp only [keysOf, List.map_cons, List.cons.injEq] at hk
      obtain ⟨hkey, htail⟩ := hk
      subst hkey
      have hv : va = vb := by
        have h0 := hl ka
        simpa [lookupNode] using h0
      subst hv
      simp only [keysOf, List.map_cons, List.nodup_cons] at hnd
      have hmem2 : ka ∉ List.map Prod.fst t2 := htail ▸ hnd.1
      have htl : ∀ k, lookupNode rest k = lookupNode t2 k := by
        intro k
        by_cases hk2 : ka = k
        · subst hk2
          rw [lookupNode_eq_none_of_not_mem _ _ hnd.1,
              lookupNode_eq_none_of_not_mem _ _ hmem2]
        · have h0 := hl k
          simpa [lookupNode, if_neg hk2] using h0
      have := ih t2 htail hnd.2 htl
      rw [this]

/-! Shape equivalence: the layout only rewrites `position` and `level`. -/

/-- Projection forgetting the two fields the layout writes. -/
def stripPL (n : MindMapNode) : MindMapNode :=
  { n with position := ⟨0, 0⟩, level := 0 }

/-- Two records are shape-equivalent when they agree everywhere except
possibly on `position` and `level` values. -/
def shapeEq (s t : Nodes) : Prop :=
  ∀ k, (lookupNode s k).map stripPL = (lookupNode t k).map stripPL

theorem shapeEq.refl (s : Nodes) : shapeEq s s := fun _ => rfl

theorem shapeEq.symm {s t : Nodes} (h : shapeEq s t) : shapeEq t s :=
  fun k => (h k).symm

theorem shapeEq.trans {s t u : Nodes} (h1 : shapeEq s t) (h2 : shapeEq t u) :
    shapeEq s u := fun k => (h1 k).trans (h2 k)

theorem stripPL_setPosLevel (n : MindMapNode) (x y : Rat) (lv : Nat) :
    stripPL (setPosLevel n x y lv) = stripPL n := rfl

theorem stripPL_title (n : MindMapNode) : (stripPL n).title = n.title := rfl

theorem stripPL_id (n : MindMapNode) : (stripPL n).id = n.id := rfl

theorem stripPL_childrenIds (n : MindMapNode) :
    (stripPL n).childrenIds = n.childrenIds := rfl

theorem stripPL_isCollapsed (n : MindMapNode) :
    (stripPL n).isCollapsed = n.isCollapsed := rfl

theorem stripPL_parentId (n : MindMapNode) :
    (stripPL n).parentId = n.parentId := rfl

theorem title_of_stripPL_eq {n m : MindMapNode} (h : stripPL n = stripPL m) :
    n.title = m.title := by
  rw [← stripPL_title n, ← stripPL_title m, h]

theorem id_of_stripPL_eq {n m : MindMapNode} (h : stripPL n = stripPL m) :
    n.id = m.id := by
  rw [← stripPL_id n, ← stripPL_id m, h]

theorem childrenIds_of_stripPL_eq {n m : MindMapNode} (h : stripPL n = stripPL m) :
    n.childrenIds = m.childrenIds := by
  rw [← stripPL_childrenIds n, ← stripPL_childrenIds m, h]

theorem isCollapsed_of_stripPL_eq {n m : MindMapNode} (h : stripPL n = stripPL m) :
    n.isCollapsed = m.isCollapsed := by
  rw [← stripPL_isCollapsed n, ← stripPL_isCollapsed m, h]

theorem getNodeWidth_congr {n m : MindMapNode} (h : stripPL n = stripPL m) :
    getNodeWidth n = getNodeWidth m := by
  simp [getNodeWidth, title_of_stripPL_eq h]

theorem shapeEq_insert_setPosLevel (s : Nodes) (id : String) (n : MindMapNode)
    (h : lookupNode s id = some n) (x y : Rat) (lv : Nat) :
    shapeEq s (insertNode s id (setPosLevel n x y lv)) := by
  intro k
  rw [lookupNode_insertNode]
  by_cases hk : id = k
  · subst hk
    rw [h]
    simp [stripPL_setPosLevel]
  · simp [hk]

theorem visibleChildren_congr {s t : Nodes} (hst : shapeEq s t)
    {n m : MindMapNode} (hnm : stripPL n = stripPL m) :
    (visibleChildren s n).map stripPL = (visibleChildren t m).map stripPL := by
  have hc : n.childrenIds = m.childrenIds := childrenIds_of_stripPL_eq hnm
  unfold visibleChildren
  rw [← hc]
  generalize n.childrenIds = l
  induction l with
  | nil => rfl
  | cons cid rest ih =>
    have hk := hst cid
    cases hs : lookupNode s cid with
    | none =>
      rw [hs] at hk
      cases ht : lookupNode t cid with
      | none => simpa [List.filterMap_cons, hs, ht] using ih
      | some c => rw [ht] at hk; simp at hk
    | some c =>
      rw [hs] at hk
      cases ht : lookupNode t cid with
      | none => rw [ht] at hk; simp at hk
      | some d =>
        rw [ht] at hk
        simp at hk
        have hcol : c.isCollapsed = d.isCollapsed :=
          isCollapsed_of_stripPL_eq hk
        by_cases hcc : c.isCollapsed
        · have hdd : d.isCollapsed := hcol ▸ hcc
          simpa [List.filterMap_cons, hs, ht, hcc, hdd] using ih
        · have hdd : ¬ d.isCollapsed := fun hh => hcc (hcol ▸ hh)
          simpa [List.filterMap_cons, hs, ht, hcc, hdd, hk] using ih

/-! The footprint of a layout run: the ordered list of `(key, x, y, level)`
writes it performs.  Positions assigned by `layoutNode` depend only on the
shape of the record (children ids, collapse flags, titles), never on the
positions already written, so a layout run equals applying its footprint,
and the footprint itself is shape-invariant.  This is the engine behind the
idempotence and frame theorems about `calculateBalancedLayout`. -/

/-- One position/level write performed by the layout. -/
structure Assign where
  key : String
  ax : Rat
  ay : Rat
  alv : Nat
deriving DecidableEq

/-- Application of a single footprint write (only touches existing keys,
as `layoutNode` does). -/
def insertPosLevel (s : Nodes) (a : Assign) : Nodes :=
  match lookupNode s a.key with
  | none => s
  | some n => insertNode s a.key (setPosLevel n a.ax a.ay a.alv)

/-- Application of a whole footprint, in order. -/
def applyFoot (s : Nodes) (L : List Assign) : Nodes :=
  L.foldl insertPosLevel s

/-- Pointwise effect of a footprint on a single optional record. -/
def applyA (o : Option MindMapNode) (L : List Assign) : Option MindMapNode :=
  L.foldl (fun acc a => acc.map fun n => setPosLevel n a.ax a.ay a.alv) o

theorem applyFoot_nil (s : Nodes) : applyFoot s [] = s := rfl

theorem applyFoot_cons (s : Nodes) (a : Assign) (L : List Assign) :
    applyFoot s (a :: L) = applyFoot (insertPosLevel s a) L := rfl

theorem applyFoot_append (s : Nodes) (L1 L2 : List Assign) :
    applyFoot s (L1 ++ L2) = applyFoot (applyFoot s L1) L2 := by
  simp [applyFoot, List.foldl_append]

theorem lookup_insertPosLevel (s : Nodes) (a : Assign) (k : String) :
    lookupNode (insertPosLevel s a) k =
      if a.key = k then (lookupNode s k).map (fun n => setPosLevel n a.ax a.ay a.alv)
      else lookupNode s k := by
  unfold insertPosLevel
  cases h : lookupNode s a.key with
  | none =>
    by_cases hk : a.key = k
    · subst hk
      simp [h]
    · simp [hk]
  | some n =>
    rw [lookupNode_insertNode]
    by_cases hk : a.key = k
    · subst hk
      simp [h]
    · simp [hk]

theorem lookup_applyFoot (L : List Assign) (s : Nodes) (k : String) :
    lookupNode (applyFoot s L) k
      = applyA (lookupNode s k) (L.filter fun a => a.key = k) := by
  induction L generalizing s with
  | nil => rfl
  | cons a L ih =>
    rw [applyFoot_cons, ih]
    by_cases hk : a.key = k
    · subst hk
      simp only [List.filter_cons, decide_eq_true_eq, if_pos rfl]
      rw [lookup_insertPosLevel]
      simp [applyA]
    · simp only [List.filter_cons, decide_eq_true_eq, if_neg hk]
      rw [lookup_insertPosLevel]
      simp [hk]

theorem keysOf_insertPosLevel (s : Nodes) (a : Assign) :
    keysOf (insertPosLevel s a) = keysOf s := by
  unfold insertPosLevel
  cases h : lookupNode s a.key with
  | none => rfl
  | some n => exact keysOf_insertNode_mem _ _ _ (mem_keys_of_lookup_some _ _ _ h)

theorem keysOf_applyFoot (L : List Assign) (s : Nodes) :
    keysOf (applyFoot s L) = keysOf s := by
  induction L generalizing s with
  | nil => rfl
  | cons a L ih => rw [applyFoot_cons, ih, keysOf_insertPosLevel]

theorem shapeEq_insertPosLevel (s : Nodes) (a : Assign) :
    shapeEq s (insertPosLevel s a) := by
  intro k
  rw [lookup_insertPosLevel]
  by_cases hk : a.key = k
  · subst hk
    cases h : lookupNode s a.key <;> simp [stripPL_setPosLevel]
  · simp [hk]

theorem shapeEq_applyFoot (L : List Assign) (s : Nodes) :
    shapeEq s (applyFoot s L) := by
  induction L generalizing s with
  | nil => exact shapeEq.refl s
  | cons a L ih =>
    rw [applyFoot_cons]
    exact (shapeEq_insertPosLevel s a).trans (ih _)

theorem setPosLevel_setPosLevel (n : MindMapNode) (x1 y1 : Rat) (l1 : Nat)
    (x2 y2 : Rat) (l2 : Nat) :
    setPosLevel (setPosLevel n x1 y1 l1) x2 y2 l2 = setPosLevel n x2 y2 l2 := rfl

theorem applyA_nil (o : Option MindMapNode) : applyA o [] = o := rfl

theorem applyA_cons (o : Option MindMapNode) (a : Assign) (L : List Assign) :
    applyA o (a :: L) = applyA (o.map fun n => setPosLevel n a.ax a.ay a.alv) L := rfl

theorem applyA_map_absorb (L : List Assign) (o : Option MindMapNode)
    (a : Assign) (hL : L ≠ []) :
    applyA (o.map fun n => setPosLevel n a.ax a.ay a.alv) L = applyA o L := by
  induction L generalizing o a with
  | nil => exact absurd rfl hL
  | cons b L ih =>
    rw [applyA_cons, applyA_cons]
    cases hl2 : L with
    | nil =>
      subst hl2
      simp only [applyA_nil]
      cases o with
      | none => rfl
      | some n => simp [setPosLevel_setPosLevel]
    | cons c L2 =>
      rw [← hl2]
      have h1 : (o.map fun n => setPosLevel n a.ax a.ay a.alv).map
          (fun n => setPosLevel n b.ax b.ay b.alv)
          = o.map fun n => setPosLevel n b.ax b.ay b.alv := by
        cases o with
        | none => rfl
        | some n => simp [setPosLevel_setPosLevel]
      rw [h1]

theorem applyA_applyA (o : Option MindMapNode) (L : List Assign) :
    applyA (applyA o L) L = applyA o L := by
  induction L generalizing o with
  | nil => rfl
  | cons a L ih =>
    rw [applyA_cons, applyA_cons]
    cases hl : L with
    | nil =>
      subst hl
      simp only [applyA_nil]
      cases o with
      | none => rfl
      | some n => simp [setPosLevel_setPosLevel]
    | cons b L2 =>
      rw [← hl]
      rw [applyA_map_absorb _ _ _ (by simp [hl])]
      exact ih _

theorem applyFoot_idem (s : Nodes) (L : List Assign)
    (hnd : (keysOf s).Nodup) :
    applyFoot (applyFoot s L) L = applyFoot s L := by
  apply nodes_ext
  · rw [keysOf_applyFoot, keysOf_applyFoot]
  · rw [keysOf_applyFoot, keysOf_applyFoot]
    exact hnd
  · intro k
    rw [lookup_applyFoot, lookup_applyFoot]
    exact applyA_applyA _ _

theorem ids_of_stripPL_map {l1 l2 : List MindMapNode}
    (h : l1.map stripPL = l2.map stripPL) :
    l1.map MindMapNode.id = l2.map MindMapNode.id := by
  have := congrArg (List.map MindMapNode.id) h
  simpa [List.map_map, Function.comp] using this

theorem length_of_stripPL_map {l1 l2 : List MindMapNode}
    (h : l1.map stripPL = l2.map stripPL) : l1.length = l2.length := by
  have := congrArg List.length h
  simpa using this

theorem isEmpty_of_stripPL_map {l1 l2 : List MindMapNode}
    (h : l1.map stripPL = l2.map stripPL) : l1.isEmpty = l2.isEmpty := by
  have hlen := length_of_stripPL_map h
  cases h1 : l1 with
  | nil =>
    cases h2 : l2 with
    | nil => rfl
    | cons b u => rw [h1, h2] at hlen; simp at hlen
  | cons a u =>
    cases h2 : l2 with
    | nil => rw [h1, h2] at hlen; simp at hlen
    | cons b u2 => rfl

theorem calculateSubtreeHeight_congr {s t : Nodes} (hst : shapeEq s t) :
    ∀ (hf : Nat) (id : String),
      calculateSubtreeHeight s hf id = calculateSubtreeHeight t hf id := by
  intro hf
  induction hf with
  | zero => intro id; rfl
  | succ hf ih =>
    intro id
    have hk := hst id
    cases hs : lookupNode s id with
    | none =>
      rw [hs] at hk
      cases ht : lookupNode t id with
      | none => simp [calculateSubtreeHeight, hs, ht]
      | some m => rw [ht] at hk; simp at hk
    | some n =>
      rw [hs] at hk
      cases ht : lookupNode t id with
      | none => rw [ht] at hk; simp at hk
      | some m =>
        rw [ht] at hk
        simp at hk
        have hk2 : stripPL n = stripPL m := by
          simpa using hk
        have hvc := visibleChildren_congr hst hk2
        have hids := ids_of_stripPL_map hvc
        have hlen : (visibleChildren s n).length = (visibleChildren t m).length := by
          have := congrArg List.length hvc
          simpa using this
        simp only [calculateSubtreeHeight, hs, ht]
        have hemp : (visibleChildren s n).isEmpty = (visibleChildren t m).isEmpty := by
          cases h1 : visibleChildren s n with
          | nil =>
            cases h2 : visibleChildren t m with
            | nil => rfl
            | cons b l2 => rw [h1, h2] at hlen; simp at hlen
          | cons a l =>
            cases h2 : visibleChildren t m with
            | nil => rw [h1, h2] at hlen; simp at hlen
            | cons b l2 => rfl
        rw [hemp]
        cases he : (visibleChildren t m).isEmpty with
        | true => simp [he]
        | false =>
          simp only [he, Bool.false_eq_true, if_false]
          rw [hlen]
          have hfold :
              (visibleChildren s n).foldl
                  (fun sum child => sum + calculateSubtreeHeight s hf child.id) 0
                = (visibleChildren t m).foldl
                  (fun sum child => sum + calculateSubtreeHeight t hf child.id) 0 := by
            have e1 : (visibleChildren s n).foldl
                  (fun sum child => sum + calculateSubtreeHeight s hf child.id) 0
                = ((visibleChildren s n).map MindMapNode.id).foldl
                  (fun sum i => sum + calculateSubtreeHeight s hf i) 0 := by
              rw [List.foldl_map]
            have e2 : (visibleChildren t m).foldl
                  (fun sum child => sum + calculateSubtreeHeight t hf child.id) 0
                = ((visibleChildren t m).map MindMapNode.id).foldl
                  (fun sum i => sum + calculateSubtreeHeight t hf i) 0 := by
              rw [List.foldl_map]
            rw [e1, e2, hids]
            have hfun : (fun (sum : Rat) i => sum + calculateSubtreeHeight s hf i)
                = fun (sum : Rat) i => sum + calculateSubtreeHeight t hf i := by
              funext a i
              rw [ih i]
            rw [hfun]
          rw [hfold]

theorem heightFold_congr {s t : Nodes} (hst : shapeEq s t) (hf : Nat)
    {cs ct : List MindMapNode} (h : cs.map stripPL = ct.map stripPL) :
    cs.foldl (fun sum child => sum + calculateSubtreeHeight s hf child.id) 0
      = ct.foldl (fun sum child => sum + calculateSubtreeHeight t hf child.id) 0 := by
  have hids := ids_of_stripPL_map h
  have e1 : cs.foldl (fun sum child => sum + calculateSubtreeHeight s hf child.id) 0
      = (cs.map MindMapNode.id).foldl
        (fun sum i => sum + calculateSubtreeHeight s hf i) 0 := by
    rw [List.foldl_map]
  have e2 : ct.foldl (fun sum child => sum + calculateSubtreeHeight t hf child.id) 0
      = (ct.map MindMapNode.id).foldl
        (fun sum i => sum + calculateSubtreeHeight t hf i) 0 := by
    rw [List.foldl_map]
  rw [e1, e2, hids]
  have hfun : (fun (sum : Rat) i => sum + calculateSubtreeHeight s hf i)
      = fun (sum : Rat) i => sum + calculateSubtreeHeight t hf i := by
    funext a i
    rw [calculateSubtreeHeight_congr hst]
  rw [hfun]

/-- Footprint analogue of the `children.forEach` loop of `layoutNode`.  The
heights are read from the fixed map `s`; the recursive footprints are
collected by `stepF`. -/
def footChildrenLoop (hf : Nat) (stepF : String → Rat → Rat → List Assign)
    (s : Nodes) (node : MindMapNode) (parentX : Rat) :
    List MindMapNode → Rat → List Assign
  | [], _ => []
  | child :: rest, currentY =>
    let childHeight := calculateSubtreeHeight s hf child.id
    let childY := currentY + childHeight / 2
    let childX := parentX + getNodeWidth node + calculateHorizontalSpacing node child
    stepF child.id childX childY ++
      footChildrenLoop hf stepF s node parentX rest (currentY + childHeight + VERTICAL_SPACING)

/-- Footprint of a `layoutNode` run: the ordered `(key, x, y, level)` writes
it performs, computed against the fixed map `s` only. -/
def footNode (hf : Nat) : Nat → Nodes → String → Rat → Rat → Nat → List Assign
  | 0, _, _, _, _, _ => []
  | fuel + 1, s, nodeId, parentX, parentY, level =>
    match lookupNode s nodeId with
    | none => []
    | some node =>
      let children := visibleChildren s node
      if children.isEmpty then [⟨nodeId, parentX, parentY, level⟩]
      else
        let totalChildHeight :=
          children.foldl (fun sum child => sum + calculateSubtreeHeight s hf child.id) 0
        let totalSpacing := ((children.length : Rat) - 1) * VERTICAL_SPACING
        let totalHeight := totalChildHeight + totalSpacing
        ⟨nodeId, parentX, parentY, level⟩ ::
          footChildrenLoop hf (fun cid cx cy => footNode hf fuel s cid cx cy (level + 1))
            s node parentX children (parentY - totalHeight / 2)

/-- Central simulation lemma: running `layoutNode` on any map `t` that is
shape-equivalent to `s` is the same as applying the footprint computed
from `s`.  In particular (at `t = s`) a layout run is exactly the
application of its footprint. -/
theorem layoutNode_eq_applyFoot (hf : Nat) :
    ∀ (fuel : Nat) (s t : Nodes) (nodeId : String) (x y : Rat) (lv : Nat),
      shapeEq s t →
      layoutNode hf fuel t nodeId x y lv
        = applyFoot t (footNode hf fuel s nodeId x y lv) := by
  intro fuel
  induction fuel with
  | zero => intro s t nodeId x y lv hst; rfl
  | succ fuel ih =>
    intro s t nodeId x y lv hst
    have hk := hst nodeId
    cases hs : lookupNode s nodeId with
    | none =>
      rw [hs] at hk
      cases ht : lookupNode t nodeId with
      | none => simp [layoutNode, footNode, hs, ht, applyFoot_nil]
      | some m => rw [ht] at hk; simp at hk
    | some n =>
      rw [hs] at hk
      cases ht : lookupNode t nodeId with
      | none => rw [ht] at hk; simp at hk
      | some m =>
        rw [ht] at hk
        have hnm : stripPL n = stripPL m := by simpa using hk
        have hvc := visibleChildren_congr hst hnm
        have hemp := isEmpty_of_stripPL_map hvc
        have ht1 : shapeEq s (insertNode t nodeId (setPosLevel m x y lv)) :=
          hst.trans (shapeEq_insert_setPosLevel t nodeId m ht x y lv)
        by_cases he : (visibleChildren s n).isEmpty
        · have he2 : (visibleChildren t m).isEmpty = true := by rw [← hemp]; exact he
          simp only [layoutNode, footNode, hs, ht, he, he2, if_true]
          rw [applyFoot_cons, applyFoot_nil]
          unfold insertPosLevel
          simp [ht]
        · have he2 : (visibleChildren t m).isEmpty = false := by
            rw [← hemp]
            exact Bool.not_eq_true _ ▸ (by simpa using he)
          have hlen := length_of_stripPL_map hvc
          have hH : (visibleChildren t m).foldl
                (fun sum child => sum + calculateSubtreeHeight
                  (insertNode t nodeId (setPosLevel m x y lv)) hf child.id) 0
              = (visibleChildren s n).foldl
                (fun sum child => sum + calculateSubtreeHeight s hf child.id) 0 :=
            (heightFold_congr ht1 hf hvc).symm
          simp only [layoutNode, footNode, hs, ht, he, he2, Bool.false_eq_true, if_false,
            Bool.true_eq_false]
          rw [applyFoot_cons]
          have hins : insertPosLevel t ⟨nodeId, x, y, lv⟩
              = insertNode t nodeId (setPosLevel m x y lv) := by
            unfold insertPosLevel
            simp [ht]
          rw [hins, hH, hlen]
          -- remaining: the children loop against the inserted map
          have hloop : ∀ (cs ct : List MindMapNode), cs.map stripPL = ct.map stripPL →
              ∀ (nodeS nodeT : MindMapNode), stripPL nodeS = stripPL nodeT →
              ∀ (tAcc : Nodes) (curY : Rat), shapeEq s tAcc →
              layoutChildrenLoop hf
                  (fun mm cid cx cy => layoutNode hf fuel mm cid cx cy (lv + 1))
                  nodeT x ct tAcc curY
                = applyFoot tAcc (footChildrenLoop hf
                    (fun cid cx cy => footNode hf fuel s cid cx cy (lv + 1))
                    s nodeS x cs curY) := by
            intro cs
            induction cs with
            | nil =>
              intro ct hct nodeS nodeT hsn tAcc curY hAcc
              cases ct with
              | nil => rfl
              | cons b u => simp at hct
            | cons c cs ihcs =>
              intro ct hct nodeS nodeT hsn tAcc curY hAcc
              cases ct with
              | nil => simp at hct
              | cons d ct2 =>
                simp only [List.map_cons, List.cons.injEq] at hct
                obtain ⟨hcd, hct2⟩ := hct
                have hcid : c.id = d.id := id_of_stripPL_eq hcd
                have hheight : calculateSubtreeHeight tAcc hf d.id
                    = calculateSubtreeHeight s hf c.id := by
                  rw [hcid] at *
                  exact (calculateSubtreeHeight_congr hAcc hf d.id).symm
                have hwidth : getNodeWidth nodeT = getNodeWidth nodeS :=
                  (getNodeWidth_congr hsn).symm
                simp only [layoutChildrenLoop, footChildrenLoop, calculateHorizontalSpacing]
                rw [applyFoot_append]
                have hstep := ih s tAcc d.id
                  (x + getNodeWidth nodeT + MIN_HORIZONTAL_SPACING)
                  (curY + calculateSubtreeHeight tAcc hf d.id / 2) (lv + 1) hAcc
                rw [hstep, hheight, hwidth, ← hcid]
                have hAcc2 : shapeEq s (applyFoot tAcc
                    (footNode hf fuel s c.id
                      (x + getNodeWidth nodeS + MIN_HORIZONTAL_SPACING)
                      (curY + calculateSubtreeHeight s hf c.id / 2) (lv + 1))) :=
                  hAcc.trans (shapeEq_applyFoot _ _)
                exact ihcs ct2 hct2 nodeS nodeT hsn _ _ hAcc2
          exact hloop (visibleChildren s n) (visibleChildren t m) hvc n m hnm _ _ ht1

/-- The footprint is shape-invariant: two shape-equivalent maps produce the
same list of writes. -/
theorem footNode_congr (hf : Nat) :
    ∀ (fuel : Nat) (s u : Nodes) (nodeId : String) (x y : Rat) (lv : Nat),
      shapeEq s u →
      footNode hf fuel s nodeId x y lv = footNode hf fuel u nodeId x y lv := by
  intro fuel
  induction fuel with
  | zero => intro s u nodeId x y lv hsu; rfl
  | succ fuel ih =>
    intro s u nodeId x y lv hsu
    have hk := hsu nodeId
    cases hs : lookupNode s nodeId with
    | none =>
      rw [hs] at hk
      cases hu : lookupNode u nodeId with
      | none => simp [footNode, hs, hu]
      | some m => rw [hu] at hk; simp at hk
    | some n =>
      rw [hs] at hk
      cases hu : lookupNode u nodeId with
      | none => rw [hu] at hk; simp at hk
      | some m =>
        rw [hu] at hk
        have hnm : stripPL n = stripPL m := by simpa using hk
        have hvc := visibleChildren_congr hsu hnm
        have hemp := isEmpty_of_stripPL_map hvc
        by_cases he : (visibleChildren s n).isEmpty
        · have he2 : (visibleChildren u m).isEmpty = true := by rw [← hemp]; exact he
          simp [footNode, hs, hu, he, he2]
        · have he2 : (visibleChildren u m).isEmpty = false := by
            rw [← hemp]
            exact Bool.not_eq_true _ ▸ (by simpa using he)
          have hlen := length_of_stripPL_map hvc
          have hH := heightFold_congr hsu hf hvc
          simp only [footNode, hs, hu, he, he2, Bool.false_eq_true, if_false,
            Bool.true_eq_false]
          rw [hH, hlen]
          have hloop : ∀ (cs cu : List MindMapNode), cs.map stripPL = cu.map stripPL →
              ∀ (nodeS nodeU : MindMapNode), stripPL nodeS = stripPL nodeU →
              ∀ (curY : Rat),
              footChildrenLoop hf
                  (fun cid cx cy => footNode hf fuel s cid cx cy (lv + 1))
                  s nodeS x cs curY
                = footChildrenLoop hf
                  (fun cid cx cy => footNode hf fuel u cid cx cy (lv + 1))
                  u nodeU x cu curY := by
            intro cs
            induction cs with
            | nil =>
              intro cu hcu nodeS nodeU hsn curY
              cases cu with
              | nil => rfl
              | cons b l => simp at hcu
            | cons c cs ihcs =>
              intro cu hcu nodeS nodeU hsn curY
              cases cu with
              | nil => simp at hcu
              | cons d cu2 =>
                simp only [List.map_cons, List.cons.injEq] at hcu
                obtain ⟨hcd, hcu2⟩ := hcu
                have hcid : c.id = d.id := id_of_stripPL_eq hcd
                have hheight : calculateSubtreeHeight s hf c.id
                    = calculateSubtreeHeight u hf d.id := by
                  rw [hcid]
                  exact calculateSubtreeHeight_congr hsu hf d.id
                have hwidth : getNodeWidth nodeS = getNodeWidth nodeU :=
                  getNodeWidth_congr hsn
                simp only [footChildrenLoop, calculateHorizontalSpacing]
                rw [hheight, hwidth, hcid, ih s u d.id _ _ _ hsu,
                  ihcs cu2 hcu2 nodeS nodeU hsn _]
          exact congrArg (List.cons _)
            (hloop (visibleChildren s n) (visibleChildren u m) hvc n m hnm _)

/-- A layout run only rewrites `position` and `level` fields. -/
theorem shapeEq_layoutNode (hf fuel : Nat) (s : Nodes) (nodeId : String)
    (x y : Rat) (lv : Nat) : shapeEq s (layoutNode hf fuel s nodeId x y lv) := by
  rw [layoutNode_eq_applyFoot hf fuel s s nodeId x y lv (shapeEq.refl s)]
  exact shapeEq_applyFoot _ _

theorem keysOf_layoutNode (hf fuel : Nat) (s : Nodes) (nodeId : String)
    (x y : Rat) (lv : Nat) : keysOf (layoutNode hf fuel s nodeId x y lv) = keysOf s := by
  rw [layoutNode_eq_applyFoot hf fuel s s nodeId x y lv (shapeEq.refl s)]
  exact keysOf_applyFoot _ _

/-! Well-formedness facts about a JavaScript `Record<string, MindMapNode>`
that the store maintains: keys are unique, every record's `id` field equals
its key, and the root id never occurs in a `childrenIds` list. -/

/-- Every stored record's `id` field equals its key in the record. -/
def IdsConsistent (s : Nodes) : Prop := ∀ p ∈ s, (Prod.snd p).id = p.1

instance (s : Nodes) : Decidable (IdsConsistent s) := by
  unfold IdsConsistent
  infer_instance

/-- The given id does not occur in any `childrenIds` list. -/
def NotAChildId (s : Nodes) (k : String) : Prop :=
  ∀ p ∈ s, k ∉ (Prod.snd p).childrenIds

instance (s : Nodes) (k : String) : Decidable (NotAChildId s k) := by
  unfold NotAChildId
  infer_instance

/-- The id occurs in some `childrenIds` list of the record. -/
def ChildKey (s : Nodes) (k : String) : Prop :=
  ∃ p, p ∈ s ∧ k ∈ (Prod.snd p).childrenIds

theorem not_childKey_of_notAChildId {s : Nodes} {k : String}
    (h : NotAChildId s k) : ¬ ChildKey s k := by
  rintro ⟨p, hp, hk⟩
  exact h p hp hk

theorem lookup_id_eq {s : Nodes} (hid : IdsConsistent s) {k : String}
    {n : MindMapNode} (h : lookupNode s k = some n) : n.id = k :=
  hid (k, n) (entry_mem_of_lookup_some s k n h)

theorem mem_visibleChildren {s : Nodes} {node c : MindMapNode}
    (h : c ∈ visibleChildren s node) :
    ∃ cid, cid ∈ node.childrenIds ∧ lookupNode s cid = some c
      ∧ c.isCollapsed = false := by
  unfold visibleChildren at h
  rw [List.mem_filterMap] at h
  obtain ⟨cid, hcid, hres⟩ := h
  cases hl : lookupNode s cid with
  | none => rw [hl] at hres; simp at hres
  | some d =>
    rw [hl] at hres
    by_cases hc : d.isCollapsed
    · simp [hc] at hres
    · simp [hc] at hres
      subst hres
      exact ⟨cid, hcid, hl, by simpa using hc⟩

/-- Every key written by a footprint is either the starting id or occurs in
some `childrenIds` list (given `id`-field/key consistency). -/
theorem footNode_key_cases (hf : Nat) {s : Nodes} (hid : IdsConsistent s) :
    ∀ (fuel : Nat) (nodeId : String) (x y : Rat) (lv : Nat) (a : Assign),
      a ∈ footNode hf fuel s nodeId x y lv →
      a.key = nodeId ∨ ChildKey s a.key := by
  intro fuel
  induction fuel with
  | zero => intro nodeId x y lv a ha; simp [footNode] at ha
  | succ fuel ih =>
    intro nodeId x y lv a ha
    cases hs : lookupNode s nodeId with
    | none => rw [footNode, hs] at ha; simp at ha
    | some n =>
      have hchild : ∀ c ∈ visibleChildren s n, ChildKey s c.id := by
        intro c hc
        obtain ⟨cid, hcid, hl, _⟩ := mem_visibleChildren hc
        have : c.id = cid := lookup_id_eq hid hl
        rw [this]
        exact ⟨(nodeId, n), entry_mem_of_lookup_some s nodeId n hs, hcid⟩
      have hloop : ∀ (cs : List MindMapNode), (∀ c ∈ cs, ChildKey s c.id) →
          ∀ (nodeS : MindMapNode) (x0 curY : Rat),
          a ∈ footChildrenLoop hf
              (fun cid cx cy => footNode hf fuel s cid cx cy (lv + 1))
              s nodeS x0 cs curY →
          ChildKey s a.key := by
        intro cs
        induction cs with
        | nil => intro hcs nodeS x0 curY ha2; simp [footChildrenLoop] at ha2
        | cons c cs ihcs =>
          intro hcs nodeS x0 curY ha2
          simp only [footChildrenLoop, List.mem_append] at ha2
          rcases ha2 with ha2 | ha2
          · rcases ih c.id _ _ (lv + 1) a ha2 with hk | hk
            · rw [hk]; exact hcs c (List.mem_cons_self _ _)
            · exact hk
          · exact ihcs (fun d hd => hcs d (List.mem_cons_of_mem _ hd)) nodeS x0 _ ha2
      rw [footNode, hs] at ha
      by_cases he : (visibleChildren s n).isEmpty
      · simp only [he, if_true] at ha
        simp at ha
        left
        rw [ha]
      · simp only [he, Bool.false_eq_true, if_false] at ha
        rcases List.mem_cons.mp ha with ha2 | ha2
        · left; rw [ha2]
        · right
          exact hloop (visibleChildren s n) hchild n _ _ ha2

/-- Resolved (non-collapsed) children of a stored node are child keys. -/
theorem visibleChildren_childKey {s : Nodes} (hid : IdsConsistent s)
    {k : String} {n : MindMapNode} (h : lookupNode s k = some n) :
    ∀ c ∈ visibleChildren s n, ChildKey s c.id := by
  intro c hc
  obtain ⟨cid, hcid, hl, _⟩ := mem_visibleChildren hc
  rw [lookup_id_eq hid hl]
  exact ⟨(k, n), entry_mem_of_lookup_some s k n h, hcid⟩

/-- Every write of the children loop names a child key. -/
theorem footChildrenLoop_key_childKey (hf : Nat) {s : Nodes}
    (hid : IdsConsistent s) (fuel : Nat) (lv : Nat) :
    ∀ (cs : List MindMapNode), (∀ c ∈ cs, ChildKey s c.id) →
    ∀ (nodeS : MindMapNode) (x0 curY : Rat) (a : Assign),
      a ∈ footChildrenLoop hf
          (fun cid cx cy => footNode hf fuel s cid cx cy (lv + 1))
          s nodeS x0 cs curY →
      ChildKey s a.key := by
  intro cs
  induction cs with
  | nil => intro hcs nodeS x0 curY a hx; simp [footChildrenLoop] at hx
  | cons c cs ihcs =>
    intro hcs nodeS x0 curY a hx
    simp only [footChildrenLoop, List.mem_append] at hx
    rcases hx with hx | hx
    · rcases footNode_key_cases hf hid fuel c.id _ _ (lv + 1) a hx with hk2 | hk2
      · rw [hk2]; exact hcs c (List.mem_cons_self _ _)
      · exact hk2
    · exact ihcs (fun d hd => hcs d (List.mem_cons_of_mem _ hd)) nodeS x0 _ a hx

/-- Every key written by a footprint is the starting id or the key of a
node stored as non-collapsed (collapsed nodes are filtered out before the
loop ever visits them). -/
theorem footNode_key_visible (hf : Nat) {s : Nodes} (hid : IdsConsistent s) :
    ∀ (fuel : Nat) (nodeId : String) (x y : Rat) (lv : Nat) (a : Assign),
      a ∈ footNode hf fuel s nodeId x y lv →
      a.key = nodeId
        ∨ ∃ cn, lookupNode s a.key = some cn ∧ cn.isCollapsed = false := by
  intro fuel
  induction fuel with
  | zero => intro nodeId x y lv a ha; simp [footNode] at ha
  | succ fuel ih =>
    intro nodeId x y lv a ha
    cases hs : lookupNode s nodeId with
    | none => rw [footNode, hs] at ha; simp at ha
    | some n =>
      have hchild : ∀ c ∈ visibleChildren s n,
          ∃ cn, lookupNode s c.id = some cn ∧ cn.isCollapsed = false := by
        intro c hcmem
        obtain ⟨cid, _, hl, hcol⟩ := mem_visibleChildren hcmem
        rw [lookup_id_eq hid hl]
        exact ⟨c, hl, hcol⟩
      have hloop : ∀ (cs : List MindMapNode),
          (∀ c ∈ cs, ∃ cn, lookupNode s c.id = some cn ∧ cn.isCollapsed = false) →
          ∀ (nodeS : MindMapNode) (x0 curY : Rat),
          a ∈ footChildrenLoop hf
              (fun cid cx cy => footNode hf fuel s cid cx cy (lv + 1))
              s nodeS x0 cs curY →
          ∃ cn, lookupNode s a.key = some cn ∧ cn.isCollapsed = false := by
        intro cs
        induction cs with
        | nil => intro hcs nodeS x0 curY ha2; simp [footChildrenLoop] at ha2
        | cons c cs ihcs =>
          intro hcs nodeS x0 curY ha2
          simp only [footChildrenLoop, List.mem_append] at ha2
          rcases ha2 with ha2 | ha2
          · rcases ih c.id _ _ (lv + 1) a ha2 with hk | hk
            · rw [hk]; exact hcs c (List.mem_cons_self _ _)
            · exact hk
          · exact ihcs (fun d hd => hcs d (List.mem_cons_of_mem _ hd)) nodeS x0 _ ha2
      rw [footNode, hs] at ha
      by_cases he : (visibleChildren s n).isEmpty
      · simp only [he, if_true] at ha
        simp at ha
        left
        rw [ha]
      · simp only [he, Bool.false_eq_true, if_false] at ha
        rcases List.mem_cons.mp ha with ha2 | ha2
        · left; rw [ha2]
        · right
          exact hloop (visibleChildren s n) hchild n _ _ ha2

/-- If the starting id is never referenced as a child, its footprint writes
to it exactly once: with the supplied position and level. -/
theorem footNode_filter_start (hf fuel : Nat) {s : Nodes} {rootId : String}
    {r : MindMapNode} (hid : IdsConsistent s) (hroot : NotAChildId s rootId)
    (hr : lookupNode s rootId = some r) (x y : Rat) (lv : Nat) :
    (footNode hf (fuel + 1) s rootId x y lv).filter (fun a => a.key = rootId)
      = [⟨rootId, x, y, lv⟩] := by
  rw [footNode, hr]
  by_cases he : (visibleChildren s r).isEmpty
  · simp [he]
  · simp only [he, Bool.false_eq_true, if_false, List.filter_cons,
      decide_eq_true_eq, if_true, eq_self_iff_true]
    have htail : ∀ (curY : Rat), (footChildrenLoop hf
        (fun cid cx cy => footNode hf fuel s cid cx cy (lv + 1))
        s r x (visibleChildren s r) curY).filter
          (fun a => a.key = rootId) = [] := by
      intro curY
      rw [List.filter_eq_nil_iff]
      intro a ha
      simp only [decide_eq_true_eq]
      intro hk
      have hck := footChildrenLoop_key_childKey hf hid fuel lv
        (visibleChildren s r) (visibleChildren_childKey hid hr) r x curY a ha
      rw [hk] at hck
      exact not_childKey_of_notAChildId hroot hck
    rw [htail]

/-- On a record where the given id is never referenced as a child, the
layout run leaves every field except position/level, writing exactly the
supplied position and level (for positive fuel). -/
theorem lookup_layoutNode_root (hf fuel : Nat) {s : Nodes} {rootId : String}
    {r : MindMapNode} (hid : IdsConsistent s) (hroot : NotAChildId s rootId)
    (hr : lookupNode s rootId = some r) (x y : Rat) (lv : Nat) :
    lookupNode (layoutNode hf fuel s rootId x y lv) rootId
      = if fuel = 0 then some r else some (setPosLevel r x y lv) := by
  rw [layoutNode_eq_applyFoot hf fuel s s rootId x y lv (shapeEq.refl s)]
  rw [lookup_applyFoot, hr]
  cases fuel with
  | zero => rfl
  | succ fuel =>
    rw [footNode_filter_start hf fuel hid hroot hr x y lv]
    simp [applyA]

/-! Claim theorems about the layout engine. -/

/-- C10: on a record whose `rootId` entry exists (and which satisfies the
store's well-formedness: `id` fields match keys and the root is never
listed as a child), `calculateBalancedLayout` never changes the root
node's position. -/
theorem c10_layout_keeps_root_position (nodes : Nodes) (rootId : String)
    (r : MindMapNode) (hid : IdsConsistent nodes)
    (hroot : NotAChildId nodes rootId)
    (hr : lookupNode nodes rootId = some r) (hf f : Nat) :
    (lookupNode (calculateBalancedLayout hf f nodes rootId) rootId).map
      MindMapNode.position = some r.position := by
  simp only [calculateBalancedLayout, hr]
  rw [lookup_layoutNode_root hf f hid hroot hr r.position.x r.position.y 0]
  cases f with
  | zero => simp
  | succ f => simp [setPosLevel]

/-- C2: applying `calculateBalancedLayout` twice in succession, with no
intervening mutation, returns exactly the same record as applying it once
(for any fuel, on any well-formed record). -/
theorem c2_layout_idempotence (nodes : Nodes) (rootId : String)
    (hnd : (keysOf nodes).Nodup) (hid : IdsConsistent nodes)
    (hroot : NotAChildId nodes rootId) (hf f : Nat) :
    calculateBalancedLayout hf f (calculateBalancedLayout hf f nodes rootId) rootId
      = calculateBalancedLayout hf f nodes rootId := by
  cases hr : lookupNode nodes rootId with
  | none => simp only [calculateBalancedLayout, hr]
  | some r =>
    simp only [calculateBalancedLayout, hr]
    cases f with
    | zero =>
      have h0 : layoutNode hf 0 nodes rootId r.position.x r.position.y 0 = nodes := rfl
      rw [h0, hr]
      exact rfl
    | succ f =>
      have hl1 := lookup_layoutNode_root hf (f + 1) hid hroot hr
        r.position.x r.position.y 0
      simp only [Nat.succ_ne_zero, if_false] at hl1
      rw [hl1]
      show layoutNode hf (f + 1)
          (layoutNode hf (f + 1) nodes rootId r.position.x r.position.y 0) rootId
          r.position.x r.position.y 0
        = layoutNode hf (f + 1) nodes rootId r.position.x r.position.y 0
      have hshape : shapeEq nodes
          (layoutNode hf (f + 1) nodes rootId r.position.x r.position.y 0) :=
        shapeEq_layoutNode hf (f + 1) nodes rootId r.position.x r.position.y 0
      rw [layoutNode_eq_applyFoot hf (f + 1) _ _ rootId r.position.x r.position.y 0
        (shapeEq.refl _)]
      rw [footNode_congr hf (f + 1) _ nodes rootId r.position.x r.position.y 0
        hshape.symm]
      rw [layoutNode_eq_applyFoot hf (f + 1) nodes nodes rootId
        r.position.x r.position.y 0 (shapeEq.refl _)]
      exact applyFoot_idem nodes _ hnd

/-! Concrete witness data: a three-node tree (root with two leaves). -/

/-- Witness record: the root node. -/
def wRoot : MindMapNode :=
  { id := "r", title := "Ro", position := ⟨400, 300⟩, color := "#000000",
    isCompleted := false, isCollapsed := false, parentId := none,
    childrenIds := ["a", "b"], details := none, externalLink := none,
    level := 0, isSelected := true, isEditing := false }

/-- Witness record: first leaf child. -/
def wA : MindMapNode :=
  { id := "a", title := "Al", position := ⟨0, 0⟩, color := "#000000",
    isCompleted := false, isCollapsed := false, parentId := some "r",
    childrenIds := [], details := none, externalLink := none,
    level := 1, isSelected := false, isEditing := false }

/-- Witness record: second leaf child. -/
def wB : MindMapNode :=
  { id := "b", title := "Be", position := ⟨0, 0⟩, color := "#000000",
    isCompleted := false, isCollapsed := false, parentId := some "r",
    childrenIds := [], details := none, externalLink := none,
    level := 1, isSelected := false, isEditing := false }

/-- Witness store: root with two leaf children. -/
def wNodes : Nodes := [("r", wRoot), ("a", wA), ("b", wB)]

/-- Witness for C2 at the concrete three-node tree. -/
theorem c2_layout_idempotence_witness :
    calculateBalancedLayout 4 4 (calculateBalancedLayout 4 4 wNodes "r") "r"
      = calculateBalancedLayout 4 4 wNodes "r" :=
  c2_layout_idempotence wNodes "r" (by decide) (by decide) (by decide) 4 4

/-- Witness for C10 at the concrete three-node tree. -/
theorem c10_layout_keeps_root_position_witness :
    (lookupNode (calculateBalancedLayout 4 4 wNodes "r") "r").map
      MindMapNode.position = some wRoot.position :=
  c10_layout_keeps_root_position wNodes "r" wRoot (by decide) (by decide)
    (by decide) 4 4

/-! The store state and its operations (`useMindMapStore` in
`mindmapStore.ts`).  History snapshots are `JSON.stringify` copies of
`{nodes, rootNodeId}`; since `parse ∘ stringify` is the identity on this
data, a snapshot is embedded as the pair itself.  `nanoid()` is embedded as
an explicit fresh-id parameter. -/

/-- One history snapshot: the serialized `(nodes, rootNodeId)` pair. -/
abbrev Snapshot := Nodes × String

/-- The `history` slice of the store state. -/
structure HistoryRec where
  past : List Snapshot
  present : Snapshot
  future : List Snapshot
deriving DecidableEq

/-- The store state (`MindMapState` fields used by the engine). -/
structure MMState where
  nodes : Nodes
  rootNodeId : String
  selectedNodeId : Option String
  editingNodeId : Option String
  isDarkMode : Bool
  canvasPosition : Pos
  canvasScale : Rat
  showToolbar : Bool
  currentPageId : Option String
  history : HistoryRec
deriving DecidableEq

/-- JavaScript truthiness of a nullable string: `null`, `undefined` and the
empty string are falsy. -/
def jsTruthy : Option String → Bool
  | none => false
  | some p => !(p == "")

theorem jsTruthy_some {p : String} (h : p ≠ "") : jsTruthy (some p) = true := by
  simp [jsTruthy, h]

theorem jsTruthy_none : jsTruthy none = false := rfl

/-- The expression `DEFAULT_COLORS.black`: the palette in
`types/mindmap.ts` has no `black` key, so the source reads `undefined`;
embedded as a fixed placeholder string. -/
def DEFAULT_COLORS_black : String := ""

/-- The function `createInitialState`, with `nanoid()` passed in as
`rootId`. -/
def initialState (rootId : String) : MMState :=
  let rootNode : MindMapNode :=
    { id := rootId, title := "Main Topic", position := ⟨400, 300⟩,
      color := DEFAULT_COLORS_black, isCompleted := false, isCollapsed := false,
      parentId := none, childrenIds := [], details := none, externalLink := none,
      level := 0, isSelected := true, isEditing := false }
  { nodes := [(rootId, rootNode)], rootNodeId := rootId,
    selectedNodeId := some rootId, editingNodeId := none,
    isDarkMode := false, canvasPosition := ⟨0, 0⟩, canvasScale := 13 / 10,
    showToolbar := true, currentPageId := none,
    history := { past := [], present := ([(rootId, rootNode)], rootId), future := [] } }

/-- The action `saveToHistory`: push the old `present`, snapshot the current
`(nodes, rootNodeId)`, clear `future`. -/
def saveToHistory (s : MMState) : MMState :=
  { s with history :=
    { past := s.history.past ++ [s.history.present],
      present := (s.nodes, s.rootNodeId),
      future := [] } }

/-- The action `undo`. -/
def undo (s : MMState) : MMState :=
  match s.history.past.getLast? with
  | none => s
  | some previous =>
    { s with
      nodes := previous.1,
      rootNodeId := previous.2,
      selectedNodeId := none,
      editingNodeId := none,
      history :=
        { past := s.history.past.dropLast,
          present := previous,
          future := s.history.present :: s.history.future } }

/-- The action `redo`. -/
def redo (s : MMState) : MMState :=
  match s.history.future with
  | [] => s
  | next :: newFuture =>
    { s with
      nodes := next.1,
      rootNodeId := next.2,
      selectedNodeId := none,
      editingNodeId := none,
      history :=
        { past := s.history.past ++ [s.history.present],
          present := next,
          future := newFuture } }

/-- A `Partial<MindMapNode>` argument of `updateNode`: every field
optional. -/
structure NodeUpdate where
  id : Option String := none
  title : Option String := none
  position : Option Pos := none
  color : Option String := none
  isCompleted : Option Bool := none
  isCollapsed : Option Bool := none
  parentId : Option (Option String) := none
  childrenIds : Option (List String) := none
  details : Option (Option String) := none
  externalLink : Option (Option String) := none
  level : Option Nat := none
  isSelected : Option Bool := none
  isEditing : Option Bool := none
deriving DecidableEq

/-- The spread `{...n, ...u}`: fields present in `u` win. -/
def applyUpdate (n : MindMapNode) (u : NodeUpdate) : MindMapNode :=
  { id := u.id.getD n.id, title := u.title.getD n.title,
    position := u.position.getD n.position, color := u.color.getD n.color,
    isCompleted := u.isCompleted.getD n.isCompleted,
    isCollapsed := u.isCollapsed.getD n.isCollapsed,
    parentId := u.parentId.getD n.parentId,
    childrenIds := u.childrenIds.getD n.childrenIds,
    details := u.details.getD n.details,
    externalLink := u.externalLink.getD n.externalLink,
    level := u.level.getD n.level,
    isSelected := u.isSelected.getD n.isSelected,
    isEditing := u.isEditing.getD n.isEditing }

/-- The record obtained by spreading over `undefined`
(`{...state.nodes[id], ...updates}` when `id` is absent): the fields not
supplied by the update are `undefined` in JavaScript; the total Lean record
models them with neutral defaults.  Only used for the absent-id branch of
`updateNode`. -/
def undefNode : MindMapNode :=
  { id := "", title := "", position := ⟨0, 0⟩, color := "",
    isCompleted := false, isCollapsed := false, parentId := none,
    childrenIds := [], details := none, externalLink := none,
    level := 0, isSelected := false, isEditing := false }

/-- The action `updateNode`: writes
`{...state.nodes, [nodeId]: {...state.nodes[nodeId], ...updates}}`.  Note
that an absent `nodeId` still creates an entry (spread over `undefined`).  -/
def updateNode (s : MMState) (nodeId : String) (u : NodeUpdate) : MMState :=
  let merged :=
    applyUpdate
      (match lookupNode s.nodes nodeId with
        | some n => n
        | none => undefNode) u
  { s with nodes := insertNode s.nodes nodeId merged }

/-- Shared tail of `createNode`: build the record, link it under
`actualParentId`, rebalance, select and edit it, snapshot history. -/
def finishCreate (s : MMState) (actualParentId : Option String) (level : Nat)
    (position : Pos) (newId : String) : MMState :=
  let newNode : MindMapNode :=
    { id := newId, title := "New Node", position := position,
      color := DEFAULT_COLORS_black, isCompleted := false, isCollapsed := false,
      parentId := actualParentId, childrenIds := [], details := none,
      externalLink := none, level := level, isSelected := false,
      isEditing := false }
  let updatedNodes := insertNode s.nodes newId newNode
  let updatedNodes2 :=
    if jsTruthy actualParentId then
      match actualParentId with
      | some apid =>
        match lookupNode updatedNodes apid with
        | none => updatedNodes
          -- unreachable: every caller passes an id present in the map
        | some parent =>
          insertNode updatedNodes apid
            { parent with childrenIds := parent.childrenIds ++ [newId] }
      | none => updatedNodes
    else updatedNodes
  let balancedNodes := rebalanceTree updatedNodes2 s.rootNodeId
  saveToHistory
    { s with
      nodes := balancedNodes
      selectedNodeId := some newId
      editingNodeId := some newId }

/-- The action `createNode`, with `nanoid()` passed in as `newId`.  The
result is `none` when the source throws a `TypeError`: a truthy `parentId`
that does not resolve makes the source read `.parentId`/`.level` of
`undefined` before any state change. -/
def createNode (s : MMState) (parentId : Option String) (isSibling : Bool)
    (newId : String) : Option (MMState × String) :=
  if jsTruthy parentId then
    match parentId with
    | none => none -- impossible: jsTruthy none = false
    | some pid =>
      match lookupNode s.nodes pid with
      | none => none -- TypeError in the source
      | some parentNode =>
        if isSibling && jsTruthy parentNode.parentId then
          match parentNode.parentId with
          | none => none -- impossible: jsTruthy none = false
          | some gpid =>
            match lookupNode s.nodes gpid with
            | none => none -- TypeError in the source (actualParent.level)
            | some actualParent =>
              some (finishCreate s (some gpid) (actualParent.level + 1)
                ⟨parentNode.position.x, parentNode.position.y + 80⟩ newId, newId)
        else
          some (finishCreate s (some pid) (parentNode.level + 1)
            ⟨parentNode.position.x + 250,
             parentNode.position.y + parentNode.childrenIds.length * 80⟩ newId,
            newId)
  else
    -- falsy `parentId` (null or empty string): `actualParentId` stays as
    -- given, level 0, default position; `finishCreate` will not link it
    some (finishCreate s parentId 0 ⟨400, 300⟩ newId, newId)

/-- The `deleteRecursively` child loop; `rec` is the recursive call at the
next smaller fuel. -/
def deleteChildrenLoop (rec : Nodes → String → Nodes) :
    List String → Nodes → Nodes
  | [], m => m
  | cid :: rest, m => deleteChildrenLoop rec rest (rec m cid)

/-- The inner function `deleteRecursively` of `deleteNode` (post-order:
children first, then the entry itself), fueled. -/
def deleteRecursively : Nat → Nodes → String → Nodes
  | 0, m, _ => m
  | fuel + 1, m, id =>
    match lookupNode m id with
    | none => m
    | some nodeToDelete =>
      eraseNode
        (deleteChildrenLoop (fun acc cid => deleteRecursively fuel acc cid)
          nodeToDelete.childrenIds m) id

/-- The action `deleteNode`: rejected for a missing id or the root;
otherwise unlink from the parent, delete the whole subtree, rebalance,
select the parent, snapshot history. -/
def deleteNode (s : MMState) (nodeId : String) : MMState :=
  match lookupNode s.nodes nodeId with
  | none => s
  | some node =>
    if nodeId = s.rootNodeId then s
    else
      let updatedNodes :=
        if jsTruthy node.parentId then
          match node.parentId with
          | some pid =>
            match lookupNode s.nodes pid with
            | none => s.nodes
              -- unreachable: a truthy parent id resolves on store states
            | some parent =>
              insertNode s.nodes pid
                { parent with
                  childrenIds := parent.childrenIds.filter fun cid => cid ≠ nodeId }
          | none => s.nodes
        else s.nodes
      let updatedNodes2 := deleteRecursively (s.nodes.length + 1) updatedNodes nodeId
      let balancedNodes := rebalanceTree updatedNodes2 s.rootNodeId
      saveToHistory
        { s with
          nodes := balancedNodes
          selectedNodeId :=
            some (if jsTruthy node.parentId then node.parentId.getD s.rootNodeId
              else s.rootNodeId)
          editingNodeId := none }

/-- The inner function `isDescendant` of `reassignParent`: walk the
ancestor chain of `checkNodeId` looking for `ancestorId`, fueled. -/
def isDescendantWalk (s : Nodes) : Nat → String → String → Bool
  | 0, _, _ => false
  | fuel + 1, checkNodeId, ancestorId =>
    match lookupNode s checkNodeId with
    | none => false
    | some checkNode =>
      if jsTruthy checkNode.parentId then
        match checkNode.parentId with
        | none => false -- impossible: jsTruthy none = false
        | some p =>
          if p = ancestorId then true
          else isDescendantWalk s fuel p ancestorId
      else false

/-- The `updateDescendantLevels` child loop; `rec` is the recursive call at
the next smaller fuel. -/
def udlChildrenLoop (rec : Nodes → String → Nodes) (newLevel : Nat) :
    List String → Nodes → Nodes
  | [], m => m
  | childId :: rest, m =>
    let m2 :=
      match lookupNode m childId with
      | none => m
        -- unreachable on store states: children ids resolve
      | some child => insertNode m childId { child with level := newLevel }
    udlChildrenLoop rec newLevel rest (rec m2 childId)

/-- The inner function `updateDescendantLevels` of `reassignParent`: set
every child's level to its parent's plus one, transitively, fueled. -/
def updateDescendantLevels : Nat → Nodes → String → Nodes
  | 0, m, _ => m
  | fuel + 1, m, parentNodeId =>
    match lookupNode m parentNodeId with
    | none => m
    | some parentNode =>
      udlChildrenLoop (fun acc cid => updateDescendantLevels fuel acc cid)
        (parentNode.level + 1) parentNode.childrenIds m

/-- The action `reassignParent`: rejected when either id is missing, the
two ids are equal, or the new parent is a descendant of the node (cycle
guard); otherwise detach from the old parent, append under the new parent,
recompute the subtree levels, rebalance, snapshot history. -/
def reassignParent (s : MMState) (nodeId newParentId : String) : MMState :=
  match lookupNode s.nodes nodeId, lookupNode s.nodes newParentId with
  | some node, some newParent =>
    if nodeId = newParentId then s
    else if isDescendantWalk s.nodes s.nodes.length newParentId nodeId then s
    else
      let updatedNodes :=
        if jsTruthy node.parentId then
          match node.parentId with
          | some pid =>
            match lookupNode s.nodes pid with
            | none => s.nodes
              -- unreachable on store states: a truthy parent id resolves
            | some oldParent =>
              insertNode s.nodes pid
                { oldParent with
                  childrenIds := oldParent.childrenIds.filter fun cid => cid ≠ nodeId }
          | none => s.nodes
        else s.nodes
      let updatedNodes2 :=
        match lookupNode updatedNodes newParentId with
        | none => updatedNodes -- unreachable: checked above, detach keeps keys
        | some np2 =>
          insertNode updatedNodes newParentId
            { np2 with childrenIds := np2.childrenIds ++ [nodeId] }
      let updatedNodes3 :=
        match lookupNode updatedNodes2 nodeId with
        | none => updatedNodes2 -- unreachable: checked above
        | some n2 =>
          insertNode updatedNodes2 nodeId
            { n2 with parentId := some newParentId, level := newParent.level + 1 }
      let updatedNodes4 :=
        updateDescendantLevels (s.nodes.length + 1) updatedNodes3 nodeId
      let balancedNodes := rebalanceTree updatedNodes4 s.rootNodeId
      saveToHistory { s with nodes := balancedNodes }
  | _, _ => s

/-! History manager theorems. -/

theorem dropLast_append_getLast {α : Type} (l : List α) (a : α)
    (h : l.getLast? = some a) : l.dropLast ++ [a] = l := by
  induction l using List.reverseRecOn with
  | nil => simp at h
  | append_singleton l2 b _ =>
    rw [List.getLast?_concat] at h
    simp at h
    subst h
    rw [List.dropLast_concat]

theorem saveToHistory_props (s : MMState) :
    (saveToHistory s).history.present
        = ((saveToHistory s).nodes, (saveToHistory s).rootNodeId)
      ∧ (saveToHistory s).history.past ≠ []
      ∧ (saveToHistory s).history.future = [] := by
  refine ⟨rfl, ?_, rfl⟩
  simp [saveToHistory]

theorem createNode_result (s : MMState) (parentId : Option String)
    (isSibling : Bool) (newId : String) (s2 : MMState) (rid : String)
    (h : createNode s parentId isSibling newId = some (s2, rid)) :
    ∃ ap lv pos, s2 = finishCreate s ap lv pos newId := by
  unfold createNode at h
  split at h
  · split at h
    · simp at h
    · split at h
      · simp at h
      · split at h
        · split at h
          · simp at h
          · split at h
            · simp at h
            · simp only [Option.some.injEq, Prod.mk.injEq] at h
              exact ⟨_, _, _, h.1.symm⟩
        · simp only [Option.some.injEq, Prod.mk.injEq] at h
          exact ⟨_, _, _, h.1.symm⟩
  · simp only [Option.some.injEq, Prod.mk.injEq] at h
    exact ⟨_, _, _, h.1.symm⟩

theorem finishCreate_history (s : MMState) (ap : Option String) (lv : Nat)
    (pos : Pos) (nid : String) :
    (finishCreate s ap lv pos nid).history.present
        = ((finishCreate s ap lv pos nid).nodes,
           (finishCreate s ap lv pos nid).rootNodeId)
      ∧ (finishCreate s ap lv pos nid).history.past ≠ []
      ∧ (finishCreate s ap lv pos nid).history.future = [] :=
  saveToHistory_props _

/-- C3: the undo/redo round-trip.  First conjunct: in any state whose
`present` snapshot matches the live `(nodes, rootNodeId)` and whose past is
nonempty — exactly the states reached by completing a history-recording
mutation — `undo(); redo()` restores the live pair and the entire history
record.  Remaining conjuncts: each of the three history-recording
mutations, when it commits, leaves such a state and empties the redo
(`future`) stack. -/
theorem c3_undo_redo_roundtrip :
    (∀ s : MMState, s.history.present = (s.nodes, s.rootNodeId) →
      s.history.past ≠ [] →
      (redo (undo s)).nodes = s.nodes ∧
      (redo (undo s)).rootNodeId = s.rootNodeId ∧
      (redo (undo s)).history = s.history)
    ∧ (∀ (s : MMState) (pid : Option String) (sib : Bool) (nid : String)
        (s2 : MMState) (rid : String),
        createNode s pid sib nid = some (s2, rid) →
        s2.history.present = (s2.nodes, s2.rootNodeId) ∧
        s2.history.past ≠ [] ∧ s2.history.future = [])
    ∧ (∀ (s : MMState) (nid : String),
        deleteNode s nid = s ∨
        ((deleteNode s nid).history.present
            = ((deleteNode s nid).nodes, (deleteNode s nid).rootNodeId) ∧
          (deleteNode s nid).history.past ≠ [] ∧
          (deleteNode s nid).history.future = []))
    ∧ (∀ (s : MMState) (a b : String),
        reassignParent s a b = s ∨
        ((reassignParent s a b).history.present
            = ((reassignParent s a b).nodes, (reassignParent s a b).rootNodeId) ∧
          (reassignParent s a b).history.past ≠ [] ∧
          (reassignParent s a b).history.future = [])) := by
  refine ⟨?_, ?_, ?_, ?_⟩
  · intro s hpr hpast
    cases hL : s.history.past.getLast? with
    | none =>
      rw [List.getLast?_eq_none_iff] at hL
      exact absurd hL hpast
    | some previous =>
      have hplist := dropLast_append_getLast _ _ hL
      simp only [undo, hL, redo]
      refine ⟨?_, ?_, ?_⟩
      · rw [hpr]
      · rw [hpr]
      · rw [hplist]
  · intro s pid sib nid s2 rid h
    obtain ⟨ap, lv, pos, h2⟩ := createNode_result s pid sib nid s2 rid h
    subst h2
    exact finishCreate_history s ap lv pos nid
  · intro s nid
    unfold deleteNode
    split
    · exact Or.inl rfl
    · split
      · exact Or.inl rfl
      · exact Or.inr (saveToHistory_props _)
  · intro s a b
    unfold reassignParent
    split
    · split
      · exact Or.inl rfl
      · split
        · exact Or.inl rfl
        · exact Or.inr (saveToHistory_props _)
    · exact Or.inl rfl

/-! Concrete witness states. -/

/-- Witness history record with a nonempty past and consistent present. -/
def wHist : HistoryRec :=
  { past := [([("r", wRoot)], "r")], present := (wNodes, "r"), future := [] }

/-- Witness state: the three-node tree right after a recorded mutation. -/
def wState3 : MMState :=
  { nodes := wNodes, rootNodeId := "r", selectedNodeId := none,
    editingNodeId := none, isDarkMode := false, canvasPosition := ⟨0, 0⟩,
    canvasScale := 13 / 10, showToolbar := true, currentPageId := none,
    history := wHist }

/-! Level-only rewrites: `updateDescendantLevels` changes nothing except
`level` fields. -/

/-- Projection forgetting only the `level` field. -/
def stripLvl (n : MindMapNode) : MindMapNode := { n with level := 0 }

theorem childrenIds_opt_of_stripLvl {o1 o2 : Option MindMapNode}
    (h : o1.map stripLvl = o2.map stripLvl) :
    o1.map (fun n => n.childrenIds) = o2.map (fun n => n.childrenIds) := by
  cases o1 with
  | none => cases o2 with
    | none => rfl
    | some b => simp at h
  | some a =>
    cases o2 with
    | none => simp at h
    | some b =>
      simp at h
      have : a.childrenIds = b.childrenIds := by
        have h1 : (stripLvl a).childrenIds = (stripLvl b).childrenIds := by rw [h]
        exact h1
      simp [this]

theorem childrenIds_opt_of_stripPL {o1 o2 : Option MindMapNode}
    (h : o1.map stripPL = o2.map stripPL) :
    o1.map (fun n => n.childrenIds) = o2.map (fun n => n.childrenIds) := by
  cases o1 with
  | none => cases o2 with
    | none => rfl
    | some b => simp at h
  | some a =>
    cases o2 with
    | none => simp at h
    | some b =>
      simp at h
      simp [childrenIds_of_stripPL_eq h]

theorem udl_stripLvl : ∀ (fuel : Nat) (m : Nodes) (id k : String),
    (lookupNode (updateDescendantLevels fuel m id) k).map stripLvl
      = (lookupNode m k).map stripLvl := by
  intro fuel
  induction fuel with
  | zero => intro m id k; rfl
  | succ fuel ih =>
    intro m id k
    unfold updateDescendantLevels
    cases hl : lookupNode m id with
    | none => rfl
    | some parentNode =>
      have hloop : ∀ (cs : List String) (m0 : Nodes) (lvl : Nat),
          (lookupNode (udlChildrenLoop
              (fun acc cid => updateDescendantLevels fuel acc cid)
              lvl cs m0) k).map stripLvl
            = (lookupNode m0 k).map stripLvl := by
        intro cs
        induction cs with
        | nil => intro m0 lvl; rfl
        | cons c cs ihc =>
          intro m0 lvl
          unfold udlChildrenLoop
          cases hc : lookupNode m0 c with
          | none =>
            rw [ihc, ih]
          | some child =>
            rw [ihc, ih]
            rw [lookupNode_insertNode]
            by_cases hck : c = k
            · subst hck
              rw [hc]
              simp [stripLvl]
            · simp [hck]
      exact hloop parentNode.childrenIds m (parentNode.level + 1)

/-- The layout pass of the store (`rebalanceTree`) only rewrites positions
and levels. -/
theorem shapeEq_calculateBalancedLayout (hf f : Nat) (m : Nodes)
    (rootId : String) : shapeEq m (calculateBalancedLayout hf f m rootId) := by
  unfold calculateBalancedLayout
  cases h : lookupNode m rootId with
  | none => exact shapeEq.refl m
  | some r => exact shapeEq_layoutNode hf f m rootId r.position.x r.position.y 0

theorem shapeEq_rebalanceTree (m : Nodes) (rootId : String) :
    shapeEq m (rebalanceTree m rootId) :=
  shapeEq_calculateBalancedLayout _ _ m rootId

/-- C6 counterexample: `createNode` with a non-null `parentId` absent from
the store is not a silent no-op — the source throws a `TypeError` (reading
`.parentId`/`.level` of `undefined`), embedded as the `none` result. -/
theorem c6_create_dangling_counterexample :
    createNode wState3 (some "ghost") false "n1" = none := by rfl

/-- C6 amended: for every truthy `parentId` absent from the store,
`createNode` throws before any state change (result `none`, so no state is
produced and the store is left untouched); it is not silent. -/
theorem c6_create_dangling_throws (s : MMState) (pid : String)
    (hp : pid ≠ "") (h : lookupNode s.nodes pid = none)
    (sib : Bool) (nid : String) :
    createNode s (some pid) sib nid = none := by
  simp [createNode, jsTruthy_some hp, h]

/-- Witness for the amended C6. -/
theorem c6_create_dangling_throws_witness :
    createNode wState3 (some "ghost") true "n9" = none :=
  c6_create_dangling_throws wState3 "ghost" (by decide) (by decide) true "n9"

/-- Update used in the C7 counterexample. -/
def wUpd : NodeUpdate := { title := some "x" }

/-- C7 counterexample: `updateNode` on an id absent from the store is not a
no-op — the spread `{...undefined, ...updates}` creates a fresh (partial)
entry under that id. -/
theorem c7_update_absent_counterexample :
    (updateNode wState3 "ghost" wUpd).nodes ≠ wState3.nodes := by decide

/-- C7 amended: for an id absent from the store, `updateNode` creates a new
entry under that id — the update fields spread over an `undefined` record —
while leaving every other key unchanged. -/
theorem c7_update_absent_creates_entry (s : MMState) (nodeId : String)
    (u : NodeUpdate) (h : lookupNode s.nodes nodeId = none) :
    lookupNode (updateNode s nodeId u).nodes nodeId
        = some (applyUpdate undefNode u)
      ∧ ∀ k, nodeId ≠ k →
        lookupNode (updateNode s nodeId u).nodes k = lookupNode s.nodes k := by
  constructor
  · simp [updateNode, lookupNode_insertNode, h]
  · intro k hk
    simp [updateNode, lookupNode_insertNode, hk]

/-- Witness for the amended C7. -/
theorem c7_update_absent_creates_entry_witness :
    lookupNode (updateNode wState3 "ghost2" wUpd).nodes "ghost2"
        = some (applyUpdate undefNode wUpd) ∧
      lookupNode (updateNode wState3 "ghost2" wUpd).nodes "r"
        = lookupNode wState3.nodes "r" := by
  have h := c7_update_absent_creates_entry wState3 "ghost2" wUpd (by decide)
  exact ⟨h.1, h.2 "r" (by decide)⟩

/-- C8 counterexample: in the three-node tree with `R.childrenIds =
["a", "b"]`, `reassignParent("a", "r")` (same parent) is not a no-op — it
moves `a` to the end of the root's `childrenIds`. -/
theorem c8_same_parent_counterexample :
    (lookupNode (reassignParent wState3 "a" "r").nodes "r").map
        (fun n => n.childrenIds) = some ["b", "a"]
      ∧ (lookupNode wState3.nodes "r").map (fun n => n.childrenIds)
        = some ["a", "b"] := by
  exact ⟨by decide, by decide⟩

/-- C8 amended: `reassignParent(C1, R)` where `R` is already `C1`'s parent
is accepted, not rejected: it removes `C1` from `R.childrenIds` and appends
it at the end (reordering when `C1` was not last), and it pushes a new
history snapshot, clearing the redo stack. -/
theorem c8_same_parent_moves_to_end (s : MMState) (c rId : String)
    (nodeC nodeR : MindMapNode)
    (hc : lookupNode s.nodes c = some nodeC)
    (hr : lookupNode s.nodes rId = some nodeR)
    (hpar : nodeC.parentId = some rId)
    (hre : rId ≠ "")
    (hne : ¬ c = rId)
    (hguard : isDescendantWalk s.nodes s.nodes.length rId c = false) :
    (lookupNode (reassignParent s c rId).nodes rId).map (fun n => n.childrenIds)
        = some ((nodeR.childrenIds.filter fun cid => cid ≠ c) ++ [c])
      ∧ (reassignParent s c rId).history.past
          = s.history.past ++ [s.history.present]
      ∧ (reassignParent s c rId).history.future = [] := by
  have hne2 : ¬ rId = c := fun h => hne h.symm
  have hform : reassignParent s c rId
      = saveToHistory
          { s with
            nodes :=
              rebalanceTree
                (updateDescendantLevels (s.nodes.length + 1)
                  (insertNode
                    (insertNode
                      (insertNode s.nodes rId
                        { nodeR with
                          childrenIds :=
                            nodeR.childrenIds.filter fun cid => cid ≠ c })
                      rId
                      { nodeR with
                        childrenIds :=
                          (nodeR.childrenIds.filter fun cid => cid ≠ c) ++ [c] })
                    c
                    { nodeC with
                      parentId := some rId
                      level := nodeR.level + 1 })
                  c)
                s.rootNodeId } := by
    unfold reassignParent
    rw [hc, hr]
    simp [if_neg hne, hguard, hpar, jsTruthy_some hre,
      lookupNode_insertNode, hr, hc, hne2]
  rw [hform]
  refine ⟨?_, rfl, rfl⟩
  have e1 := childrenIds_opt_of_stripPL
    ((shapeEq_rebalanceTree
      (updateDescendantLevels (s.nodes.length + 1)
        (insertNode
          (insertNode
            (insertNode s.nodes rId
              { nodeR with
                childrenIds := nodeR.childrenIds.filter fun cid => cid ≠ c })
            rId
            { nodeR with
              childrenIds :=
                (nodeR.childrenIds.filter fun cid => cid ≠ c) ++ [c] })
          c { nodeC with parentId := some rId, level := nodeR.level + 1 })
        c) s.rootNodeId) rId)
  have e2 := childrenIds_opt_of_stripLvl
    (udl_stripLvl (s.nodes.length + 1)
      (insertNode
        (insertNode
          (insertNode s.nodes rId
            { nodeR with
              childrenIds := nodeR.childrenIds.filter fun cid => cid ≠ c })
          rId
          { nodeR with
            childrenIds :=
              (nodeR.childrenIds.filter fun cid => cid ≠ c) ++ [c] })
        c { nodeC with parentId := some rId, level := nodeR.level + 1 })
      c rId)
  show (lookupNode (rebalanceTree _ s.rootNodeId) rId).map
      (fun n => n.childrenIds) = _
  rw [← e1, e2]
  simp [lookupNode_insertNode, hne2, hne]

/-- Witness for the amended C8 at the concrete three-node tree. -/
theorem c8_same_parent_moves_to_end_witness :
    (lookupNode (reassignParent wState3 "a" "r").nodes "r").map
        (fun n => n.childrenIds)
      = some ((wRoot.childrenIds.filter fun cid => cid ≠ "a") ++ ["a"]) :=
  (c8_same_parent_moves_to_end wState3 "a" "r" wA wRoot (by decide) (by decide)
    (by decide) (by decide) (by decide) (by decide)).1

/-! C9: collapsed nodes and the layout. -/

/-- Witness record: root of the collapsed-child tree. -/
def wR9 : MindMapNode :=
  { id := "r9", title := "Ro", position := ⟨400, 300⟩, color := "#000000",
    isCompleted := false, isCollapsed := false, parentId := none,
    childrenIds := ["ca", "cb"], details := none, externalLink := none,
    level := 0, isSelected := false, isEditing := false }

/-- Witness record: a collapsed child parked at a stale position. -/
def wCA : MindMapNode :=
  { id := "ca", title := "Ca", position := ⟨999, 999⟩, color := "#000000",
    isCompleted := false, isCollapsed := true, parentId := some "r9",
    childrenIds := [], details := none, externalLink := none,
    level := 1, isSelected := false, isEditing := false }

/-- Witness record: a visible sibling of the collapsed child. -/
def wCB : MindMapNode :=
  { id := "cb", title := "Cb", position := ⟨0, 0⟩, color := "#000000",
    isCompleted := false, isCollapsed := false, parentId := some "r9",
    childrenIds := [], details := none, externalLink := none,
    level := 1, isSelected := false, isEditing := false }

/-- Witness store with one collapsed child. -/
def w9Nodes : Nodes := [("r9", wR9), ("ca", wCA), ("cb", wCB)]

/-- C9 counterexample: the collapsed child `ca` is excluded from its
parent's subtree height (32, the single visible leaf, not 32+14+32 = 78 as
the claim demands) and is given no position by the layout — it stays at its
stale `(999, 999)` while the visible sibling is placed at `(482, 300)`.
Under the claim `ca` would be counted and placed at `(482, 277)`. -/
theorem c9_collapsed_counterexample :
    calculateSubtreeHeight w9Nodes 4 "r9" = 32
      ∧ (lookupNode (calculateBalancedLayout 4 4 w9Nodes "r9") "ca").map
          MindMapNode.position = some ⟨999, 999⟩
      ∧ (lookupNode (calculateBalancedLayout 4 4 w9Nodes "r9") "cb").map
          MindMapNode.position = some ⟨482, 300⟩ := by
  exact ⟨by decide, by decide, by decide⟩

/-- C9 amended: the source's filter `!child.isCollapsed` excludes the
collapsed node ITSELF (and with it its whole subtree): a collapsed
non-root node appears in no `visibleChildren` list — the list over which
every subtree height and every position is computed — and the layout
leaves its entry completely untouched (in particular it keeps its stale
position and is not counted in its parent's subtree height). -/
theorem c9_collapsed_excluded (s : Nodes) (rootId c : String)
    (cn : MindMapNode) (hid : IdsConsistent s)
    (hc : lookupNode s c = some cn) (hcol : cn.isCollapsed = true)
    (hcr : c ≠ rootId) (hf f : Nat) :
    lookupNode (calculateBalancedLayout hf f s rootId) c = lookupNode s c
      ∧ ∀ (k : String) (n : MindMapNode), lookupNode s k = some n →
          c ∉ (visibleChildren s n).map MindMapNode.id := by
  constructor
  · cases hroot : lookupNode s rootId with
    | none => simp only [calculateBalancedLayout, hroot]
    | some r =>
      simp only [calculateBalancedLayout, hroot]
      rw [layoutNode_eq_applyFoot hf f s s rootId r.position.x r.position.y 0
        (shapeEq.refl s)]
      rw [lookup_applyFoot]
      have hfil : (footNode hf f s rootId r.position.x r.position.y 0).filter
          (fun a => a.key = c) = [] := by
        rw [List.filter_eq_nil_iff]
        intro a ha
        simp only [decide_eq_true_eq]
        intro hk
        rcases footNode_key_visible hf hid f rootId r.position.x r.position.y 0
            a ha with h1 | h1
        · rw [hk] at h1; exact hcr h1
        · obtain ⟨cn2, hl2, hcol2⟩ := h1
          rw [hk, hc] at hl2
          injection hl2 with hl2
          rw [← hl2] at hcol2
          rw [hcol] at hcol2
          exact Bool.noConfusion hcol2
      rw [hfil]
      rfl
  · intro k n hkn hmem
    rw [List.mem_map] at hmem
    obtain ⟨child, hchild, hchildId⟩ := hmem
    obtain ⟨cid, _, hl, hcol2⟩ := mem_visibleChildren hchild
    have : child.id = cid := lookup_id_eq hid hl
    rw [this] at hchildId
    subst hchildId
    rw [hc] at hl
    injection hl with hl
    rw [← hl] at hcol2
    rw [hcol] at hcol2
    exact Bool.noConfusion hcol2

/-- Witness for the amended C9 at the concrete collapsed-child tree. -/
theorem c9_collapsed_excluded_witness :
    lookupNode (calculateBalancedLayout 4 4 w9Nodes "r9") "ca"
      = lookupNode w9Nodes "ca" :=
  (c9_collapsed_excluded w9Nodes "r9" "ca" wCA (by decide) (by decide)
    (by decide) (by decide) 4 4).1

/-! Tree invariants (§3 of the data model). -/

/-- One parent-edge step: `x`'s stored record names `y` as its parent. -/
def parentStep (s : Nodes) (x y : String) : Prop :=
  ∃ n, lookupNode s x = some n ∧ n.parentId = some y

/-- The tree well-formedness invariant of the store: unique keys, `id`
fields matching keys, nonempty keys, a root at level 0 with no parent and
no other parentless node, duplicate-free children lists, children that
resolve and point back, and parents that resolve, list the child and sit
one level above. -/
structure TreeInv (s : Nodes) (rootId : String) : Prop where
  nodup : (keysOf s).Nodup
  ids : IdsConsistent s
  keyNe : ∀ k n, lookupNode s k = some n → k ≠ ""
  root : ∃ r, lookupNode s rootId = some r ∧ r.parentId = none ∧ r.level = 0
  uroot : ∀ k n, lookupNode s k = some n → n.parentId = none → k = rootId
  cnodup : ∀ k n, lookupNode s k = some n → n.childrenIds.Nodup
  cp : ∀ k n, lookupNode s k = some n → ∀ c ∈ n.childrenIds,
    ∃ cn, lookupNode s c = some cn ∧ cn.parentId = some k
  pc : ∀ k n p, lookupNode s k = some n → n.parentId = some p →
    ∃ pn, lookupNode s p = some pn ∧ k ∈ pn.childrenIds ∧ n.level = pn.level + 1

/-- Decidable membership-based form of `TreeInv`, used to discharge the
invariant on concrete stores by evaluation. -/
def TreeInvD (s : Nodes) (rootId : String) : Prop :=
  (keysOf s).Nodup
  ∧ IdsConsistent s
  ∧ (∀ p ∈ s, p.1 ≠ "")
  ∧ ((lookupNode s rootId).map (fun r => (r.parentId, r.level)) = some (none, 0))
  ∧ (∀ p ∈ s, (Prod.snd p).parentId = none → p.1 = rootId)
  ∧ (∀ p ∈ s, (Prod.snd p).childrenIds.Nodup)
  ∧ (∀ p ∈ s, ∀ c ∈ (Prod.snd p).childrenIds,
      (lookupNode s c).map (fun cn => cn.parentId) = some (some p.1))
  ∧ (∀ p ∈ s, ∀ q ∈ (Prod.snd p).parentId.toList,
      (lookupNode s q).map (fun pn => (pn.childrenIds.contains p.1, pn.level + 1))
        = some (true, (Prod.snd p).level))

instance (s : Nodes) (rootId : String) : Decidable (TreeInvD s rootId) := by
  unfold TreeInvD
  infer_instance

theorem lookup_of_mem {s : Nodes} (hnd : (keysOf s).Nodup)
    {k : String} {n : MindMapNode} (h : (k, n) ∈ s) :
    lookupNode s k = some n := by
  induction s with
  | nil => simp at h
  | cons p rest ih =>
    obtain ⟨ka, va⟩ := p
    simp only [keysOf, List.map_cons, List.nodup_cons] at hnd
    rcases List.mem_cons.mp h with h1 | h1
    · cases h1
      simp [lookupNode]
    · have hk2 : ¬ ka = k := by
        intro he
        subst he
        exact hnd.1 (List.mem_map.mpr ⟨(ka, n), h1, rfl⟩)
      simp only [lookupNode, if_neg hk2]
      exact ih hnd.2 h1

/-- Soundness of the decidable invariant form. -/
theorem treeInv_of_D {s : Nodes} {rootId : String}
    (h : TreeInvD s rootId) : TreeInv s rootId := by
  obtain ⟨hnd, hids, hne, hroot, huroot, hcnd, hcp, hpc⟩ := h
  have hent : ∀ k n, lookupNode s k = some n → (k, n) ∈ s :=
    fun k n hl => entry_mem_of_lookup_some s k n hl
  refine ⟨hnd, hids, ?_, ?_, ?_, ?_, ?_, ?_⟩
  · intro k n hl
    exact hne (k, n) (hent k n hl)
  · cases hr : lookupNode s rootId with
    | none => rw [hr] at hroot; simp at hroot
    | some r =>
      rw [hr] at hroot
      simp only [Option.map_some', Option.some.injEq, Prod.mk.injEq] at hroot
      exact ⟨r, rfl, hroot.1, hroot.2⟩
  · intro k n hl hp
    exact huroot (k, n) (hent k n hl) hp
  · intro k n hl
    exact hcnd (k, n) (hent k n hl)
  · intro k n hl c hc
    have h2 := hcp (k, n) (hent k n hl) c hc
    cases hcn : lookupNode s c with
    | none => rw [hcn] at h2; simp at h2
    | some cn =>
      rw [hcn] at h2
      simp only [Option.map_some', Option.some.injEq] at h2
      exact ⟨cn, rfl, h2⟩
  · intro k n p hl hpar
    have h2 := hpc (k, n) (hent k n hl) p (by simp [hpar])
    cases hpn : lookupNode s p with
    | none => rw [hpn] at h2; simp at h2
    | some pn =>
      rw [hpn] at h2
      simp only [Option.map_some', Option.some.injEq, Prod.mk.injEq] at h2
      refine ⟨pn, rfl, ?_, h2.2.symm⟩
      have := h2.1
      simpa using this

/-! Derived facts about well-formed trees. -/

theorem level_lt_of_transGen {s : Nodes} {rootId : String}
    (inv : TreeInv s rootId) :
    ∀ {x y : String}, Relation.TransGen (parentStep s) x y →
    ∀ nx ny, lookupNode s x = some nx → lookupNode s y = some ny →
      ny.level < nx.level := by
  intro x y h
  induction h with
  | single hstep =>
    intro nx ny hx hy
    obtain ⟨n, hn, hp⟩ := hstep
    rw [hx] at hn
    injection hn with hn
    subst hn
    obtain ⟨pn, hpn, _, hlev⟩ := inv.pc x nx _ hx hp
    rw [hy] at hpn
    injection hpn with hpn
    subst hpn
    omega
  | tail hxy hstep ih =>
    intro nx nz hx hz
    obtain ⟨n, hn, hp⟩ := hstep
    have hylev := ih nx n hx hn
    obtain ⟨pn, hpn, _, hlev⟩ := inv.pc _ n _ hn hp
    rw [hz] at hpn
    injection hpn with hpn
    subst hpn
    omega

theorem transGen_lookup_left {s : Nodes} {x y : String}
    (h : Relation.TransGen (parentStep s) x y) :
    ∃ nx, lookupNode s x = some nx := by
  rcases Relation.TransGen.head'_iff.mp h with ⟨z, hstep, _⟩
  obtain ⟨n, hn, _⟩ := hstep
  exact ⟨n, hn⟩

theorem transGen_lookup_right {s : Nodes} {rootId : String}
    (inv : TreeInv s rootId) {x y : String}
    (h : Relation.TransGen (parentStep s) x y) :
    ∃ ny, lookupNode s y = some ny := by
  induction h with
  | single hstep =>
    obtain ⟨n, hn, hp⟩ := hstep
    obtain ⟨pn, hpn, _, _⟩ := inv.pc _ n _ hn hp
    exact ⟨pn, hpn⟩
  | tail _ hstep _ =>
    obtain ⟨n, hn, hp⟩ := hstep
    obtain ⟨pn, hpn, _, _⟩ := inv.pc _ n _ hn hp
    exact ⟨pn, hpn⟩

theorem no_self_ancestor {s : Nodes} {rootId : String}
    (inv : TreeInv s rootId) (x : String) :
    ¬ Relation.TransGen (parentStep s) x x := by
  intro h
  obtain ⟨nx, hx⟩ := transGen_lookup_left h
  exact absurd (level_lt_of_transGen inv h nx nx hx hx) (by omega)

theorem level_chain {s : Nodes} {rootId : String} (inv : TreeInv s rootId) :
    ∀ (L : Nat) (k : String) (n : MindMapNode),
      lookupNode s k = some n → n.level = L →
      ∃ c : List String, c.length = L + 1 ∧ c.Nodup ∧
        ∀ x ∈ c, ∃ m, lookupNode s x = some m ∧ m.level ≤ L := by
  intro L
  induction L with
  | zero =>
    intro k n hl hlev
    refine ⟨[k], rfl, by simp, ?_⟩
    intro x hx
    simp at hx
    subst hx
    exact ⟨n, hl, by omega⟩
  | succ L ih =>
    intro k n hl hlev
    cases hp : n.parentId with
    | none =>
      have hk := inv.uroot k n hl hp
      subst hk
      obtain ⟨r, hr, _, hrl⟩ := inv.root
      rw [hl] at hr
      injection hr with hr
      subst hr
      omega
    | some p =>
      obtain ⟨pn, hpn, _, hlevp⟩ := inv.pc k n p hl hp
      have hplev : pn.level = L := by omega
      obtain ⟨c, hclen, hcnd, hcall⟩ := ih p pn hpn hplev
      refine ⟨k :: c, by simp [hclen], ?_, ?_⟩
      · rw [List.nodup_cons]
        refine ⟨?_, hcnd⟩
        intro hkc
        obtain ⟨m, hm, hml⟩ := hcall k hkc
        rw [hl] at hm
        injection hm with hm
        subst hm
        omega
      · intro x hx
        rcases List.mem_cons.mp hx with h | h
        · subst h; exact ⟨n, hl, by omega⟩
        · obtain ⟨m, hm, hml⟩ := hcall x h
          exact ⟨m, hm, by omega⟩

theorem level_lt_length {s : Nodes} {rootId : String} (inv : TreeInv s rootId)
    {k : String} {n : MindMapNode} (hl : lookupNode s k = some n) :
    n.level < s.length := by
  obtain ⟨c, hclen, hcnd, hcall⟩ := level_chain inv n.level k n hl rfl
  have hsub : ∀ x ∈ c, x ∈ keysOf s := by
    intro x hx
    obtain ⟨m, hm, _⟩ := hcall x hx
    exact mem_keys_of_lookup_some _ _ _ hm
  have h2 : c.toFinset.card = c.length := List.toFinset_card_of_nodup hcnd
  have h3 : c.toFinset ⊆ (keysOf s).toFinset := by
    intro x hx
    rw [List.mem_toFinset] at hx ⊢
    exact hsub x hx
  have h4 := Finset.card_le_card h3
  have h5 := (keysOf s).toFinset_card_le
  have h6 : (keysOf s).length = s.length := by simp [keysOf]
  omega

theorem parent_key_ne {s : Nodes} {rootId : String} (inv : TreeInv s rootId)
    {k : String} {n : MindMapNode} {p : String}
    (hl : lookupNode s k = some n) (hp : n.parentId = some p) : p ≠ "" := by
  obtain ⟨pn, hpn, _, _⟩ := inv.pc k n p hl hp
  exact inv.keyNe p pn hpn

/-- Completeness of the fueled `isDescendant` walk: a genuine ancestor is
found whenever the fuel covers the node's level. -/
theorem isDescendantWalk_complete {s : Nodes} {rootId : String}
    (inv : TreeInv s rootId) :
    ∀ (fuel : Nat) (b a : String),
      Relation.TransGen (parentStep s) b a →
      ∀ nb, lookupNode s b = some nb → nb.level ≤ fuel →
      isDescendantWalk s fuel b a = true := by
  intro fuel
  induction fuel with
  | zero =>
    intro b a h nb hlb hlev
    rcases Relation.TransGen.head'_iff.mp h with ⟨y, hstep, _⟩
    obtain ⟨n, hn, hp⟩ := hstep
    rw [hlb] at hn
    injection hn with hn
    subst hn
    obtain ⟨pn, hpn, _, hlev2⟩ := inv.pc b nb y hlb hp
    omega
  | succ fuel ih =>
    intro b a h nb hlb hlev
    rcases Relation.TransGen.head'_iff.mp h with ⟨y, hstep, hrest⟩
    obtain ⟨n, hn, hp⟩ := hstep
    rw [hlb] at hn
    injection hn with hn
    subst hn
    simp only [isDescendantWalk, hlb, hp,
      jsTruthy_some (parent_key_ne inv hlb hp), eq_self_iff_true, if_true]
    by_cases hya : y = a
    · simp [hya]
    · rw [if_neg hya]
      rcases (Relation.ReflTransGen.cases_head hrest) with heq | ⟨z, hz, hrest2⟩
      · exact absurd heq hya
      · obtain ⟨pn, hpn, _, hlev2⟩ := inv.pc b nb y hlb hp
        exact ih y a (Relation.TransGen.head' hz hrest2) pn hpn (by omega)

/-! Subtree machinery: erase lemmas, chain comparability, sibling-subtree
disjointness, and the exact effect of `deleteRecursively`. -/

theorem keys_eraseNode_subset (m : Nodes) (k x : String)
    (h : x ∈ keysOf (eraseNode m k)) : x ∈ keysOf m := by
  induction m with
  | nil => simp [eraseNode, keysOf] at h
  | cons p rest ih =>
    obtain ⟨ka, va⟩ := p
    by_cases hk : ka = k
    · subst hk
      simp only [eraseNode, if_pos rfl] at h
      simp only [keysOf, List.map_cons, List.mem_cons]
      exact Or.inr h
    · simp only [eraseNode, if_neg hk, keysOf, List.map_cons, List.mem_cons] at h ⊢
      rcases h with h | h
      · exact Or.inl h
      · exact Or.inr (ih h)

theorem keysNodup_eraseNode (m : Nodes) (k : String)
    (h : (keysOf m).Nodup) : (keysOf (eraseNode m k)).Nodup := by
  induction m with
  | nil => exact h
  | cons p rest ih =>
    obtain ⟨ka, va⟩ := p
    simp only [keysOf, List.map_cons, List.nodup_cons] at h
    by_cases hk : ka = k
    · subst hk
      simpa [eraseNode] using h.2
    · simp only [eraseNode, if_neg hk, keysOf, List.map_cons, List.nodup_cons]
      exact ⟨fun hmem => h.1 (keys_eraseNode_subset rest k ka hmem), ih h.2⟩

theorem lookup_eraseNode (m : Nodes) (k k2 : String)
    (hnd : (keysOf m).Nodup) :
    lookupNode (eraseNode m k) k2 = if k = k2 then none else lookupNode m k2 := by
  induction m with
  | nil => simp [eraseNode, lookupNode]
  | cons p rest ih =>
    obtain ⟨ka, va⟩ := p
    simp only [keysOf, List.map_cons, List.nodup_cons] at hnd
    by_cases hk : ka = k
    · subst hk
      simp only [eraseNode, if_pos rfl]
      by_cases hk2 : ka = k2
      · subst hk2
        rw [if_pos rfl]
        exact lookupNode_eq_none_of_not_mem rest ka hnd.1
      · rw [if_neg hk2]
        simp [lookupNode, hk2]
    · simp only [eraseNode, if_neg hk]
      by_cases hk2 : ka = k2
      · subst hk2
        have : ¬ k = ka := fun h => hk h.symm
        simp [lookupNode, this]
      · simp only [lookupNode, if_neg hk2]
        exact ih hnd.2

theorem parentStep_unique {s : Nodes} {x y1 y2 : String}
    (h1 : parentStep s x y1) (h2 : parentStep s x y2) : y1 = y2 := by
  obtain ⟨n1, hl1, hp1⟩ := h1
  obtain ⟨n2, hl2, hp2⟩ := h2
  rw [hl1] at hl2
  injection hl2 with hl2
  subst hl2
  rw [hp1] at hp2
  injection hp2

theorem chain_comparable {s : Nodes} {rootId : String} (inv : TreeInv s rootId) :
    ∀ (L : Nat) (y : String) (ny : MindMapNode),
      lookupNode s y = some ny → ny.level ≤ L →
      ∀ c1 c2, Relation.TransGen (parentStep s) y c1 →
        Relation.TransGen (parentStep s) y c2 →
        c1 = c2 ∨ Relation.TransGen (parentStep s) c1 c2
          ∨ Relation.TransGen (parentStep s) c2 c1 := by
  intro L
  induction L with
  | zero =>
    intro y ny hy hlev c1 c2 h1 h2
    rcases Relation.TransGen.head'_iff.mp h1 with ⟨z, hz, _⟩
    obtain ⟨n, hn, hp⟩ := hz
    rw [hy] at hn
    injection hn with hn
    subst hn
    obtain ⟨pn, _, _, hlev2⟩ := inv.pc y ny z hy hp
    omega
  | succ L ih =>
    intro y ny hy hlev c1 c2 h1 h2
    rcases Relation.TransGen.head'_iff.mp h1 with ⟨z1, hz1, hr1⟩
    rcases Relation.TransGen.head'_iff.mp h2 with ⟨z2, hz2, hr2⟩
    have hzz : z1 = z2 := parentStep_unique hz1 hz2
    subst hzz
    obtain ⟨n, hn, hp⟩ := hz1
    rw [hy] at hn
    injection hn with hn
    subst hn
    obtain ⟨pn, hpn, _, hlev2⟩ := inv.pc y ny z1 hy hp
    rcases Relation.ReflTransGen.cases_head hr1 with he1 | ⟨w1, hw1, hrw1⟩
    · rcases Relation.ReflTransGen.cases_head hr2 with he2 | ⟨w2, hw2, hrw2⟩
      · left; rw [← he1, ← he2]
      · right; left
        rw [← he1]
        exact Relation.TransGen.head' hw2 hrw2
    · rcases Relation.ReflTransGen.cases_head hr2 with he2 | ⟨w2, hw2, hrw2⟩
      · right; right
        rw [← he2]
        exact Relation.TransGen.head' hw1 hrw1
      · exact ih z1 pn hpn (by omega) c1 c2
          (Relation.TransGen.head' hw1 hrw1) (Relation.TransGen.head' hw2 hrw2)

theorem child_entry {s : Nodes} {rootId : String} (inv : TreeInv s rootId)
    {x : String} {nx : MindMapNode} (hx : lookupNode s x = some nx)
    {c : String} (hc : c ∈ nx.childrenIds) :
    ∃ cn, lookupNode s c = some cn ∧ cn.parentId = some x
      ∧ cn.level = nx.level + 1 := by
  obtain ⟨cn, hcn, hcp⟩ := inv.cp x nx hx c hc
  obtain ⟨pn, hpn, _, hlev⟩ := inv.pc c cn x hcn hcp
  rw [hx] at hpn
  injection hpn with hpn
  subst hpn
  exact ⟨cn, hcn, hcp, hlev⟩

theorem child_parentStep {s : Nodes} {rootId : String} (inv : TreeInv s rootId)
    {x : String} {nx : MindMapNode} (hx : lookupNode s x = some nx)
    {c : String} (hc : c ∈ nx.childrenIds) : parentStep s c x := by
  obtain ⟨cn, hcn, hcp, _⟩ := child_entry inv hx hc
  exact ⟨cn, hcn, hcp⟩

theorem inSub_of_child {s : Nodes} {rootId : String} (inv : TreeInv s rootId)
    {x : String} {nx : MindMapNode} (hx : lookupNode s x = some nx)
    {c : String} (hc : c ∈ nx.childrenIds) {y : String}
    (hy : y = c ∨ Relation.TransGen (parentStep s) y c) :
    Relation.TransGen (parentStep s) y x := by
  have hstep := child_parentStep inv hx hc
  rcases hy with hy | hy
  · subst hy; exact Relation.TransGen.single hstep
  · exact Relation.TransGen.tail hy hstep

theorem strictSub_decompose {s : Nodes} {rootId : String}
    (inv : TreeInv s rootId) {x : String} {nx : MindMapNode}
    (hx : lookupNode s x = some nx) {k : String}
    (h : Relation.TransGen (parentStep s) k x) :
    ∃ c ∈ nx.childrenIds, k = c ∨ Relation.TransGen (parentStep s) k c := by
  rcases (Relation.TransGen.tail'_iff).mp h with ⟨b, hrtg, hstep⟩
  obtain ⟨nb, hnb, hpb⟩ := hstep
  obtain ⟨pn, hpn, hmem, _⟩ := inv.pc b nb x hnb hpb
  rw [hx] at hpn
  injection hpn with hpn
  subst hpn
  refine ⟨b, hmem, ?_⟩
  rcases Relation.ReflTransGen.cases_head hrtg with he | ⟨w, hw, hrw⟩
  · exact Or.inl he
  · exact Or.inr (Relation.TransGen.head' hw hrw)

theorem sibling_disjoint {s : Nodes} {rootId : String} (inv : TreeInv s rootId)
    {x : String} {nx : MindMapNode} (hx : lookupNode s x = some nx)
    {c1 c2 : String} (h1 : c1 ∈ nx.childrenIds) (h2 : c2 ∈ nx.childrenIds)
    (hne : c1 ≠ c2) {y : String}
    (hy1 : y = c1 ∨ Relation.TransGen (parentStep s) y c1) :
    ¬ (y = c2 ∨ Relation.TransGen (parentStep s) y c2) := by
  obtain ⟨cn1, hcn1, _, hlev1⟩ := child_entry inv hx h1
  obtain ⟨cn2, hcn2, _, hlev2⟩ := child_entry inv hx h2
  have hleveq : cn1.level = cn2.level := by omega
  intro hy2
  rcases hy1 with hy1 | hy1
  · subst hy1
    rcases hy2 with hy2 | hy2
    · exact hne hy2
    · have := level_lt_of_transGen inv hy2 cn1 cn2 hcn1 hcn2
      omega
  · rcases hy2 with hy2 | hy2
    · subst hy2
      have := level_lt_of_transGen inv hy1 cn2 cn1 hcn2 hcn1
      omega
    · obtain ⟨ny, hny⟩ := transGen_lookup_left hy1
      have hybound : ny.level ≤ s.length := by
        have := level_lt_length inv hny
        omega
      rcases chain_comparable inv s.length y ny hny hybound c1 c2 hy1 hy2
          with he | hcc | hcc
      · exact hne he
      · have := level_lt_of_transGen inv hcc cn1 cn2 hcn1 hcn2
        omega
      · have := level_lt_of_transGen inv hcc cn2 cn1 hcn2 hcn1
        omega

section
open Classical

/-- Exact effect of `deleteRecursively` with sufficient fuel: it removes
exactly the subtree of `x` (computed in the reference tree `s`) and leaves
every other entry alone. -/
theorem deleteRec_spec {s : Nodes} {rootId : String} (inv : TreeInv s rootId) :
    ∀ (d : Nat) (x : String) (nx : MindMapNode),
      lookupNode s x = some nx →
      s.length - nx.level ≤ d →
      ∀ (fuel : Nat), d ≤ fuel →
      ∀ (m : Nodes), (keysOf m).Nodup →
      (∀ y, (y = x ∨ Relation.TransGen (parentStep s) y x) →
        lookupNode m y = lookupNode s y) →
      ((∀ k, lookupNode (deleteRecursively fuel m x) k
          = if k = x ∨ Relation.TransGen (parentStep s) k x then none
            else lookupNode m k)
        ∧ (keysOf (deleteRecursively fuel m x)).Nodup) := by
  intro d
  induction d with
  | zero =>
    intro x nx hx hd
    exact absurd hd (by have := level_lt_length inv hx; omega)
  | succ d ih =>
    intro x nx hx hd fuel hfuel m hmnd hagree
    cases fuel with
    | zero => omega
    | succ f =>
      have hmx : lookupNode m x = some nx := by
        rw [hagree x (Or.inl rfl)]; exact hx
      have hloop : ∀ (cs : List String), (∀ c ∈ cs, c ∈ nx.childrenIds) →
          cs.Nodup →
          ∀ m0, (keysOf m0).Nodup →
          (∀ y, (∃ c ∈ cs, y = c ∨ Relation.TransGen (parentStep s) y c) →
            lookupNode m0 y = lookupNode s y) →
          ((∀ k, lookupNode (deleteChildrenLoop
                (fun acc cid => deleteRecursively f acc cid) cs m0) k
              = if ∃ c ∈ cs, k = c ∨ Relation.TransGen (parentStep s) k c
                then none else lookupNode m0 k)
            ∧ (keysOf (deleteChildrenLoop
                (fun acc cid => deleteRecursively f acc cid) cs m0)).Nodup) := by
        intro cs
        induction cs with
        | nil =>
          intro _ _ m0 hm0nd _
          refine ⟨?_, hm0nd⟩
          intro k
          simp [deleteChildrenLoop]
        | cons c cs ihcs =>
          intro hsub hnd m0 hm0nd hagree0
          obtain ⟨cn, hcn, hcp, hclev⟩ :=
            child_entry inv hx (hsub c (List.mem_cons_self _ _))
          have hdsub : s.length - cn.level ≤ d := by omega
          have hrec := ih c cn hcn hdsub f (by omega) m0 hm0nd
            (fun y hy => hagree0 y ⟨c, List.mem_cons_self _ _, hy⟩)
          rw [List.nodup_cons] at hnd
          have hnext := ihcs (fun c2 h2 => hsub c2 (List.mem_cons_of_mem _ h2))
            hnd.2 (deleteRecursively f m0 c) hrec.2
            (by
              intro y ⟨c2, hc2, hy⟩
              rw [hrec.1 y]
              rw [if_neg (sibling_disjoint inv hx
                (hsub c2 (List.mem_cons_of_mem _ hc2))
                (hsub c (List.mem_cons_self _ _))
                (fun he => hnd.1 (he ▸ hc2)) hy)]
              exact hagree0 y ⟨c2, List.mem_cons_of_mem _ hc2, hy⟩)
          refine ⟨?_, hnext.2⟩
          intro k
          simp only [deleteChildrenLoop]
          rw [hnext.1 k]
          by_cases hk1 : ∃ c2 ∈ cs, k = c2 ∨ Relation.TransGen (parentStep s) k c2
          · rw [if_pos hk1, if_pos]
            obtain ⟨c2, hc2, hy⟩ := hk1
            exact ⟨c2, List.mem_cons_of_mem _ hc2, hy⟩
          · rw [if_neg hk1, hrec.1 k]
            by_cases hk2 : k = c ∨ Relation.TransGen (parentStep s) k c
            · rw [if_pos hk2, if_pos ⟨c, List.mem_cons_self _ _, hk2⟩]
            · rw [if_neg hk2, if_neg]
              rintro ⟨c2, hc2, hy⟩
              rcases List.mem_cons.mp hc2 with he | hm
              · exact hk2 (he ▸ hy)
              · exact hk1 ⟨c2, hm, hy⟩
      have hM1 := hloop nx.childrenIds (fun c hc => hc) (inv.cnodup x nx hx)
        m hmnd
        (by
          intro y ⟨c, hc, hy⟩
          exact hagree y (Or.inr (inSub_of_child inv hx hc hy)))
      constructor
      · intro k
        show lookupNode (match lookupNode m x with
          | none => m
          | some nodeToDelete =>
            eraseNode (deleteChildrenLoop
              (fun acc cid => deleteRecursively f acc cid)
              nodeToDelete.childrenIds m) x) k = _
        rw [hmx]
        rw [lookup_eraseNode _ _ _ hM1.2]
        by_cases hk : k = x ∨ Relation.TransGen (parentStep s) k x
        · rw [if_pos hk]
          rcases hk with hk | hk
          · rw [if_pos hk.symm]
          · by_cases hkx : x = k
            · rw [if_pos hkx]
            · rw [if_neg hkx, hM1.1 k, if_pos (strictSub_decompose inv hx hk)]
        · push_neg at hk
          have hxk : ¬ x = k := fun he => hk.1 he.symm
          have hnall : ¬ ∃ c ∈ nx.childrenIds,
              k = c ∨ Relation.TransGen (parentStep s) k c := by
            rintro ⟨c, hc, hy⟩
            exact hk.2 (inSub_of_child inv hx hc hy)
          have hnor : ¬ (k = x ∨ Relation.TransGen (parentStep s) k x) := by
            rintro (he | htg)
            · exact hk.1 he
            · exact hk.2 htg
          rw [if_neg hxk, hM1.1 k, if_neg hnall, if_neg hnor]
      · show (keysOf (match lookupNode m x with
          | none => m
          | some nodeToDelete =>
            eraseNode (deleteChildrenLoop
              (fun acc cid => deleteRecursively f acc cid)
              nodeToDelete.childrenIds m) x)).Nodup
        rw [hmx]
        exact keysNodup_eraseNode _ _ hM1.2

end

/-! C4: structural violations. -/

/-- The value `deleteNode` returns to its caller: the source function's
every path ends in a bare `return;` or falls off the end, so the caller
always receives `undefined` — there is no rejection indicator. -/
def deleteNodeReturns (_s : MMState) (_nodeId : String) : Unit := ()

/-- The value `reassignParent` returns to its caller: `undefined` on every
path, rejected or committed. -/
def reassignParentReturns (_s : MMState) (_nodeId _newParentId : String) : Unit := ()

/-- C4 counterexample (for the second half of the claim): the value
returned to the caller is identical for a rejected call and a committed
call — `deleteNode(root)` vs `deleteNode(leaf)` and the cycle-rejected
`reassignParent(r, a)` vs the committed `reassignParent(a, r)` — so the
caller receives no boolean/result indicating the rejection. -/
theorem c4_no_rejection_result_counterexample :
    deleteNodeReturns wState3 "r" = deleteNodeReturns wState3 "a"
      ∧ reassignParentReturns wState3 "r" "a"
        = reassignParentReturns wState3 "a" "r" :=
  ⟨rfl, rfl⟩

/-- C4 amended: structural violations are rejected before any mutation —
deleting the root (or a missing id) and reparenting a node onto itself or
onto one of its descendants leave the entire state (nodes, selection,
history) unchanged — but the caller receives no boolean/result: both
functions return `undefined` in every case. -/
theorem c4_structural_rejection :
    (∀ s : MMState, deleteNode s s.rootNodeId = s)
    ∧ (∀ (s : MMState) (a : String), reassignParent s a a = s)
    ∧ (∀ (s : MMState) (a b : String), TreeInv s.nodes s.rootNodeId →
        Relation.TransGen (parentStep s.nodes) b a →
        reassignParent s a b = s) := by
  refine ⟨?_, ?_, ?_⟩
  · intro s
    unfold deleteNode
    split
    · rfl
    · split
      · rfl
      · rename_i node heq hne
        exact absurd rfl hne
  · intro s a
    cases hla : lookupNode s.nodes a with
    | none => simp [reassignParent, hla]
    | some n => simp [reassignParent, hla]
  · intro s a b inv htg
    obtain ⟨na, hla⟩ := transGen_lookup_right inv htg
    obtain ⟨nb, hlb⟩ := transGen_lookup_left htg
    have hne : ¬ a = b := by
      intro he
      subst he
      exact no_self_ancestor inv a htg
    have hguard : isDescendantWalk s.nodes s.nodes.length b a = true :=
      isDescendantWalk_complete inv s.nodes.length b a htg nb hlb
        (by have := level_lt_length inv hlb; omega)
    simp [reassignParent, hla, hlb, hne, hguard]

/-- Witness for the amended C4: root deletion and a concrete
descendant-reparent are both rejected with the state unchanged. -/
theorem c4_structural_rejection_witness :
    deleteNode wState3 wState3.rootNodeId = wState3
      ∧ reassignParent wState3 "r" "a" = wState3 := by
  refine ⟨c4_structural_rejection.1 wState3, ?_⟩
  exact c4_structural_rejection.2.2 wState3 "r" "a" (treeInv_of_D (by decide))
    (Relation.TransGen.single ⟨wA, by decide, by decide⟩)

/-- Witness for C3: the round-trip at the concrete state, and the
redo-stack clearing for a concrete committed mutation. -/
theorem c3_undo_redo_roundtrip_witness :
    ((redo (undo wState3)).nodes = wState3.nodes ∧
      (redo (undo wState3)).history = wState3.history) ∧
    (deleteNode wState3 "a" = wState3 ∨
      ((deleteNode wState3 "a").history.present
          = ((deleteNode wState3 "a").nodes, (deleteNode wState3 "a").rootNodeId) ∧
        (deleteNode wState3 "a").history.past ≠ [] ∧
        (deleteNode wState3 "a").history.future = [])) := by
  have h1 := c3_undo_redo_roundtrip.1 wState3 (by decide) (by decide)
  exact ⟨⟨h1.1, h1.2.2⟩, c3_undo_redo_roundtrip.2.2.1 wState3 "a"⟩

/-! C5: cascading delete. -/

/-- `k` lies in the subtree rooted at `x`: it is `x` itself or has `x` as a
strict ancestor (following `parentId` links). -/
def InSubtree (s : Nodes) (x k : String) : Prop :=
  k = x ∨ Relation.TransGen (parentStep s) k x

theorem removed_of_parentStep {s : Nodes} {c k x : String}
    (hstep : parentStep s c k) (hc : Relation.TransGen (parentStep s) c x) :
    k = x ∨ Relation.TransGen (parentStep s) k x := by
  rcases Relation.TransGen.head'_iff.mp hc with ⟨z, hz, hr⟩
  have hzk : z = k := parentStep_unique hz hstep
  subst hzk
  rcases Relation.ReflTransGen.cases_head hr with he | ⟨w, hw, hrw⟩
  · exact Or.inl he
  · exact Or.inr (Relation.TransGen.head' hw hrw)

theorem parentId_of_stripPL_eq {n m : MindMapNode} (h : stripPL n = stripPL m) :
    n.parentId = m.parentId := by
  rw [← stripPL_parentId n, ← stripPL_parentId m, h]

/-- C5: on a well-formed store, deleting a present non-root node `x` removes
exactly `x`'s subtree from the map, keeps every other node, filters `x` out
of its parent's `childrenIds`, leaves no surviving `parentId` or
`childrenIds` reference into the removed set, and selects `x`'s parent. -/
theorem c5_cascading_delete (s : MMState) (x : String) (nx : MindMapNode)
    (inv : TreeInv s.nodes s.rootNodeId)
    (hx : lookupNode s.nodes x = some nx)
    (hroot : x ≠ s.rootNodeId) :
    (∀ k, InSubtree s.nodes x k → lookupNode (deleteNode s x).nodes k = none)
    ∧ (∀ k, ¬ InSubtree s.nodes x k →
        (lookupNode (deleteNode s x).nodes k).isSome
          = (lookupNode s.nodes k).isSome)
    ∧ (∀ pid pn, nx.parentId = some pid → lookupNode s.nodes pid = some pn →
        (lookupNode (deleteNode s x).nodes pid).map (fun m => m.childrenIds)
          = some (pn.childrenIds.filter fun cid => cid ≠ x))
    ∧ (∀ k n, lookupNode (deleteNode s x).nodes k = some n →
        (∀ p, n.parentId = some p → ¬ InSubtree s.nodes x p)
        ∧ (∀ c ∈ n.childrenIds, ¬ InSubtree s.nodes x c))
    ∧ (deleteNode s x).selectedNodeId = some (nx.parentId.getD s.rootNodeId) := by
  cases hp : nx.parentId with
  | none => exact absurd (inv.uroot x nx hx hp) hroot
  | some pid =>
  obtain ⟨pn, hpn, hxmem, hlev⟩ := inv.pc x nx pid hx hp
  have hpidne : pid ≠ "" := inv.keyNe pid pn hpn
  have hjs : jsTruthy nx.parentId = true := by rw [hp]; exact jsTruthy_some hpidne
  have hstepx : parentStep s.nodes x pid := ⟨nx, hx, hp⟩
  have hpidnot : ¬ InSubtree s.nodes x pid := by
    rintro (he | htg)
    · exact no_self_ancestor inv x (Relation.TransGen.single (he ▸ hstepx))
    · exact no_self_ancestor inv x (Relation.TransGen.head hstepx htg)
  have hu1look : ∀ k, lookupNode (insertNode s.nodes pid
      { pn with childrenIds := pn.childrenIds.filter fun cid => cid ≠ x }) k
      = if pid = k
        then some { pn with childrenIds := pn.childrenIds.filter fun cid => cid ≠ x }
        else lookupNode s.nodes k :=
    fun k => lookupNode_insertNode s.nodes pid k _
  have hnd1 : (keysOf (insertNode s.nodes pid
      { pn with childrenIds := pn.childrenIds.filter fun cid => cid ≠ x })).Nodup := by
    rw [keysOf_insertNode_mem s.nodes pid _ (mem_keys_of_lookup_some _ _ _ hpn)]
    exact inv.nodup
  have hagree : ∀ y, (y = x ∨ Relation.TransGen (parentStep s.nodes) y x) →
      lookupNode (insertNode s.nodes pid
        { pn with childrenIds := pn.childrenIds.filter fun cid => cid ≠ x }) y
        = lookupNode s.nodes y := by
    intro y hy
    rw [hu1look y, if_neg]
    intro he
    exact hpidnot (he ▸ hy)
  have hspec := deleteRec_spec inv s.nodes.length x nx hx (by omega)
    (s.nodes.length + 1) (by omega) _ hnd1 hagree
  have hdel := hspec.1
  have ht : deleteNode s x
      = saveToHistory
          { s with
            nodes := rebalanceTree (deleteRecursively (s.nodes.length + 1)
              (insertNode s.nodes pid
                { pn with childrenIds := pn.childrenIds.filter fun cid => cid ≠ x })
              x) s.rootNodeId
            selectedNodeId := some pid
            editingNodeId := none } := by
    simp only [deleteNode, hx, hjs, hp, hpn, jsTruthy_some hpidne,
      if_neg hroot, if_true, Option.getD_some]
  have hnodes : (deleteNode s x).nodes
      = rebalanceTree (deleteRecursively (s.nodes.length + 1)
          (insertNode s.nodes pid
            { pn with childrenIds := pn.childrenIds.filter fun cid => cid ≠ x })
          x) s.rootNodeId := by
    rw [ht]
    exact rfl
  have hsel : (deleteNode s x).selectedNodeId = some pid := by
    rw [ht]
    exact rfl
  have hshape := shapeEq_rebalanceTree (deleteRecursively (s.nodes.length + 1)
    (insertNode s.nodes pid
      { pn with childrenIds := pn.childrenIds.filter fun cid => cid ≠ x })
    x) s.rootNodeId
  refine ⟨?_, ?_, ?_, ?_, ?_⟩
  · intro k hk
    have hk2 : k = x ∨ Relation.TransGen (parentStep s.nodes) k x := hk
    rw [hnodes]
    have h2 := (hshape k).symm
    rw [hdel k, if_pos hk2] at h2
    simpa using h2
  · intro k hk
    have hk2 : ¬ (k = x ∨ Relation.TransGen (parentStep s.nodes) k x) := hk
    rw [hnodes]
    have h2 := hshape k
    rw [hdel k, if_neg hk2, hu1look k] at h2
    have h3 := congrArg Option.isSome h2
    simp only [Option.isSome_map'] at h3
    rw [← h3]
    by_cases hkp : pid = k
    · subst hkp
      rw [if_pos rfl, hpn]
      rfl
    · rw [if_neg hkp]
  · intro pid2 pn2 hpid2 hpn2
    injection hpid2 with hpid2
    subst hpid2
    rw [hpn] at hpn2
    injection hpn2 with hpn2
    subst hpn2
    rw [hnodes]
    have hk2 : ¬ (pid = x ∨ Relation.TransGen (parentStep s.nodes) pid x) :=
      hpidnot
    have h2 := hshape pid
    rw [hdel pid, if_neg hk2, hu1look pid, if_pos rfl] at h2
    have h3 := childrenIds_opt_of_stripPL h2
    simpa using h3.symm
  · intro k n hkn
    rw [hnodes] at hkn
    have h2 := hshape k
    rw [hkn] at h2
    cases hu2 : lookupNode (deleteRecursively (s.nodes.length + 1)
        (insertNode s.nodes pid
          { pn with childrenIds := pn.childrenIds.filter fun cid => cid ≠ x })
        x) k with
    | none => rw [hu2] at h2; simp at h2
    | some n0 =>
      rw [hu2] at h2
      simp only [Option.map_some', Option.some.injEq] at h2
      rw [hdel k] at hu2
      have hknot : ¬ (k = x ∨ Relation.TransGen (parentStep s.nodes) k x) := by
        intro hcon
        rw [if_pos hcon] at hu2
        exact Option.noConfusion hu2
      rw [if_neg hknot, hu1look k] at hu2
      have hpareq : n0.parentId = n.parentId := parentId_of_stripPL_eq h2
      have hcideq : n0.childrenIds = n.childrenIds := childrenIds_of_stripPL_eq h2
      have hmain : ∃ m0, lookupNode s.nodes k = some m0
          ∧ m0.parentId = n.parentId
          ∧ (∀ c ∈ n.childrenIds, c ∈ m0.childrenIds ∧ c ≠ x) := by
        by_cases hkp : pid = k
        · subst hkp
          rw [if_pos rfl] at hu2
          injection hu2 with hu2
          subst hu2
          refine ⟨pn, hpn, hpareq, ?_⟩
          intro c hc
          rw [← hcideq] at hc
          have hc2 := List.mem_filter.mp hc
          refine ⟨hc2.1, ?_⟩
          have := hc2.2
          simpa using this
        · rw [if_neg hkp] at hu2
          refine ⟨n0, hu2, hpareq, ?_⟩
          intro c hc
          rw [← hcideq] at hc
          refine ⟨hc, ?_⟩
          intro he
          subst he
          obtain ⟨cn, hcn, hcp⟩ := inv.cp k n0 hu2 c hc
          rw [hx] at hcn
          injection hcn with hcn
          subst hcn
          rw [hp] at hcp
          injection hcp with hcp
          exact hkp hcp
      obtain ⟨m0, hm0, hm0p, hm0c⟩ := hmain
      constructor
      · intro p hnp hrem
        have hpstep : parentStep s.nodes k p := ⟨m0, hm0, by rw [hm0p, hnp]⟩
        rcases hrem with he | htg
        · exact hknot (Or.inr (Relation.TransGen.single (he ▸ hpstep)))
        · exact hknot (Or.inr (Relation.TransGen.head hpstep htg))
      · intro c hc hrem
        obtain ⟨hcm, hcnex⟩ := hm0c c hc
        rcases hrem with he | htg
        · exact hcnex he
        · have hcstep : parentStep s.nodes c k :=
            child_parentStep inv hm0 hcm
          exact hknot (removed_of_parentStep hcstep htg)
  · rw [hsel]
    exact rfl

/-- Witness for C5: deleting leaf `"a"` in the three-node tree removes it,
keeps `"b"`, filters `"a"` out of the root's children, and selects the
root. -/
theorem c5_cascading_delete_witness :
    lookupNode (deleteNode wState3 "a").nodes "a" = none
    ∧ (lookupNode (deleteNode wState3 "a").nodes "b").isSome
        = (lookupNode wState3.nodes "b").isSome
    ∧ (lookupNode (deleteNode wState3 "a").nodes "r").map (fun m => m.childrenIds)
        = some (wRoot.childrenIds.filter fun cid => cid ≠ "a")
    ∧ (deleteNode wState3 "a").selectedNodeId = some "r" := by
  have hinvD : TreeInvD wState3.nodes wState3.rootNodeId := by decide
  have h := c5_cascading_delete wState3 "a" wA (treeInv_of_D hinvD)
    (by decide) (by decide)
  refine ⟨h.1 "a" (Or.inl rfl), h.2.1 "b" ?_, h.2.2.1 "r" wRoot rfl rfl,
    h.2.2.2.2⟩
  rintro (he | htg)
  · exact absurd he (by decide)
  · have hlt := level_lt_of_transGen (treeInv_of_D hinvD) htg wB wA
      (by decide) (by decide)
    exact absurd hlt (by decide)

/-! C1 machinery, part 1: the layout pass preserves stored levels on
well-formed trees, so `TreeInv` survives `rebalanceTree`. -/

theorem keysOf_insertNode_not_mem : ∀ (s : Nodes) (id : String) (v : MindMapNode),
    id ∉ keysOf s → keysOf (insertNode s id v) = keysOf s ++ [id]
  | [], _, _, _ => rfl
  | (ka, va) :: rest, id, v, h => by
    have h1 : ¬ ka = id := by
      intro he
      exact h (by simp [keysOf, he])
    have h2 : id ∉ keysOf rest := by
      intro hm
      apply h
      simp only [keysOf, List.map_cons, List.mem_cons]
      exact Or.inr hm
    simp only [insertNode, if_neg h1, keysOf, List.map_cons]
    rw [show List.map Prod.fst (insertNode rest id v)
        = List.map Prod.fst rest ++ [id] from
      keysOf_insertNode_not_mem rest id v h2]
    rfl

theorem no_self_parent {s : Nodes} {rootId : String} (inv : TreeInv s rootId)
    {k : String} {n : MindMapNode} (h : lookupNode s k = some n) :
    n.parentId ≠ some k := fun hp =>
  no_self_ancestor inv k (Relation.TransGen.single ⟨n, h, hp⟩)

theorem no_self_child {s : Nodes} {rootId : String} (inv : TreeInv s rootId)
    {k : String} {n : MindMapNode} (h : lookupNode s k = some n) :
    k ∉ n.childrenIds := by
  intro hc
  obtain ⟨cn, hcn, hcp⟩ := inv.cp k n h k hc
  rw [h] at hcn
  injection hcn with hcn
  subst hcn
  exact no_self_parent inv h hcp

theorem root_reachable {s : Nodes} {rootId : String} (inv : TreeInv s rootId) :
    ∀ (L : Nat) (k : String) (nk : MindMapNode), lookupNode s k = some nk →
      nk.level ≤ L → k ≠ rootId →
      Relation.TransGen (parentStep s) k rootId := by
  intro L
  induction L with
  | zero =>
    intro k nk hk hlev hne
    cases hp : nk.parentId with
    | none => exact absurd (inv.uroot k nk hk hp) hne
    | some p =>
      obtain ⟨pn, hpn, _, hl⟩ := inv.pc k nk p hk hp
      omega
  | succ L ih =>
    intro k nk hk hlev hne
    cases hp : nk.parentId with
    | none => exact absurd (inv.uroot k nk hk hp) hne
    | some p =>
      obtain ⟨pn, hpn, _, hl⟩ := inv.pc k nk p hk hp
      have hstep : parentStep s k p := ⟨nk, hk, hp⟩
      by_cases hpr : p = rootId
      · subst hpr
        exact Relation.TransGen.single hstep
      · exact Relation.TransGen.head hstep (ih p pn hpn (by omega) hpr)

/-- Every write of a layout footprint started at a node's own stored level
assigns each visited key its stored level. -/
theorem footNode_level (hf : Nat) {s : Nodes} {rootId : String}
    (inv : TreeInv s rootId) :
    ∀ (fuel : Nat) (x : String) (nx : MindMapNode) (px py : Rat),
      lookupNode s x = some nx →
      ∀ a ∈ footNode hf fuel s x px py nx.level,
        ∃ m, lookupNode s a.key = some m ∧ a.alv = m.level := by
  intro fuel
  induction fuel with
  | zero => intro x nx px py hx a ha; simp [footNode] at ha
  | succ fuel ih =>
    intro x nx px py hx a ha
    rw [footNode, hx] at ha
    have hchild : ∀ c ∈ visibleChildren s nx,
        lookupNode s c.id = some c ∧ c.level = nx.level + 1 := by
      intro c hc
      obtain ⟨cid, hcid, hl, _⟩ := mem_visibleChildren hc
      have hcidid : c.id = cid := lookup_id_eq inv.ids hl
      obtain ⟨cn, hcn, _, hclev⟩ := child_entry inv hx hcid
      rw [hl] at hcn
      injection hcn with hcn
      subst hcn
      exact ⟨by rw [hcidid]; exact hl, hclev⟩
    have hloop : ∀ (cs : List MindMapNode),
        (∀ c ∈ cs, lookupNode s c.id = some c ∧ c.level = nx.level + 1) →
        ∀ (nodeS : MindMapNode) (x0 curY : Rat) (a : Assign),
        a ∈ footChildrenLoop hf
            (fun cid cx cy => footNode hf fuel s cid cx cy (nx.level + 1))
            s nodeS x0 cs curY →
        ∃ m, lookupNode s a.key = some m ∧ a.alv = m.level := by
      intro cs
      induction cs with
      | nil => intro _ nodeS x0 curY a hx2; simp [footChildrenLoop] at hx2
      | cons c cs ihcs =>
        intro hcs nodeS x0 curY a hx2
        simp only [footChildrenLoop, List.mem_append] at hx2
        rcases hx2 with hx2 | hx2
        · obtain ⟨hcl, hclev⟩ := hcs c (List.mem_cons_self _ _)
          rw [← hclev] at hx2
          exact ih c.id c _ _ hcl a hx2
        · exact ihcs (fun d hd => hcs d (List.mem_cons_of_mem _ hd))
            nodeS x0 _ a hx2
    by_cases he : (visibleChildren s nx).isEmpty
    · simp only [he, if_true] at ha
      simp only [List.mem_singleton] at ha
      exact ⟨nx, by rw [ha]; exact hx, by rw [ha]⟩
    · simp only [he, Bool.false_eq_true, if_false] at ha
      rcases List.mem_cons.mp ha with ha2 | ha2
      · exact ⟨nx, by rw [ha2]; exact hx, by rw [ha2]⟩
      · exact hloop (visibleChildren s nx) hchild nx _ _ a ha2

theorem applyA_none (L : List Assign) : applyA none L = none := by
  induction L with
  | nil => rfl
  | cons a L ih => rw [applyA_cons]; simpa using ih

theorem applyA_level (L : List Assign) :
    ∀ (m : MindMapNode), (∀ a ∈ L, a.alv = m.level) →
      (applyA (some m) L).map (fun n => n.level) = some m.level := by
  induction L with
  | nil => intro m _; rfl
  | cons a L ih =>
    intro m h
    rw [applyA_cons]
    simp only [Option.map_some']
    have h1 : (setPosLevel m a.ax a.ay a.alv).level = m.level := by
      have h2 := h a (List.mem_cons_self _ _)
      simp [setPosLevel, h2]
    have h3 := ih (setPosLevel m a.ax a.ay a.alv)
      (fun b hb => (h b (List.mem_cons_of_mem _ hb)).trans h1.symm)
    rw [h3, h1]

theorem applyFoot_level (s : Nodes) (L : List Assign)
    (h : ∀ a ∈ L, ∃ m, lookupNode s a.key = some m ∧ a.alv = m.level)
    (k : String) :
    (lookupNode (applyFoot s L) k).map (fun n => n.level)
      = (lookupNode s k).map (fun n => n.level) := by
  rw [lookup_applyFoot]
  cases hk : lookupNode s k with
  | none => rw [applyA_none]
  | some m =>
    simp only [Option.map_some']
    apply applyA_level
    intro a ha
    have haf := List.mem_filter.mp ha
    obtain ⟨m2, hm2, hlv⟩ := h a haf.1
    have hkey : a.key = k := by simpa using haf.2
    rw [hkey, hk] at hm2
    injection hm2 with hm2
    rw [hlv, hm2]

/-- On a well-formed tree the layout pass rewrites every level with its
stored value: levels are preserved. -/
theorem level_calculateBalancedLayout {s : Nodes} {rootId : String}
    (inv : TreeInv s rootId) (hf fuel : Nat) (k : String) :
    (lookupNode (calculateBalancedLayout hf fuel s rootId) k).map (fun n => n.level)
      = (lookupNode s k).map (fun n => n.level) := by
  cases hr : lookupNode s rootId with
  | none => simp only [calculateBalancedLayout, hr]
  | some r =>
    obtain ⟨r2, hr2, hpar, hlev0⟩ := inv.root
    rw [hr] at hr2
    injection hr2 with hr2
    subst hr2
    simp only [calculateBalancedLayout, hr]
    rw [layoutNode_eq_applyFoot hf fuel s s rootId r.position.x r.position.y 0
      (shapeEq.refl s)]
    apply applyFoot_level
    intro a ha
    rw [show (0 : Nat) = r.level from hlev0.symm] at ha
    exact footNode_level hf inv fuel rootId r _ _ hr a ha

/-- `TreeInv` transfers along any rewrite that keeps keys, shapes
(everything but position/level) and levels. -/
theorem treeInv_transfer {s t : Nodes} {rootId : String} (inv : TreeInv s rootId)
    (hsh : shapeEq s t) (hk : keysOf t = keysOf s)
    (hlev : ∀ k, (lookupNode t k).map (fun n => n.level)
      = (lookupNode s k).map (fun n => n.level)) :
    TreeInv t rootId := by
  have hcor : ∀ k n, lookupNode t k = some n →
      ∃ m, lookupNode s k = some m ∧ stripPL m = stripPL n ∧ m.level = n.level := by
    intro k n hn
    have h1 := hsh k
    rw [hn] at h1
    cases hm : lookupNode s k with
    | none => rw [hm] at h1; simp at h1
    | some m =>
      rw [hm] at h1
      simp only [Option.map_some', Option.some.injEq] at h1
      have h2 := hlev k
      rw [hn, hm] at h2
      simp only [Option.map_some', Option.some.injEq] at h2
      exact ⟨m, rfl, h1, h2.symm⟩
  have hcor2 : ∀ k m, lookupNode s k = some m →
      ∃ n, lookupNode t k = some n ∧ stripPL m = stripPL n ∧ m.level = n.level := by
    intro k m hm
    have h1 := hsh k
    rw [hm] at h1
    cases hn : lookupNode t k with
    | none => rw [hn] at h1; simp at h1
    | some n =>
      rw [hn] at h1
      simp only [Option.map_some', Option.some.injEq] at h1
      have h2 := hlev k
      rw [hn, hm] at h2
      simp only [Option.map_some', Option.some.injEq] at h2
      exact ⟨n, rfl, h1, h2.symm⟩
  refine ⟨?_, ?_, ?_, ?_, ?_, ?_, ?_, ?_⟩
  · rw [hk]; exact inv.nodup
  · intro p hp
    have hl : lookupNode t p.1 = some p.2 :=
      lookup_of_mem (by rw [hk]; exact inv.nodup) hp
    obtain ⟨m, hm, hstr, _⟩ := hcor p.1 p.2 hl
    have hmid : m.id = p.1 := lookup_id_eq inv.ids hm
    have hi := id_of_stripPL_eq hstr
    rw [← hi]
    exact hmid
  · intro k n hl
    obtain ⟨m, hm, _, _⟩ := hcor k n hl
    exact inv.keyNe k m hm
  · obtain ⟨r, hr, hpar, hlev0⟩ := inv.root
    obtain ⟨n, hn, hstr, hml⟩ := hcor2 rootId r hr
    refine ⟨n, hn, ?_, ?_⟩
    · rw [← parentId_of_stripPL_eq hstr]
      exact hpar
    · rw [← hml]
      exact hlev0
  · intro k n hl hpar
    obtain ⟨m, hm, hstr, _⟩ := hcor k n hl
    apply inv.uroot k m hm
    rw [parentId_of_stripPL_eq hstr]
    exact hpar
  · intro k n hl
    obtain ⟨m, hm, hstr, _⟩ := hcor k n hl
    rw [← childrenIds_of_stripPL_eq hstr]
    exact inv.cnodup k m hm
  · intro k n hl c hc
    obtain ⟨m, hm, hstr, _⟩ := hcor k n hl
    rw [← childrenIds_of_stripPL_eq hstr] at hc
    obtain ⟨cn, hcn, hcp⟩ := inv.cp k m hm c hc
    obtain ⟨cn2, hcn2, hstr2, _⟩ := hcor2 c cn hcn
    exact ⟨cn2, hcn2, by rw [← parentId_of_stripPL_eq hstr2]; exact hcp⟩
  · intro k n p hl hpar
    obtain ⟨m, hm, hstr, hml⟩ := hcor k n hl
    have hpar2 : m.parentId = some p := by
      rw [parentId_of_stripPL_eq hstr]
      exact hpar
    obtain ⟨pn, hpn, hmem, hlv⟩ := inv.pc k m p hm hpar2
    obtain ⟨pn2, hpn2, hstr2, hml2⟩ := hcor2 p pn hpn
    refine ⟨pn2, hpn2, ?_, ?_⟩
    · rw [← childrenIds_of_stripPL_eq hstr2]
      exact hmem
    · omega

/-- `rebalanceTree` preserves the tree invariant. -/
theorem treeInv_rebalanceTree {s : Nodes} {rootId : String}
    (inv : TreeInv s rootId) : TreeInv (rebalanceTree s rootId) rootId := by
  apply treeInv_transfer inv (shapeEq_rebalanceTree s rootId)
  · unfold rebalanceTree calculateBalancedLayout
    cases hr : lookupNode s rootId with
    | none => rfl
    | some r => exact keysOf_layoutNode _ _ s rootId _ _ 0
  · intro k
    unfold rebalanceTree
    exact level_calculateBalancedLayout inv _ _ k

/-! C1 machinery, part 2: `createNode` with a resolving parent id preserves
the invariant. -/

/-- Linking a fresh leaf under an existing parent keeps the tree invariant
(the state before the layout pass). -/
theorem treeInv_addChild {s : Nodes} {rootId : String} (inv : TreeInv s rootId)
    {apid : String} {parent : MindMapNode} (hap : lookupNode s apid = some parent)
    {nid : String} (hfresh : nid ∉ keysOf s) (hne : nid ≠ "")
    {n0 : MindMapNode} (hid : n0.id = nid) (hpar : n0.parentId = some apid)
    (hch : n0.childrenIds = []) (hlv : n0.level = parent.level + 1) :
    TreeInv (insertNode (insertNode s nid n0) apid
      { parent with childrenIds := parent.childrenIds ++ [nid] }) rootId := by
  have hnidap : ¬ nid = apid :=
    fun he => hfresh (he ▸ mem_keys_of_lookup_some s apid parent hap)
  have hM : ∀ k, lookupNode (insertNode (insertNode s nid n0) apid
      { parent with childrenIds := parent.childrenIds ++ [nid] }) k
      = if apid = k
        then some { parent with childrenIds := parent.childrenIds ++ [nid] }
        else if nid = k then some n0 else lookupNode s k := by
    intro k
    rw [lookupNode_insertNode, lookupNode_insertNode]
  have hlapid : apid ∈ keysOf (insertNode s nid n0) := by
    apply mem_keys_of_lookup_some _ _ parent
    rw [lookupNode_insertNode, if_neg hnidap]
    exact hap
  have hkeys : keysOf (insertNode (insertNode s nid n0) apid
      { parent with childrenIds := parent.childrenIds ++ [nid] })
      = keysOf s ++ [nid] := by
    rw [keysOf_insertNode_mem _ _ _ hlapid, keysOf_insertNode_not_mem s nid n0 hfresh]
  have hnodup : (keysOf (insertNode (insertNode s nid n0) apid
      { parent with childrenIds := parent.childrenIds ++ [nid] })).Nodup := by
    rw [hkeys]
    refine (List.nodup_append).mpr ⟨inv.nodup, List.nodup_singleton _, ?_⟩
    intro a ha hb
    simp only [List.mem_singleton] at hb
    subst hb
    exact hfresh ha
  have hchk : ∀ c ∈ parent.childrenIds, c ∈ keysOf s ∧ c ≠ nid ∧ c ≠ apid := by
    intro c hc
    obtain ⟨cn, hcn, hcp⟩ := inv.cp apid parent hap c hc
    refine ⟨mem_keys_of_lookup_some s c cn hcn, ?_, ?_⟩
    · intro he
      exact hfresh (he ▸ mem_keys_of_lookup_some s c cn hcn)
    · intro he
      subst he
      exact no_self_child inv hap hc
  refine ⟨hnodup, ?_, ?_, ?_, ?_, ?_, ?_, ?_⟩
  · intro p hp
    have hl := lookup_of_mem hnodup hp
    rw [hM] at hl
    by_cases h1 : apid = p.1
    · rw [if_pos h1] at hl
      injection hl with hl
      rw [← hl]
      show parent.id = p.1
      rw [lookup_id_eq inv.ids hap]
      exact h1
    · rw [if_neg h1] at hl
      by_cases h2 : nid = p.1
      · rw [if_pos h2] at hl
        injection hl with hl
        rw [← hl, hid]
        exact h2
      · rw [if_neg h2] at hl
        exact inv.ids p (entry_mem_of_lookup_some _ _ _ hl)
  · intro k n hl
    by_cases h1 : apid = k
    · subst h1
      exact inv.keyNe apid parent hap
    · by_cases h2 : nid = k
      · subst h2
        exact hne
      · rw [hM, if_neg h1, if_neg h2] at hl
        exact inv.keyNe k n hl
  · obtain ⟨r, hr, hrpar, hrlev⟩ := inv.root
    by_cases h1 : apid = rootId
    · subst h1
      rw [hap] at hr
      injection hr with hr
      subst hr
      refine ⟨{ parent with childrenIds := parent.childrenIds ++ [nid] },
        ?_, hrpar, hrlev⟩
      rw [hM, if_pos rfl]
    · have h2 : ¬ nid = rootId :=
        fun he => hfresh (he ▸ mem_keys_of_lookup_some s rootId r hr)
      refine ⟨r, ?_, hrpar, hrlev⟩
      rw [hM, if_neg h1, if_neg h2]
      exact hr
  · intro k n hl hpn
    rw [hM] at hl
    by_cases h1 : apid = k
    · rw [if_pos h1] at hl
      injection hl with hl
      have hpp : parent.parentId = none := by
        rw [show parent.parentId = n.parentId from by rw [← hl]]
        exact hpn
      rw [← h1]
      exact inv.uroot apid parent hap hpp
    · rw [if_neg h1] at hl
      by_cases h2 : nid = k
      · rw [if_pos h2] at hl
        injection hl with hl
        rw [← hl, hpar] at hpn
        exact Option.noConfusion hpn
      · rw [if_neg h2] at hl
        exact inv.uroot k n hl hpn
  · intro k n hl
    rw [hM] at hl
    by_cases h1 : apid = k
    · rw [if_pos h1] at hl
      injection hl with hl
      rw [← hl]
      show (parent.childrenIds ++ [nid]).Nodup
      refine (List.nodup_append).mpr
        ⟨inv.cnodup apid parent hap, List.nodup_singleton _, ?_⟩
      intro a ha hb
      simp only [List.mem_singleton] at hb
      exact (hchk a ha).2.1 hb
    · rw [if_neg h1] at hl
      by_cases h2 : nid = k
      · rw [if_pos h2] at hl
        injection hl with hl
        rw [← hl, hch]
        exact List.nodup_nil
      · rw [if_neg h2] at hl
        exact inv.cnodup k n hl
  · intro k n hl c hc
    rw [hM] at hl
    by_cases h1 : apid = k
    · rw [if_pos h1] at hl
      injection hl with hl
      have hcids : n.childrenIds = parent.childrenIds ++ [nid] := by rw [← hl]
      rw [hcids] at hc
      rcases List.mem_append.mp hc with hc1 | hc2
      · obtain ⟨hck, hcnid, hcapid⟩ := hchk c hc1
        obtain ⟨cn, hcn, hcp⟩ := inv.cp apid parent hap c hc1
        refine ⟨cn, ?_, by rw [hcp, h1]⟩
        rw [hM, if_neg (fun he => hcapid he.symm), if_neg (fun he => hcnid he.symm)]
        exact hcn
      · have hc2' : c = nid := by simpa using hc2
        subst hc2'
        refine ⟨n0, ?_, by rw [hpar, h1]⟩
        rw [hM, if_neg (fun he => hnidap he.symm), if_pos rfl]
    · rw [if_neg h1] at hl
      by_cases h2 : nid = k
      · rw [if_pos h2] at hl
        injection hl with hl
        rw [← hl, hch] at hc
        simp at hc
      · rw [if_neg h2] at hl
        obtain ⟨cn, hcn, hcp⟩ := inv.cp k n hl c hc
        have hcnid : ¬ nid = c :=
          fun he => hfresh (he ▸ mem_keys_of_lookup_some s c cn hcn)
        by_cases h3 : apid = c
        · have hpe : parent = cn := by
            rw [← h3] at hcn
            rw [hap] at hcn
            injection hcn
          refine ⟨{ parent with childrenIds := parent.childrenIds ++ [nid] },
            ?_, ?_⟩
          · rw [hM, if_pos h3]
          · show parent.parentId = some k
            rw [hpe]
            exact hcp
        · refine ⟨cn, ?_, hcp⟩
          rw [hM, if_neg h3, if_neg hcnid]
          exact hcn
  · intro k n p hl hp
    rw [hM] at hl
    by_cases h1 : apid = k
    · rw [if_pos h1] at hl
      injection hl with hl
      have hp' : parent.parentId = some p := by
        rw [show parent.parentId = n.parentId from by rw [← hl]]
        exact hp
      obtain ⟨pn, hpn, hmem, hlvp⟩ := inv.pc apid parent p hap hp'
      have hpnid : ¬ nid = p :=
        fun he => hfresh (he ▸ mem_keys_of_lookup_some s p pn hpn)
      have hpapid : ¬ apid = p := by
        intro he
        rw [← he] at hp'
        exact no_self_parent inv hap hp'
      refine ⟨pn, ?_, ?_, ?_⟩
      · rw [hM, if_neg hpapid, if_neg hpnid]
        exact hpn
      · rw [← h1]
        exact hmem
      · rw [show n.level = parent.level from by rw [← hl]]
        exact hlvp
    · rw [if_neg h1] at hl
      by_cases h2 : nid = k
      · rw [if_pos h2] at hl
        injection hl with hl
        have hp' : n0.parentId = some p := by
          rw [show n0.parentId = n.parentId from by rw [← hl]]
          exact hp
        rw [hpar] at hp'
        injection hp' with hp'
        subst hp'
        refine ⟨{ parent with childrenIds := parent.childrenIds ++ [nid] },
          ?_, ?_, ?_⟩
        · rw [hM, if_pos rfl]
        · show k ∈ parent.childrenIds ++ [nid]
          rw [← h2]
          simp
        · rw [show n.level = n0.level from by rw [← hl], hlv]
      · rw [if_neg h2] at hl
        obtain ⟨pn, hpn, hmem, hlvp⟩ := inv.pc k n p hl hp
        have hpnid : ¬ nid = p :=
          fun he => hfresh (he ▸ mem_keys_of_lookup_some s p pn hpn)
        by_cases h3 : apid = p
        · have hpe : parent = pn := by
            rw [← h3] at hpn
            rw [hap] at hpn
            injection hpn
          refine ⟨{ parent with childrenIds := parent.childrenIds ++ [nid] },
            ?_, ?_, ?_⟩
          · rw [hM, if_pos h3]
          · show k ∈ parent.childrenIds ++ [nid]
            apply List.mem_append_left
            rw [hpe]
            exact hmem
          · show n.level = parent.level + 1
            rw [hpe]
            exact hlvp
        · refine ⟨pn, ?_, hmem, hlvp⟩
          rw [hM, if_neg h3, if_neg hpnid]
          exact hpn

/-- `finishCreate` on a resolving parent id: the explicit store update. -/
theorem finishCreate_nodes_eq (s : MMState) (apid : String) (parent : MindMapNode)
    (hap : lookupNode s.nodes apid = some parent) (hapne : apid ≠ "")
    (nid : String) (hnidap : ¬ nid = apid) (lv : Nat) (pos : Pos) :
    finishCreate s (some apid) lv pos nid
      = saveToHistory
          { s with
            nodes := rebalanceTree
              (insertNode (insertNode s.nodes nid
                { id := nid, title := "New Node", position := pos,
                  color := DEFAULT_COLORS_black, isCompleted := false,
                  isCollapsed := false, parentId := some apid, childrenIds := [],
                  details := none, externalLink := none, level := lv,
                  isSelected := false, isEditing := false })
                apid { parent with childrenIds := parent.childrenIds ++ [nid] })
              s.rootNodeId
            selectedNodeId := some nid
            editingNodeId := some nid } := by
  simp only [finishCreate, jsTruthy_some hapne, if_true,
    lookupNode_insertNode, if_neg hnidap, hap]

theorem finishCreate_treeInv (s : MMState) (inv : TreeInv s.nodes s.rootNodeId)
    (apid : String) (parent : MindMapNode)
    (hap : lookupNode s.nodes apid = some parent)
    (nid : String) (hfresh : nid ∉ keysOf s.nodes) (hne : nid ≠ "") (pos : Pos) :
    TreeInv (finishCreate s (some apid) (parent.level + 1) pos nid).nodes
      (finishCreate s (some apid) (parent.level + 1) pos nid).rootNodeId := by
  have hapne : apid ≠ "" := inv.keyNe apid parent hap
  have hnidap : ¬ nid = apid :=
    fun he => hfresh (he ▸ mem_keys_of_lookup_some s.nodes apid parent hap)
  rw [finishCreate_nodes_eq s apid parent hap hapne nid hnidap (parent.level + 1) pos]
  exact treeInv_rebalanceTree (treeInv_addChild inv hap hfresh hne rfl rfl rfl rfl)

/-- Any committed `createNode` call with a truthy parent id preserves the
tree invariant, provided the generated id is fresh and nonempty. -/
theorem createNode_preserves (s : MMState) (inv : TreeInv s.nodes s.rootNodeId)
    (pid : String) (hpid : pid ≠ "") (sib : Bool) (nid : String)
    (hfresh : nid ∉ keysOf s.nodes) (hne : nid ≠ "")
    (t : MMState) (r : String)
    (h : createNode s (some pid) sib nid = some (t, r)) :
    TreeInv t.nodes t.rootNodeId := by
  cases hpp : lookupNode s.nodes pid with
  | none =>
    rw [show createNode s (some pid) sib nid = none from by
      simp [createNode, jsTruthy_some hpid, hpp]] at h
    exact Option.noConfusion h
  | some parentNode =>
    by_cases hsib : (sib && jsTruthy parentNode.parentId) = true
    · have hjs2 : jsTruthy parentNode.parentId = true := by
        cases hjs : jsTruthy parentNode.parentId
        · rw [hjs, Bool.and_false] at hsib
          exact Bool.noConfusion hsib
        · rfl
      cases hgp : parentNode.parentId with
      | none =>
        rw [hgp] at hjs2
        exact Bool.noConfusion hjs2
      | some gpid =>
        obtain ⟨gn, hgn, _, _⟩ := inv.pc pid parentNode gpid hpp hgp
        have hsib2 : (sib && jsTruthy (some gpid)) = true := by
          rw [← hgp]
          exact hsib
        have ht : t = finishCreate s (some gpid) (gn.level + 1)
            ⟨parentNode.position.x, parentNode.position.y + 80⟩ nid := by
          simp only [createNode, jsTruthy_some hpid, if_true, hpp, hgp, hsib2,
            hgn, Option.some.injEq, Prod.mk.injEq] at h
          exact h.1.symm
        rw [ht]
        exact finishCreate_treeInv s inv gpid gn hgn nid hfresh hne _
    · have ht : t = finishCreate s (some pid) (parentNode.level + 1)
          ⟨parentNode.position.x + 250,
           parentNode.position.y + parentNode.childrenIds.length * 80⟩ nid := by
        simp only [createNode, jsTruthy_some hpid, if_true, hpp, hsib,
          Bool.false_eq_true, if_false, Option.some.injEq, Prod.mk.injEq] at h
        exact h.1.symm
      rw [ht]
      exact finishCreate_treeInv s inv pid parentNode hpp nid hfresh hne _

/-! C1 machinery, part 3: `deleteNode` preserves the invariant. -/

/-- Detaching a non-root node from its parent and deleting its whole
subtree keeps the tree invariant (the state before the layout pass). -/
theorem treeInv_delete {s : Nodes} {rootId : String} (inv : TreeInv s rootId)
    {x : String} {nx : MindMapNode} (hx : lookupNode s x = some nx)
    (hroot : x ≠ rootId) {pid : String} (hp : nx.parentId = some pid)
    {pn : MindMapNode} (hpn : lookupNode s pid = some pn) :
    TreeInv (deleteRecursively (s.length + 1)
      (insertNode s pid
        { pn with childrenIds := pn.childrenIds.filter fun cid => cid ≠ x })
      x) rootId := by
  have hstepx : parentStep s x pid := ⟨nx, hx, hp⟩
  have hpidnot : ¬ (pid = x ∨ Relation.TransGen (parentStep s) pid x) := by
    rintro (he | htg)
    · exact no_self_ancestor inv x (Relation.TransGen.single (he ▸ hstepx))
    · exact no_self_ancestor inv x (Relation.TransGen.head hstepx htg)
  have hu1look : ∀ k, lookupNode (insertNode s pid
      { pn with childrenIds := pn.childrenIds.filter fun cid => cid ≠ x }) k
      = if pid = k
        then some { pn with childrenIds := pn.childrenIds.filter fun cid => cid ≠ x }
        else lookupNode s k :=
    fun k => lookupNode_insertNode s pid k _
  have hnd1 : (keysOf (insertNode s pid
      { pn with childrenIds := pn.childrenIds.filter fun cid => cid ≠ x })).Nodup := by
    rw [keysOf_insertNode_mem s pid _ (mem_keys_of_lookup_some _ _ _ hpn)]
    exact inv.nodup
  have hagree : ∀ y, (y = x ∨ Relation.TransGen (parentStep s) y x) →
      lookupNode (insertNode s pid
        { pn with childrenIds := pn.childrenIds.filter fun cid => cid ≠ x }) y
        = lookupNode s y := by
    intro y hy
    rw [hu1look y, if_neg]
    intro he
    exact hpidnot (he ▸ hy)
  have hspec := deleteRec_spec inv s.length x nx hx (by omega)
    (s.length + 1) (by omega) _ hnd1 hagree
  have hdel := hspec.1
  have hMa : ∀ c, ¬ (c = x ∨ Relation.TransGen (parentStep s) c x) →
      lookupNode (deleteRecursively (s.length + 1)
        (insertNode s pid
          { pn with childrenIds := pn.childrenIds.filter fun cid => cid ≠ x })
        x) c
      = if pid = c
        then some { pn with childrenIds := pn.childrenIds.filter fun cid => cid ≠ x }
        else lookupNode s c := by
    intro c hc
    rw [hdel c, if_neg hc, hu1look c]
  have hsrc : ∀ k n, lookupNode (deleteRecursively (s.length + 1)
      (insertNode s pid
        { pn with childrenIds := pn.childrenIds.filter fun cid => cid ≠ x })
      x) k = some n →
      (¬ (k = x ∨ Relation.TransGen (parentStep s) k x))
      ∧ ((pid = k
          ∧ n = { pn with childrenIds := pn.childrenIds.filter fun cid => cid ≠ x })
        ∨ (pid ≠ k ∧ lookupNode s k = some n)) := by
    intro k n hkn
    rw [hdel k] at hkn
    by_cases hk : k = x ∨ Relation.TransGen (parentStep s) k x
    · rw [if_pos hk] at hkn
      exact Option.noConfusion hkn
    · rw [if_neg hk] at hkn
      rw [hu1look k] at hkn
      refine ⟨hk, ?_⟩
      by_cases hkp : pid = k
      · rw [if_pos hkp] at hkn
        injection hkn with hkn
        exact Or.inl ⟨hkp, hkn.symm⟩
      · rw [if_neg hkp] at hkn
        exact Or.inr ⟨hkp, hkn⟩
  refine ⟨hspec.2, ?_, ?_, ?_, ?_, ?_, ?_, ?_⟩
  · intro q hq
    have hl := lookup_of_mem hspec.2 hq
    obtain ⟨_, hsrc2⟩ := hsrc q.1 q.2 hl
    rcases hsrc2 with ⟨hkp, hne⟩ | ⟨_, hks⟩
    · rw [hne]
      show pn.id = q.1
      rw [lookup_id_eq inv.ids hpn]
      exact hkp
    · exact inv.ids q (entry_mem_of_lookup_some _ _ _ hks)
  · intro k n hkn
    obtain ⟨_, hsrc2⟩ := hsrc k n hkn
    rcases hsrc2 with ⟨hkp, _⟩ | ⟨_, hks⟩
    · rw [← hkp]
      exact inv.keyNe pid pn hpn
    · exact inv.keyNe k n hks
  · obtain ⟨r, hr, hrpar, hrlev⟩ := inv.root
    have hrOK : ¬ (rootId = x ∨ Relation.TransGen (parentStep s) rootId x) := by
      rintro (he | htg)
      · exact hroot he.symm
      · rcases Relation.TransGen.head'_iff.mp htg with ⟨z, hz, _⟩
        obtain ⟨n2, hn2, hp2⟩ := hz
        rw [hr] at hn2
        injection hn2 with hn2
        subst hn2
        rw [hrpar] at hp2
        exact Option.noConfusion hp2
    by_cases hpr : pid = rootId
    · have hpe : pn = r := by
        rw [hpr] at hpn
        rw [hr] at hpn
        injection hpn with hpe
        exact hpe.symm
      refine ⟨{ pn with childrenIds := pn.childrenIds.filter fun cid => cid ≠ x },
        ?_, ?_, ?_⟩
      · rw [hMa rootId hrOK, if_pos hpr]
      · show pn.parentId = none
        rw [hpe]
        exact hrpar
      · show pn.level = 0
        rw [hpe]
        exact hrlev
    · refine ⟨r, ?_, hrpar, hrlev⟩
      rw [hMa rootId hrOK, if_neg hpr]
      exact hr
  · intro k n hkn hpno
    obtain ⟨_, hsrc2⟩ := hsrc k n hkn
    rcases hsrc2 with ⟨hkp, hne⟩ | ⟨_, hks⟩
    · have hnp : n.parentId = pn.parentId := by rw [hne]
      rw [hnp] at hpno
      rw [← hkp]
      exact inv.uroot pid pn hpn hpno
    · exact inv.uroot k n hks hpno
  · intro k n hkn
    obtain ⟨_, hsrc2⟩ := hsrc k n hkn
    rcases hsrc2 with ⟨_, hne⟩ | ⟨_, hks⟩
    · rw [hne]
      show (pn.childrenIds.filter fun cid => cid ≠ x).Nodup
      exact (inv.cnodup pid pn hpn).filter _
    · exact inv.cnodup k n hks
  · intro k n hkn c hc
    obtain ⟨hkOK, hsrc2⟩ := hsrc k n hkn
    rcases hsrc2 with ⟨hkp, hne⟩ | ⟨hkp, hks⟩
    · subst hkp
      rw [hne] at hc
      have hcpn := List.mem_filter.mp hc
      have hcmem : c ∈ pn.childrenIds := hcpn.1
      have hcx : c ≠ x := by simpa using hcpn.2
      obtain ⟨cn, hcn, hcp⟩ := inv.cp pid pn hpn c hcmem
      have hcOK : ¬ (c = x ∨ Relation.TransGen (parentStep s) c x) := by
        rintro (he | htg)
        · exact hcx he
        · exact hkOK (removed_of_parentStep ⟨cn, hcn, hcp⟩ htg)
      have hcpid : pid ≠ c := by
        intro he
        apply no_self_child inv hpn
        rw [he]
        exact hcmem
      refine ⟨cn, ?_, hcp⟩
      rw [hMa c hcOK, if_neg hcpid]
      exact hcn
    · obtain ⟨cn, hcn, hcp⟩ := inv.cp k n hks c hc
      have hcx : c ≠ x := by
        intro he
        subst he
        rw [hx] at hcn
        injection hcn with hcn
        subst hcn
        rw [hp] at hcp
        injection hcp with hcp
        exact hkp hcp
      have hcOK : ¬ (c = x ∨ Relation.TransGen (parentStep s) c x) := by
        rintro (he | htg)
        · exact hcx he
        · exact hkOK (removed_of_parentStep ⟨cn, hcn, hcp⟩ htg)
      by_cases hcpid : pid = c
      · have hpe : pn = cn := by
          rw [← hcpid] at hcn
          rw [hpn] at hcn
          injection hcn
        refine ⟨{ pn with childrenIds := pn.childrenIds.filter fun cid => cid ≠ x },
          ?_, ?_⟩
        · rw [hMa c hcOK, if_pos hcpid]
        · show pn.parentId = some k
          rw [hpe]
          exact hcp
      · refine ⟨cn, ?_, hcp⟩
        rw [hMa c hcOK, if_neg hcpid]
        exact hcn
  · intro k n p hkn hpk
    obtain ⟨hkOK, hsrc2⟩ := hsrc k n hkn
    rcases hsrc2 with ⟨hkp, hne⟩ | ⟨hkp, hks⟩
    · subst hkp
      have hnp : n.parentId = pn.parentId := by rw [hne]
      rw [hnp] at hpk
      obtain ⟨pn0, hpn0, hmem, hlv⟩ := inv.pc pid pn p hpn hpk
      have hstep : parentStep s pid p := ⟨pn, hpn, hpk⟩
      have hpOK : ¬ (p = x ∨ Relation.TransGen (parentStep s) p x) := by
        rintro (he | htg)
        · subst he
          exact hkOK (Or.inr (Relation.TransGen.single hstep))
        · exact hkOK (Or.inr (Relation.TransGen.head hstep htg))
      have hppid : pid ≠ p := by
        intro he
        apply no_self_parent inv hpn
        rw [← he] at hpk
        exact hpk
      refine ⟨pn0, ?_, hmem, ?_⟩
      · rw [hMa p hpOK, if_neg hppid]
        exact hpn0
      · rw [show n.level = pn.level from by rw [hne]]
        exact hlv
    · obtain ⟨pn0, hpn0, hmem, hlv⟩ := inv.pc k n p hks hpk
      have hstep : parentStep s k p := ⟨n, hks, hpk⟩
      have hpOK : ¬ (p = x ∨ Relation.TransGen (parentStep s) p x) := by
        rintro (he | htg)
        · subst he
          exact hkOK (Or.inr (Relation.TransGen.single hstep))
        · exact hkOK (Or.inr (Relation.TransGen.head hstep htg))
      by_cases hppid : pid = p
      · have hpe : pn = pn0 := by
          rw [← hppid] at hpn0
          rw [hpn] at hpn0
          injection hpn0
        refine ⟨{ pn with childrenIds := pn.childrenIds.filter fun cid => cid ≠ x },
          ?_, ?_, ?_⟩
        · rw [hMa p hpOK, if_pos hppid]
        · show k ∈ pn.childrenIds.filter fun cid => cid ≠ x
          rw [List.mem_filter]
          constructor
          · rw [hpe]
            exact hmem
          · simp only [decide_eq_true_eq]
            intro he
            exact hkOK (Or.inl he)
        · show n.level = pn.level + 1
          rw [hpe]
          exact hlv
      · refine ⟨pn0, ?_, hmem, hlv⟩
        rw [hMa p hpOK, if_neg hppid]
        exact hpn0

/-- `deleteNode` preserves the tree invariant in every case (missing id,
root, and commit). -/
theorem deleteNode_preserves (s : MMState) (inv : TreeInv s.nodes s.rootNodeId)
    (x : String) :
    TreeInv (deleteNode s x).nodes (deleteNode s x).rootNodeId := by
  cases hx : lookupNode s.nodes x with
  | none =>
    rw [show deleteNode s x = s from by simp [deleteNode, hx]]
    exact inv
  | some nx =>
    by_cases hroot : x = s.rootNodeId
    · rw [show deleteNode s x = s from by
        simp only [deleteNode, hx]
        rw [if_pos hroot]]
      exact inv
    · cases hp : nx.parentId with
      | none => exact absurd (inv.uroot x nx hx hp) hroot
      | some pid =>
        obtain ⟨pn, hpn, _, _⟩ := inv.pc x nx pid hx hp
        have hpidne : pid ≠ "" := inv.keyNe pid pn hpn
        have hjs : jsTruthy nx.parentId = true := by
          rw [hp]
          exact jsTruthy_some hpidne
        have ht : deleteNode s x
            = saveToHistory
                { s with
                  nodes := rebalanceTree (deleteRecursively (s.nodes.length + 1)
                    (insertNode s.nodes pid
                      { pn with
                        childrenIds := pn.childrenIds.filter fun cid => cid ≠ x })
                    x) s.rootNodeId
                  selectedNodeId := some pid
                  editingNodeId := none } := by
          simp only [deleteNode, hx, hjs, hp, hpn, jsTruthy_some hpidne,
            if_neg hroot, if_true, Option.getD_some]
        rw [ht]
        exact treeInv_rebalanceTree (treeInv_delete inv hx hroot hp hpn)

/-! C1 machinery, part 4: the exact effect of `updateDescendantLevels`. -/

theorem keysOf_udl : ∀ (fuel : Nat) (m : Nodes) (x : String),
    keysOf (updateDescendantLevels fuel m x) = keysOf m := by
  intro fuel
  induction fuel with
  | zero => intro m x; rfl
  | succ fuel ih =>
    intro m x
    unfold updateDescendantLevels
    cases hl : lookupNode m x with
    | none => rfl
    | some parentNode =>
      have hloop : ∀ (cs : List String) (m0 : Nodes) (lvl : Nat),
          keysOf (udlChildrenLoop
            (fun acc cid => updateDescendantLevels fuel acc cid) lvl cs m0)
            = keysOf m0 := by
        intro cs
        induction cs with
        | nil => intro m0 lvl; rfl
        | cons c cs ihc =>
          intro m0 lvl
          unfold udlChildrenLoop
          cases hc : lookupNode m0 c with
          | none => rw [ihc, ih]
          | some child =>
            rw [ihc, ih,
              keysOf_insertNode_mem _ _ _ (mem_keys_of_lookup_some _ _ _ hc)]
      exact hloop parentNode.childrenIds m (parentNode.level + 1)

section
open Classical

/-- Exact effect of `updateDescendantLevels` with sufficient fuel, on a map
whose strict subtree of `x` (taken in the reference tree `s`) is untouched:
every strict descendant's level is rebased onto the current level `L` of
`x`, and nothing else changes. -/
theorem udl_spec {s : Nodes} {rootId : String} (inv : TreeInv s rootId) :
    ∀ (d : Nat) (x : String) (nx : MindMapNode),
      lookupNode s x = some nx →
      s.length - nx.level ≤ d →
      ∀ (fuel : Nat), d ≤ fuel →
      ∀ (m : Nodes) (L : Nat) (mx : MindMapNode),
      lookupNode m x = some mx →
      mx.childrenIds = nx.childrenIds →
      mx.level = L →
      (∀ y, Relation.TransGen (parentStep s) y x →
        lookupNode m y = lookupNode s y) →
      ∀ k, lookupNode (updateDescendantLevels fuel m x) k
        = if Relation.TransGen (parentStep s) k x
          then (lookupNode s k).map
            (fun n => { n with level := L + (n.level - nx.level) })
          else lookupNode m k := by
  intro d
  induction d with
  | zero =>
    intro x nx hx hd
    exact absurd hd (by have := level_lt_length inv hx; omega)
  | succ d ih =>
    intro x nx hx hd fuel hfuel m L mx hmx hmxc hmxl hagree
    cases fuel with
    | zero => omega
    | succ f =>
      have hshift : ∀ (c : String) (cn : MindMapNode),
          lookupNode s c = some cn → cn.level = nx.level + 1 →
          ∀ k, Relation.TransGen (parentStep s) k c →
          (lookupNode s k).map
              (fun n => { n with level := (mx.level + 1) + (n.level - cn.level) })
            = (lookupNode s k).map
              (fun n => { n with level := L + (n.level - nx.level) }) := by
        intro c cn hcn hclev k htg
        cases hsk : lookupNode s k with
        | none => rfl
        | some n =>
          have hlt := level_lt_of_transGen inv htg n cn hsk hcn
          simp only [Option.map_some', Option.some.injEq]
          have : (mx.level + 1) + (n.level - cn.level)
              = L + (n.level - nx.level) := by omega
          rw [this]
      have hloop : ∀ (cs : List String), (∀ c ∈ cs, c ∈ nx.childrenIds) →
          cs.Nodup →
          ∀ m0, (∀ y, (∃ c ∈ cs, y = c ∨ Relation.TransGen (parentStep s) y c) →
            lookupNode m0 y = lookupNode s y) →
          ∀ k, lookupNode (udlChildrenLoop
              (fun acc cid => updateDescendantLevels f acc cid)
              (mx.level + 1) cs m0) k
            = if ∃ c ∈ cs, k = c ∨ Relation.TransGen (parentStep s) k c
              then (lookupNode s k).map
                (fun n => { n with level := L + (n.level - nx.level) })
              else lookupNode m0 k := by
        intro cs
        induction cs with
        | nil =>
          intro _ _ m0 _ k
          simp [udlChildrenLoop]
        | cons c cs ihcs =>
          intro hsub hnd m0 hag0 k
          obtain ⟨cn, hcn, hcp2, hclev⟩ :=
            child_entry inv hx (hsub c (List.mem_cons_self _ _))
          have hm0c : lookupNode m0 c = some cn := by
            rw [hag0 c ⟨c, List.mem_cons_self _ _, Or.inl rfl⟩]
            exact hcn
          rw [List.nodup_cons] at hnd
          have hm2look : ∀ y, lookupNode (insertNode m0 c
              { cn with level := mx.level + 1 }) y
              = if c = y then some { cn with level := mx.level + 1 }
                else lookupNode m0 y :=
            fun y => lookupNode_insertNode m0 c y _
          have hm2c : lookupNode (insertNode m0 c
              { cn with level := mx.level + 1 }) c
              = some { cn with level := mx.level + 1 } := by
            rw [hm2look, if_pos rfl]
          have hrec := ih c cn hcn (by omega) f (by omega)
            (insertNode m0 c { cn with level := mx.level + 1 })
            (mx.level + 1) { cn with level := mx.level + 1 } hm2c rfl rfl
            (by
              intro y hy
              have hyne : ¬ c = y := by
                intro he
                exact no_self_ancestor inv c (he ▸ hy)
              rw [hm2look y, if_neg hyne]
              exact hag0 y ⟨c, List.mem_cons_self _ _, Or.inr hy⟩)
          have hnext := ihcs (fun c2 h2 => hsub c2 (List.mem_cons_of_mem _ h2))
            hnd.2
            (updateDescendantLevels f
              (insertNode m0 c { cn with level := mx.level + 1 }) c)
            (by
              intro y ⟨c2, hc2, hy⟩
              have hdisj := sibling_disjoint inv hx
                (hsub c2 (List.mem_cons_of_mem _ hc2))
                (hsub c (List.mem_cons_self _ _))
                (fun he => hnd.1 (he ▸ hc2)) hy
              push_neg at hdisj
              rw [hrec y, if_neg hdisj.2, hm2look y,
                if_neg (fun he => hdisj.1 he.symm)]
              exact hag0 y ⟨c2, List.mem_cons_of_mem _ hc2, hy⟩)
          show lookupNode (udlChildrenLoop
              (fun acc cid => updateDescendantLevels f acc cid)
              (mx.level + 1) cs
              (updateDescendantLevels f
                (match lookupNode m0 c with
                  | none => m0
                  | some child => insertNode m0 c
                      { child with level := mx.level + 1 }) c)) k = _
          rw [hm0c]
          rw [hnext k]
          by_cases hk1 : ∃ c2 ∈ cs, k = c2 ∨ Relation.TransGen (parentStep s) k c2
          · rw [if_pos hk1, if_pos]
            obtain ⟨c2, hc2, hy⟩ := hk1
            exact ⟨c2, List.mem_cons_of_mem _ hc2, hy⟩
          · rw [if_neg hk1, hrec k]
            by_cases hk2 : Relation.TransGen (parentStep s) k c
            · rw [if_pos hk2, if_pos ⟨c, List.mem_cons_self _ _, Or.inr hk2⟩]
              exact hshift c cn hcn hclev k hk2
            · rw [if_neg hk2, hm2look k]
              by_cases hk3 : c = k
              · subst hk3
                rw [if_pos rfl, if_pos ⟨c, List.mem_cons_self _ _, Or.inl rfl⟩,
                  hcn]
                simp only [Option.map_some', Option.some.injEq]
                have : mx.level + 1 = L + (cn.level - nx.level) := by omega
                rw [this]
              · rw [if_neg hk3, if_neg]
                rintro ⟨c2, hc2, hy⟩
                rcases List.mem_cons.mp hc2 with he | hm
                · subst he
                  rcases hy with hy | hy
                  · exact hk3 hy.symm
                  · exact hk2 hy
                · exact hk1 ⟨c2, hm, hy⟩
      intro k
      show lookupNode (match lookupNode m x with
        | none => m
        | some parentNode =>
          udlChildrenLoop (fun acc cid => updateDescendantLevels f acc cid)
            (parentNode.level + 1) parentNode.childrenIds m) k = _
      simp only [hmx]
      rw [show mx.childrenIds = nx.childrenIds from hmxc]
      rw [hloop nx.childrenIds (fun c hc => hc) (inv.cnodup x nx hx) m
        (by
          intro y ⟨c, hc, hy⟩
          exact hagree y (inSub_of_child inv hx hc hy)) k]
      by_cases hk : Relation.TransGen (parentStep s) k x
      · rw [if_pos hk, if_pos (strictSub_decompose inv hx hk)]
      · rw [if_neg hk, if_neg]
        rintro ⟨c, hc, hy⟩
        exact hk (inSub_of_child inv hx hc hy)

end

/-! C1 machinery, part 5: `reassignParent` preserves the invariant. -/

/-- The three structural writes on the commit path of `reassignParent`
(detach from the old parent, append under the new parent, repoint the
node), before the level sweep and the layout pass. -/
def reassignCore (s : Nodes) (a b pid0 : String)
    (node oldP np2 : MindMapNode) (newLevel : Nat) : Nodes :=
  insertNode (insertNode (insertNode s pid0
      { oldP with childrenIds := oldP.childrenIds.filter fun cid => cid ≠ a })
    b { np2 with childrenIds := np2.childrenIds ++ [a] })
    a { node with parentId := some b, level := newLevel }

theorem treeInv_reassign {s : Nodes} {rootId : String} (inv : TreeInv s rootId)
    {a : String} {node : MindMapNode} (hla : lookupNode s a = some node)
    {b : String} {newParent : MindMapNode} (hlb : lookupNode s b = some newParent)
    (hab : a ≠ b) (hnTG : ¬ Relation.TransGen (parentStep s) b a)
    {pid0 : String} (hpid0 : node.parentId = some pid0)
    {oldP : MindMapNode} (holdP : lookupNode s pid0 = some oldP)
    {np2 : MindMapNode}
    (hnp2id : np2.id = newParent.id)
    (hnp2par : np2.parentId = newParent.parentId)
    (hnp2lev : np2.level = newParent.level)
    (hnp2mem : ∀ c, c ∈ np2.childrenIds ↔ c ∈ newParent.childrenIds ∧ c ≠ a)
    (hnp2nd : np2.childrenIds.Nodup) :
    TreeInv (updateDescendantLevels (s.length + 1)
      (reassignCore s a b pid0 node oldP np2 (newParent.level + 1)) a) rootId := by
  have hanTG : ¬ Relation.TransGen (parentStep s) a a := no_self_ancestor inv a
  have hstepa : parentStep s a pid0 := ⟨node, hla, hpid0⟩
  have hpid0nTG : ¬ Relation.TransGen (parentStep s) pid0 a :=
    fun htg => no_self_ancestor inv a (Relation.TransGen.head hstepa htg)
  have hapid0 : pid0 ≠ a :=
    fun he => no_self_parent inv hla (he ▸ hpid0)
  have haroot : a ≠ rootId := by
    intro he
    obtain ⟨r, hr, hrpar, _⟩ := inv.root
    rw [← he] at hr
    rw [hla] at hr
    injection hr with hr
    subst hr
    rw [hpid0] at hrpar
    exact Option.noConfusion hrpar
  have hrootstep : ∀ z, ¬ parentStep s rootId z := by
    intro z hz
    obtain ⟨n2, hn2, hp2⟩ := hz
    obtain ⟨r, hr, hrpar, _⟩ := inv.root
    rw [hr] at hn2
    injection hn2 with hn2
    subst hn2
    rw [hrpar] at hp2
    exact Option.noConfusion hp2
  have hrootnTG : ∀ y, ¬ Relation.TransGen (parentStep s) rootId y := by
    intro y htg
    rcases Relation.TransGen.head'_iff.mp htg with ⟨z, hz, _⟩
    exact hrootstep z hz
  have hU : ∀ k, lookupNode
      (reassignCore s a b pid0 node oldP np2 (newParent.level + 1)) k
      = if a = k
        then some { node with parentId := some b, level := newParent.level + 1 }
        else if b = k then some { np2 with childrenIds := np2.childrenIds ++ [a] }
        else if pid0 = k
          then some { oldP with childrenIds := oldP.childrenIds.filter fun cid => cid ≠ a }
          else lookupNode s k := by
    intro k
    unfold reassignCore
    rw [lookupNode_insertNode, lookupNode_insertNode, lookupNode_insertNode]
  have hkeysU : keysOf (reassignCore s a b pid0 node oldP np2 (newParent.level + 1))
      = keysOf s := by
    unfold reassignCore
    have h1 : keysOf (insertNode s pid0
        { oldP with childrenIds := oldP.childrenIds.filter fun cid => cid ≠ a })
        = keysOf s :=
      keysOf_insertNode_mem _ _ _ (mem_keys_of_lookup_some _ _ _ holdP)
    have h2 : keysOf (insertNode (insertNode s pid0
        { oldP with childrenIds := oldP.childrenIds.filter fun cid => cid ≠ a })
        b { np2 with childrenIds := np2.childrenIds ++ [a] })
        = keysOf s := by
      rw [keysOf_insertNode_mem _ _ _ (by
        rw [show keysOf (insertNode s pid0
            { oldP with childrenIds := oldP.childrenIds.filter fun cid => cid ≠ a })
          = keysOf s from h1]
        exact mem_keys_of_lookup_some _ _ _ hlb)]
      exact h1
    rw [keysOf_insertNode_mem _ _ _ (by
      rw [h2]
      exact mem_keys_of_lookup_some _ _ _ hla)]
    exact h2
  have hUa : lookupNode
      (reassignCore s a b pid0 node oldP np2 (newParent.level + 1)) a
      = some { node with parentId := some b, level := newParent.level + 1 } := by
    rw [hU a, if_pos rfl]
  have hM4 := udl_spec inv s.length a node hla (by omega) (s.length + 1)
    (by omega) (reassignCore s a b pid0 node oldP np2 (newParent.level + 1))
    (newParent.level + 1) { node with parentId := some b, level := newParent.level + 1 }
    hUa rfl rfl
    (by
      intro y hy
      have hya : ¬ a = y := fun he => hanTG (he ▸ hy)
      have hyb : ¬ b = y := fun he => hnTG (he ▸ hy)
      have hyp0 : ¬ pid0 = y := fun he => hpid0nTG (he ▸ hy)
      rw [hU y, if_neg hya, if_neg hyb, if_neg hyp0])
  have hMdesc : ∀ k, Relation.TransGen (parentStep s) k a →
      lookupNode (updateDescendantLevels (s.length + 1)
        (reassignCore s a b pid0 node oldP np2 (newParent.level + 1)) a) k
      = (lookupNode s k).map
        (fun n => { n with level := (newParent.level + 1) + (n.level - node.level) }) := by
    intro k hk
    rw [hM4 k, if_pos hk]
  have hMa : lookupNode (updateDescendantLevels (s.length + 1)
      (reassignCore s a b pid0 node oldP np2 (newParent.level + 1)) a) a
      = some { node with parentId := some b, level := newParent.level + 1 } := by
    rw [hM4 a, if_neg hanTG, hUa]
  have hMb : lookupNode (updateDescendantLevels (s.length + 1)
      (reassignCore s a b pid0 node oldP np2 (newParent.level + 1)) a) b
      = some { np2 with childrenIds := np2.childrenIds ++ [a] } := by
    rw [hM4 b, if_neg hnTG, hU b, if_neg (fun he => hab he), if_pos rfl]
  have hMp0 : pid0 ≠ b → lookupNode (updateDescendantLevels (s.length + 1)
      (reassignCore s a b pid0 node oldP np2 (newParent.level + 1)) a) pid0
      = some { oldP with childrenIds := oldP.childrenIds.filter fun cid => cid ≠ a } := by
    intro hp0b
    rw [hM4 pid0, if_neg hpid0nTG, hU pid0,
      if_neg (fun he => hapid0 he.symm), if_neg (fun he => hp0b he.symm), if_pos rfl]
  have hMelse : ∀ k, ¬ Relation.TransGen (parentStep s) k a →
      k ≠ a → k ≠ b → k ≠ pid0 →
      lookupNode (updateDescendantLevels (s.length + 1)
        (reassignCore s a b pid0 node oldP np2 (newParent.level + 1)) a) k
      = lookupNode s k := by
    intro k hkTG hka hkb hkp0
    rw [hM4 k, if_neg hkTG, hU k, if_neg (fun he => hka he.symm),
      if_neg (fun he => hkb he.symm), if_neg (fun he => hkp0 he.symm)]
  have hkeysM : keysOf (updateDescendantLevels (s.length + 1)
      (reassignCore s a b pid0 node oldP np2 (newParent.level + 1)) a)
      = keysOf s := by
    rw [keysOf_udl, hkeysU]
  have hndM : (keysOf (updateDescendantLevels (s.length + 1)
      (reassignCore s a b pid0 node oldP np2 (newParent.level + 1)) a)).Nodup := by
    rw [hkeysM]
    exact inv.nodup
  have hsrc : ∀ k n, lookupNode (updateDescendantLevels (s.length + 1)
      (reassignCore s a b pid0 node oldP np2 (newParent.level + 1)) a) k = some n →
      (Relation.TransGen (parentStep s) k a
        ∧ ∃ n0, lookupNode s k = some n0
          ∧ n = { n0 with level := (newParent.level + 1) + (n0.level - node.level) })
      ∨ (¬ Relation.TransGen (parentStep s) k a
        ∧ ((k = a ∧ n = { node with parentId := some b, level := newParent.level + 1 })
          ∨ (k ≠ a ∧ k = b ∧ n = { np2 with childrenIds := np2.childrenIds ++ [a] })
          ∨ (k ≠ a ∧ k ≠ b ∧ k = pid0
            ∧ n = { oldP with childrenIds := oldP.childrenIds.filter fun cid => cid ≠ a })
          ∨ (k ≠ a ∧ k ≠ b ∧ k ≠ pid0 ∧ lookupNode s k = some n))) := by
    intro k n hkn
    by_cases hk : Relation.TransGen (parentStep s) k a
    · left
      refine ⟨hk, ?_⟩
      rw [hMdesc k hk] at hkn
      cases hsk : lookupNode s k with
      | none => rw [hsk] at hkn; exact Option.noConfusion hkn
      | some n0 =>
        rw [hsk] at hkn
        simp only [Option.map_some', Option.some.injEq] at hkn
        exact ⟨n0, rfl, hkn.symm⟩
    · right
      refine ⟨hk, ?_⟩
      rw [hM4 k, if_neg hk, hU k] at hkn
      by_cases h1 : a = k
      · rw [if_pos h1] at hkn
        injection hkn with hkn
        exact Or.inl ⟨h1.symm, hkn.symm⟩
      · rw [if_neg h1] at hkn
        by_cases h2 : b = k
        · rw [if_pos h2] at hkn
          injection hkn with hkn
          exact Or.inr (Or.inl ⟨fun he => h1 he.symm, h2.symm, hkn.symm⟩)
        · rw [if_neg h2] at hkn
          by_cases h3 : pid0 = k
          · rw [if_pos h3] at hkn
            injection hkn with hkn
            exact Or.inr (Or.inr (Or.inl
              ⟨fun he => h1 he.symm, fun he => h2 he.symm, h3.symm, hkn.symm⟩))
          · rw [if_neg h3] at hkn
            exact Or.inr (Or.inr (Or.inr
              ⟨fun he => h1 he.symm, fun he => h2 he.symm, fun he => h3 he.symm, hkn⟩))
  have hchildloc : ∀ (k0 : String) (nk0 : MindMapNode),
      lookupNode s k0 = some nk0 → ∀ c ∈ nk0.childrenIds, c ≠ a →
      ∃ mc, lookupNode (updateDescendantLevels (s.length + 1)
          (reassignCore s a b pid0 node oldP np2 (newParent.level + 1)) a) c
        = some mc ∧ mc.parentId = some k0 := by
    intro k0 nk0 hk0 c hc hca
    obtain ⟨cn, hcn, hcp⟩ := inv.cp k0 nk0 hk0 c hc
    by_cases hcTG : Relation.TransGen (parentStep s) c a
    · refine ⟨{ cn with level := (newParent.level + 1) + (cn.level - node.level) },
        ?_, hcp⟩
      rw [hMdesc c hcTG, hcn]
      rfl
    · by_cases hcb : c = b
      · have hcb2 := hcb.symm
        subst hcb2
        refine ⟨{ np2 with childrenIds := np2.childrenIds ++ [a] }, hMb, ?_⟩
        show np2.parentId = some k0
        rw [hnp2par]
        have he : newParent = cn := by
          rw [hlb] at hcn
          injection hcn
        rw [he]
        exact hcp
      · by_cases hcp0 : c = pid0
        · have hcp02 := hcp0.symm
          subst hcp02
          have hp0b : pid0 ≠ b := hcb
          refine ⟨{ oldP with childrenIds := oldP.childrenIds.filter fun cid => cid ≠ a },
            hMp0 hp0b, ?_⟩
          show oldP.parentId = some k0
          have he : oldP = cn := by
            rw [holdP] at hcn
            injection hcn
          rw [he]
          exact hcp
        · refine ⟨cn, ?_, hcp⟩
          rw [hMelse c hcTG hca hcb hcp0]
          exact hcn
  have hparloc : ∀ (k0 p : String) (pn0 : MindMapNode),
      lookupNode s p = some pn0 → k0 ∈ pn0.childrenIds → parentStep s k0 p →
      ¬ Relation.TransGen (parentStep s) k0 a → k0 ≠ a →
      ∃ mp, lookupNode (updateDescendantLevels (s.length + 1)
          (reassignCore s a b pid0 node oldP np2 (newParent.level + 1)) a) p
        = some mp ∧ k0 ∈ mp.childrenIds ∧ mp.level = pn0.level := by
    intro k0 p pn0 hpn0 hmem hstep hknTG hka
    have hpnTG : ¬ Relation.TransGen (parentStep s) p a :=
      fun htg => hknTG (Relation.TransGen.head hstep htg)
    have hpa : p ≠ a := fun he => hknTG (he ▸ Relation.TransGen.single hstep)
    by_cases hpb : p = b
    · have hpb2 := hpb.symm
      subst hpb2
      have hpe : newParent = pn0 := by
        rw [hlb] at hpn0
        injection hpn0
      refine ⟨{ np2 with childrenIds := np2.childrenIds ++ [a] }, hMb, ?_, ?_⟩
      · show k0 ∈ np2.childrenIds ++ [a]
        apply List.mem_append_left
        rw [hnp2mem k0]
        exact ⟨by rw [hpe]; exact hmem, hka⟩
      · show np2.level = pn0.level
        rw [hnp2lev, hpe]
    · by_cases hpp0 : p = pid0
      · have hpp02 := hpp0.symm
        subst hpp02
        have hpe : oldP = pn0 := by
          rw [holdP] at hpn0
          injection hpn0
        refine ⟨{ oldP with childrenIds := oldP.childrenIds.filter fun cid => cid ≠ a },
          hMp0 hpb, ?_, ?_⟩
        · show k0 ∈ oldP.childrenIds.filter fun cid => cid ≠ a
          rw [List.mem_filter]
          constructor
          · rw [hpe]
            exact hmem
          · simp only [decide_eq_true_eq]
            exact hka
        · show oldP.level = pn0.level
          rw [hpe]
      · refine ⟨pn0, ?_, hmem, rfl⟩
        rw [hMelse p hpnTG hpa hpb hpp0]
        exact hpn0
  refine ⟨hndM, ?_, ?_, ?_, ?_, ?_, ?_, ?_⟩
  · intro q hq
    have hl := lookup_of_mem hndM hq
    rcases hsrc q.1 q.2 hl with ⟨_, n0, hn0, hne⟩ | ⟨_, hcase⟩
    · rw [hne]
      show n0.id = q.1
      exact lookup_id_eq inv.ids hn0
    · rcases hcase with ⟨hk, hne⟩ | ⟨_, hk, hne⟩ | ⟨_, _, hk, hne⟩ | ⟨_, _, _, hks⟩
      · rw [hne]
        show node.id = q.1
        rw [lookup_id_eq inv.ids hla, hk]
      · rw [hne]
        show np2.id = q.1
        rw [hnp2id, lookup_id_eq inv.ids hlb, hk]
      · rw [hne]
        show oldP.id = q.1
        rw [lookup_id_eq inv.ids holdP, hk]
      · exact inv.ids q (entry_mem_of_lookup_some _ _ _ hks)
  · intro k n hkn
    rcases hsrc k n hkn with ⟨_, n0, hn0, _⟩ | ⟨_, hcase⟩
    · exact inv.keyNe k n0 hn0
    · rcases hcase with ⟨hk, _⟩ | ⟨_, hk, _⟩ | ⟨_, _, hk, _⟩ | ⟨_, _, _, hks⟩
      · rw [hk]
        exact inv.keyNe a node hla
      · rw [hk]
        exact inv.keyNe b newParent hlb
      · rw [hk]
        exact inv.keyNe pid0 oldP holdP
      · exact inv.keyNe k n hks
  · obtain ⟨r, hr, hrpar, hrlev⟩ := inv.root
    have hrb : rootId = b → newParent = r := by
      intro he
      rw [← he] at hlb
      rw [hr] at hlb
      injection hlb with h2
      exact h2.symm
    have hrnTG : ¬ Relation.TransGen (parentStep s) rootId a := hrootnTG a
    by_cases h2 : rootId = b
    · refine ⟨{ np2 with childrenIds := np2.childrenIds ++ [a] }, ?_, ?_, ?_⟩
      · rw [h2]
        exact hMb
      · show np2.parentId = none
        rw [hnp2par, hrb h2]
        exact hrpar
      · show np2.level = 0
        rw [hnp2lev, hrb h2]
        exact hrlev
    · by_cases h3 : rootId = pid0
      · have hre : oldP = r := by
          rw [← h3] at holdP
          rw [hr] at holdP
          injection holdP with h4
          exact h4.symm
        refine ⟨{ oldP with childrenIds := oldP.childrenIds.filter fun cid => cid ≠ a },
          ?_, ?_, ?_⟩
        · rw [h3]
          exact hMp0 (fun he => h2 (h3.trans he))
        · show oldP.parentId = none
          rw [hre]
          exact hrpar
        · show oldP.level = 0
          rw [hre]
          exact hrlev
      · refine ⟨r, ?_, hrpar, hrlev⟩
        rw [hMelse rootId hrnTG (fun he => haroot he.symm) h2 h3]
        exact hr
  · intro k n hkn hpno
    rcases hsrc k n hkn with ⟨_, n0, hn0, hne⟩ | ⟨_, hcase⟩
    · have : n.parentId = n0.parentId := by rw [hne]
      rw [this] at hpno
      exact inv.uroot k n0 hn0 hpno
    · rcases hcase with ⟨hk, hne⟩ | ⟨_, hk, hne⟩ | ⟨_, _, hk, hne⟩ | ⟨_, _, _, hks⟩
      · exfalso
        have : n.parentId = some b := by rw [hne]
        rw [this] at hpno
        exact Option.noConfusion hpno
      · have : n.parentId = newParent.parentId := by rw [hne]; exact hnp2par
        rw [this] at hpno
        rw [hk]
        exact inv.uroot b newParent hlb hpno
      · have : n.parentId = oldP.parentId := by rw [hne]
        rw [this] at hpno
        rw [hk]
        exact inv.uroot pid0 oldP holdP hpno
      · exact inv.uroot k n hks hpno
  · intro k n hkn
    rcases hsrc k n hkn with ⟨_, n0, hn0, hne⟩ | ⟨_, hcase⟩
    · have : n.childrenIds = n0.childrenIds := by rw [hne]
      rw [this]
      exact inv.cnodup k n0 hn0
    · rcases hcase with ⟨hk, hne⟩ | ⟨_, hk, hne⟩ | ⟨_, _, hk, hne⟩ | ⟨_, _, _, hks⟩
      · have : n.childrenIds = node.childrenIds := by rw [hne]
        rw [this]
        exact inv.cnodup a node hla
      · have : n.childrenIds = np2.childrenIds ++ [a] := by rw [hne]
        rw [this]
        refine (List.nodup_append).mpr ⟨hnp2nd, List.nodup_singleton _, ?_⟩
        intro q hq hq2
        simp only [List.mem_singleton] at hq2
        subst hq2
        exact ((hnp2mem q).mp hq).2 rfl
      · have : n.childrenIds = oldP.childrenIds.filter fun cid => cid ≠ a := by
          rw [hne]
        rw [this]
        exact (inv.cnodup pid0 oldP holdP).filter _
      · exact inv.cnodup k n hks
  · intro k n hkn c hc
    rcases hsrc k n hkn with ⟨hkTG, n0, hn0, hne⟩ | ⟨hkTG, hcase⟩
    · have hcids : n.childrenIds = n0.childrenIds := by rw [hne]
      rw [hcids] at hc
      have hca : c ≠ a := by
        intro he
        have he2 := he.symm
        subst he2
        obtain ⟨cn, hcn, hcp⟩ := inv.cp k n0 hn0 a hc
        rw [hla] at hcn
        injection hcn with hcn
        subst hcn
        rw [hpid0] at hcp
        injection hcp with hcp
        exact hpid0nTG (hcp ▸ hkTG)
      exact hchildloc k n0 hn0 c hc hca
    · rcases hcase with ⟨hk, hne⟩ | ⟨_, hk, hne⟩ | ⟨_, _, hk, hne⟩ | ⟨hka, hkb, hkp0, hks⟩
      · have hk2 := hk.symm
        subst hk2
        have hcids : n.childrenIds = node.childrenIds := by rw [hne]
        rw [hcids] at hc
        have hca : c ≠ a := fun he => no_self_child inv hla (he ▸ hc)
        exact hchildloc a node hla c hc hca
      · have hk2 := hk.symm
        subst hk2
        have hcids : n.childrenIds = np2.childrenIds ++ [a] := by rw [hne]
        rw [hcids] at hc
        rcases List.mem_append.mp hc with hc1 | hc2
        · obtain ⟨hcm, hca⟩ := (hnp2mem c).mp hc1
          exact hchildloc b newParent hlb c hcm hca
        · have hc2' : a = c := Eq.symm (by simpa using hc2)
          subst hc2'
          refine ⟨{ node with parentId := some b, level := newParent.level + 1 },
            hMa, rfl⟩
      · have hk2 := hk.symm
        subst hk2
        have hcids : n.childrenIds = oldP.childrenIds.filter fun cid => cid ≠ a := by
          rw [hne]
        rw [hcids] at hc
        have hcf := List.mem_filter.mp hc
        have hca : c ≠ a := by simpa using hcf.2
        exact hchildloc pid0 oldP holdP c hcf.1 hca
      · have hca : c ≠ a := by
          intro he
          have he2 := he.symm
          subst he2
          obtain ⟨cn, hcn, hcp⟩ := inv.cp k n hks a hc
          rw [hla] at hcn
          injection hcn with hcn
          subst hcn
          rw [hpid0] at hcp
          injection hcp with hcp
          exact hkp0 hcp.symm
        exact hchildloc k n hks c hc hca
  · intro k n p hkn hpk
    rcases hsrc k n hkn with ⟨hkTG, n0, hn0, hne⟩ | ⟨hkTG, hcase⟩
    · have hnp : n.parentId = n0.parentId := by rw [hne]
      rw [hnp] at hpk
      have hnlev : n.level = (newParent.level + 1) + (n0.level - node.level) := by
        rw [hne]
      obtain ⟨pn0, hpn0, hmem, hlv⟩ := inv.pc k n0 p hn0 hpk
      have hstep : parentStep s k p := ⟨n0, hn0, hpk⟩
      rcases Relation.TransGen.head'_iff.mp hkTG with ⟨z, hz, hrest⟩
      have hzp : p = z := (parentStep_unique hz hstep).symm
      subst hzp
      rcases Relation.ReflTransGen.cases_head hrest with hpa | ⟨w, hw, hrw⟩
      · have hpa2 := hpa.symm
        subst hpa2
        have hpe : node = pn0 := by
          rw [hla] at hpn0
          injection hpn0
        refine ⟨{ node with parentId := some b, level := newParent.level + 1 },
          hMa, ?_, ?_⟩
        · show k ∈ node.childrenIds
          rw [hpe]
          exact hmem
        · show n.level = (newParent.level + 1) + 1
          rw [hnlev]
          have : n0.level = node.level + 1 := by rw [hpe]; exact hlv
          omega
      · have hpTG : Relation.TransGen (parentStep s) p a :=
          Relation.TransGen.head' hw hrw
        have hlt := level_lt_of_transGen inv hpTG pn0 node hpn0 hla
        refine ⟨{ pn0 with level := (newParent.level + 1) + (pn0.level - node.level) },
          ?_, hmem, ?_⟩
        · rw [hMdesc p hpTG, hpn0]
          rfl
        · show n.level = ((newParent.level + 1) + (pn0.level - node.level)) + 1
          rw [hnlev]
          omega
    · rcases hcase with ⟨hk, hne⟩ | ⟨hka, hk, hne⟩ | ⟨hka, hkb, hk, hne⟩ | ⟨hka, hkb, hkp0, hks⟩
      · have hk2 := hk.symm
        subst hk2
        have hnp : n.parentId = some b := by rw [hne]
        rw [hnp] at hpk
        injection hpk with hpk
        subst hpk
        refine ⟨{ np2 with childrenIds := np2.childrenIds ++ [a] }, hMb, ?_, ?_⟩
        · show a ∈ np2.childrenIds ++ [a]
          simp
        · have h1 : n.level = newParent.level + 1 := by rw [hne]
          have h2 : ({ np2 with childrenIds := np2.childrenIds ++ [a] }
              : MindMapNode).level = newParent.level := hnp2lev
          rw [h1, h2]
      · have hk2 := hk.symm
        subst hk2
        have hnp : n.parentId = newParent.parentId := by rw [hne]; exact hnp2par
        rw [hnp] at hpk
        obtain ⟨pn0, hpn0, hmem, hlv⟩ := inv.pc b newParent p hlb hpk
        have hstep : parentStep s b p := ⟨newParent, hlb, hpk⟩
        obtain ⟨mp, hmp, hmpmem, hmplev⟩ :=
          hparloc b p pn0 hpn0 hmem hstep hkTG hka
        refine ⟨mp, hmp, hmpmem, ?_⟩
        have h1 : n.level = newParent.level := by rw [hne]; exact hnp2lev
        omega
      · have hk2 := hk.symm
        subst hk2
        have hnp : n.parentId = oldP.parentId := by rw [hne]
        rw [hnp] at hpk
        obtain ⟨pn0, hpn0, hmem, hlv⟩ := inv.pc pid0 oldP p holdP hpk
        have hstep : parentStep s pid0 p := ⟨oldP, holdP, hpk⟩
        obtain ⟨mp, hmp, hmpmem, hmplev⟩ :=
          hparloc pid0 p pn0 hpn0 hmem hstep hkTG hka
        refine ⟨mp, hmp, hmpmem, ?_⟩
        have h1 : n.level = oldP.level := by rw [hne]
        omega
      · obtain ⟨pn0, hpn0, hmem, hlv⟩ := inv.pc k n p hks hpk
        have hstep : parentStep s k p := ⟨n, hks, hpk⟩
        obtain ⟨mp, hmp, hmpmem, hmplev⟩ :=
          hparloc k p pn0 hpn0 hmem hstep hkTG hka
        refine ⟨mp, hmp, hmpmem, ?_⟩
        omega

/-- `reassignParent` preserves the tree invariant in every case (missing
ids, self-reparent, cycle guard, and commit). -/
theorem reassignParent_preserves (s : MMState) (inv : TreeInv s.nodes s.rootNodeId)
    (a b : String) :
    TreeInv (reassignParent s a b).nodes (reassignParent s a b).rootNodeId := by
  cases hla : lookupNode s.nodes a with
  | none =>
    rw [show reassignParent s a b = s from by simp [reassignParent, hla]]
    exact inv
  | some node =>
    cases hlb : lookupNode s.nodes b with
    | none =>
      rw [show reassignParent s a b = s from by simp [reassignParent, hla, hlb]]
      exact inv
    | some newParent =>
      by_cases hab : a = b
      · rw [show reassignParent s a b = s from by
          simp [reassignParent, hla, hlb, hab]]
        exact inv
      · by_cases hguard : isDescendantWalk s.nodes s.nodes.length b a = true
        · rw [show reassignParent s a b = s from by
            simp [reassignParent, hla, hlb, hab, hguard]]
          exact inv
        · have hnTG : ¬ Relation.TransGen (parentStep s.nodes) b a := by
            intro htg
            exact hguard (isDescendantWalk_complete inv s.nodes.length b a htg
              newParent hlb (by have := level_lt_length inv hlb; omega))
          have haroot : a ≠ s.rootNodeId := by
            intro he
            apply hnTG
            rw [he]
            exact root_reachable inv s.nodes.length b newParent hlb
              (by have := level_lt_length inv hlb; omega)
              (fun he2 => hab (he.trans he2.symm))
          cases hpid0 : node.parentId with
          | none => exact absurd (inv.uroot a node hla hpid0) haroot
          | some pid0 =>
            obtain ⟨oldP, holdP, hamem, halev⟩ := inv.pc a node pid0 hla hpid0
            have hpid0ne : pid0 ≠ "" := inv.keyNe pid0 oldP holdP
            have hjs : jsTruthy node.parentId = true := by
              rw [hpid0]
              exact jsTruthy_some hpid0ne
            have hapid0 : ¬ pid0 = a :=
              fun he => no_self_parent inv hla (he ▸ hpid0)
            have hba : ¬ b = a := fun he => hab he.symm
            by_cases hp0b : pid0 = b
            · have heq : oldP = newParent := by
                rw [hp0b] at holdP
                rw [hlb] at holdP
                injection holdP with h4
                exact h4.symm
              have e2 : lookupNode (insertNode s.nodes pid0
                  { oldP with childrenIds := oldP.childrenIds.filter fun cid => cid ≠ a }) b
                  = some { oldP with
                      childrenIds := oldP.childrenIds.filter fun cid => cid ≠ a } := by
                rw [lookupNode_insertNode, if_pos hp0b]
              have e3 : lookupNode (insertNode (insertNode s.nodes pid0
                  { oldP with childrenIds := oldP.childrenIds.filter fun cid => cid ≠ a }) b
                  { oldP with childrenIds :=
                      (oldP.childrenIds.filter fun cid => cid ≠ a) ++ [a] }) a
                  = some node := by
                rw [lookupNode_insertNode, if_neg hba,
                  lookupNode_insertNode, if_neg hapid0]
                exact hla
              have hteq : reassignParent s a b
                  = saveToHistory
                      { s with
                        nodes := rebalanceTree
                          (updateDescendantLevels (s.nodes.length + 1)
                            (reassignCore s.nodes a b pid0 node oldP
                              { oldP with childrenIds :=
                                  oldP.childrenIds.filter fun cid => cid ≠ a }
                              (newParent.level + 1)) a)
                          s.rootNodeId } := by
                simp only [reassignParent, hla, hlb, if_neg hab, if_neg hguard,
                  hjs, jsTruthy_some hpid0ne, if_true, hpid0, holdP, e2, e3,
                  reassignCore]
              rw [hteq]
              refine treeInv_rebalanceTree (treeInv_reassign inv hla hlb hab hnTG
                hpid0 holdP ?_ ?_ ?_ ?_ ?_)
              · show oldP.id = newParent.id
                rw [heq]
              · show oldP.parentId = newParent.parentId
                rw [heq]
              · show oldP.level = newParent.level
                rw [heq]
              · intro c
                show c ∈ oldP.childrenIds.filter (fun cid => cid ≠ a)
                  ↔ c ∈ newParent.childrenIds ∧ c ≠ a
                rw [List.mem_filter, heq]
                simp
              · show (oldP.childrenIds.filter fun cid => cid ≠ a).Nodup
                exact (inv.cnodup pid0 oldP holdP).filter _
            · have hanotin : a ∉ newParent.childrenIds := by
                intro hmem2
                obtain ⟨cn, hcn, hcp⟩ := inv.cp b newParent hlb a hmem2
                rw [hla] at hcn
                injection hcn with hcn
                subst hcn
                rw [hpid0] at hcp
                injection hcp with hcp
                exact hp0b hcp
              have e2 : lookupNode (insertNode s.nodes pid0
                  { oldP with childrenIds := oldP.childrenIds.filter fun cid => cid ≠ a }) b
                  = some newParent := by
                rw [lookupNode_insertNode, if_neg hp0b]
                exact hlb
              have e3 : lookupNode (insertNode (insertNode s.nodes pid0
                  { oldP with childrenIds := oldP.childrenIds.filter fun cid => cid ≠ a }) b
                  { newParent with childrenIds := newParent.childrenIds ++ [a] }) a
                  = some node := by
                rw [lookupNode_insertNode, if_neg hba,
                  lookupNode_insertNode, if_neg hapid0]
                exact hla
              have hteq : reassignParent s a b
                  = saveToHistory
                      { s with
                        nodes := rebalanceTree
                          (updateDescendantLevels (s.nodes.length + 1)
                            (reassignCore s.nodes a b pid0 node oldP newParent
                              (newParent.level + 1)) a)
                          s.rootNodeId } := by
                simp only [reassignParent, hla, hlb, if_neg hab, if_neg hguard,
                  hjs, jsTruthy_some hpid0ne, if_true, hpid0, holdP, e2, e3,
                  reassignCore]
              rw [hteq]
              refine treeInv_rebalanceTree (treeInv_reassign inv hla hlb hab hnTG
                hpid0 holdP rfl rfl rfl ?_ (inv.cnodup b newParent hlb))
              intro c
              constructor
              · intro hc
                refine ⟨hc, ?_⟩
                intro he
                rw [he] at hc
                exact hanotin hc
              · intro hc
                exact hc.1

/-! C1: invariant preservation. -/

theorem treeInv_initialState (rid : String) (hne : rid ≠ "") :
    TreeInv (initialState rid).nodes (initialState rid).rootNodeId := by
  have hlk : ∀ k, lookupNode (initialState rid).nodes k
      = if rid = k then some
          { id := rid, title := "Main Topic", position := ⟨400, 300⟩,
            color := DEFAULT_COLORS_black, isCompleted := false,
            isCollapsed := false, parentId := none, childrenIds := [],
            details := none, externalLink := none, level := 0,
            isSelected := true, isEditing := false }
        else none := by
    intro k
    rfl
  refine ⟨?_, ?_, ?_, ?_, ?_, ?_, ?_, ?_⟩
  · show ([rid] : List String).Nodup
    exact List.nodup_singleton _
  · intro p hp
    have hp2 : p = (rid,
        { id := rid, title := "Main Topic", position := ⟨400, 300⟩,
          color := DEFAULT_COLORS_black, isCompleted := false,
          isCollapsed := false, parentId := none, childrenIds := [],
          details := none, externalLink := none, level := 0,
          isSelected := true, isEditing := false }) := by
      simpa [initialState] using hp
    rw [hp2]
  · intro k n hl
    rw [hlk k] at hl
    by_cases h1 : rid = k
    · rw [← h1]
      exact hne
    · rw [if_neg h1] at hl
      exact Option.noConfusion hl
  · have hr0 : lookupNode (initialState rid).nodes rid = some
        { id := rid, title := "Main Topic", position := ⟨400, 300⟩,
          color := DEFAULT_COLORS_black, isCompleted := false,
          isCollapsed := false, parentId := none, childrenIds := [],
          details := none, externalLink := none, level := 0,
          isSelected := true, isEditing := false } := by
      rw [hlk rid, if_pos rfl]
    exact ⟨_, hr0, rfl, rfl⟩
  · intro k n hl _
    rw [hlk k] at hl
    by_cases h1 : rid = k
    · exact h1.symm
    · rw [if_neg h1] at hl
      exact Option.noConfusion hl
  · intro k n hl
    rw [hlk k] at hl
    by_cases h1 : rid = k
    · rw [if_pos h1] at hl
      injection hl with hl
      rw [← hl]
      exact List.nodup_nil
    · rw [if_neg h1] at hl
      exact Option.noConfusion hl
  · intro k n hl c hc
    rw [hlk k] at hl
    by_cases h1 : rid = k
    · rw [if_pos h1] at hl
      injection hl with hl
      rw [← hl] at hc
      simp at hc
    · rw [if_neg h1] at hl
      exact Option.noConfusion hl
  · intro k n p hl hp
    rw [hlk k] at hl
    by_cases h1 : rid = k
    · rw [if_pos h1] at hl
      injection hl with hl
      rw [← hl] at hp
      exact Option.noConfusion hp
    · rw [if_neg h1] at hl
      exact Option.noConfusion hl

/-- C1 counterexample: from the initial single-root tree, the call
`createNode(null, true)` — reachable from the context menu's "add sibling"
on the root, whose `parentId` is `null` — commits and leaves TWO parentless
nodes in the map, so the single-root invariant does not survive every
reachable operation sequence. -/
theorem c1_null_parent_counterexample :
    ((createNode (initialState "r") none true "n").map
        (fun p => (p.1.nodes.filter fun q => (Prod.snd q).parentId = none).map
          Prod.fst))
      = some ["r", "n"] := by decide

/-- C1 amended: the tree invariants (unique keys, id/key agreement, a
single parentless root at level 0, duplicate-free and bidirectionally
consistent parent/child links, levels one more than the parent's — from
which acyclicity and closure of `childrenIds` follow) hold in the initial
state and are preserved by `deleteNode` and `reassignParent`
unconditionally, and by every committed `createNode` whose `parentId`
argument is non-null and nonempty, provided the generated id is fresh and
nonempty.  The unrestricted claim fails for `createNode(null)`. -/
theorem c1_invariant_preservation :
    (∀ rid : String, rid ≠ "" →
      TreeInv (initialState rid).nodes (initialState rid).rootNodeId)
    ∧ (∀ (s : MMState) (pid : String) (sib : Bool) (nid : String)
        (t : MMState) (r : String),
      TreeInv s.nodes s.rootNodeId → pid ≠ "" →
      nid ∉ keysOf s.nodes → nid ≠ "" →
      createNode s (some pid) sib nid = some (t, r) →
      TreeInv t.nodes t.rootNodeId)
    ∧ (∀ (s : MMState) (x : String), TreeInv s.nodes s.rootNodeId →
        TreeInv (deleteNode s x).nodes (deleteNode s x).rootNodeId)
    ∧ (∀ (s : MMState) (a b : String), TreeInv s.nodes s.rootNodeId →
        TreeInv (reassignParent s a b).nodes (reassignParent s a b).rootNodeId) :=
  ⟨treeInv_initialState,
   fun s pid sib nid t r inv hpid hfresh hne h =>
     createNode_preserves s inv pid hpid sib nid hfresh hne t r h,
   fun s x inv => deleteNode_preserves s inv x,
   fun s a b inv => reassignParent_preserves s inv a b⟩

/-- Witness for the amended C1: the initial state at a concrete id, a
concrete committed delete, and a concrete committed reparent. -/
theorem c1_invariant_preservation_witness :
    TreeInv (initialState "r").nodes (initialState "r").rootNodeId
    ∧ TreeInv (deleteNode wState3 "a").nodes (deleteNode wState3 "a").rootNodeId
    ∧ TreeInv (reassignParent wState3 "a" "b").nodes
        (reassignParent wState3 "a" "b").rootNodeId := by
  have hinvD : TreeInvD wState3.nodes wState3.rootNodeId := by decide
  exact ⟨c1_invariant_preservation.1 "r" (by decide),
    c1_invariant_preservation.2.2.1 wState3 "a" (treeInv_of_D hinvD),
    c1_invariant_preservation.2.2.2 wState3 "a" "b" (treeInv_of_D hinvD)⟩

end MyMap
